import Mathlib

/-!
SoPlex rational helpers (`src/soplex/rational.h`).

A shallow embedding of the helper functions that `rational.h` defines on top of
the multiprecision `Rational` / `Integer` types, together with the properties
proved about them.

* `Rational` is a normalised fraction (numerator and positive denominator without
  common factor); it is embedded as `ℚ`, whose `num` / `den` fields are exactly
  `numerator(r)` / `denominator(r)`.
* `Integer` is an arbitrary-precision integer, embedded as `ℤ`.
* A finite `double` is embedded as the rational number it denotes (every finite
  binary64 value is a dyadic rational); the conversion `Rational tmp = x` of a
  double to a rational is exact, so it is the identity of the embedding.
* A C++ exception is embedded as `Except.error`.
* Functions of the C and C++ standard libraries and of the multiprecision library
  (`std::stoi`, `pow`, `nextafter`, `msb`, `mpz_sizeinbase`, the `Rational`
  constructors) are not part of the sources; they are embedded after their documented
  behaviour, and where the spec describes them, after the spec.
-/

namespace Soplex

/-! ## Data model -/

/-- Failure kinds of the rational layer: a malformed string (the parse errors of the
multiprecision string constructor and of `std::stoi`), and an arithmetic domain
error (zero denominator, bit query on a non-positive integer). -/
inductive Error where
  | invalidInput
  | arithDomain
  deriving DecidableEq, Repr

/-- Equality of results is decidable, so that results can be compared by evaluation. -/
instance instDecidableEqExcept {ε α : Type} [DecidableEq ε] [DecidableEq α] :
    DecidableEq (Except ε α)
  | .ok a, .ok b => if h : a = b then isTrue (by rw [h]) else isFalse (by simpa using h)
  | .error a, .error b => if h : a = b then isTrue (by rw [h]) else isFalse (by simpa using h)
  | .ok _, .error _ => isFalse (by simp)
  | .error _, .ok _ => isFalse (by simp)

abbrev Rational := ℚ

abbrev Integer := ℤ

/-- The multiprecision `numerator(r)`. -/
def numerator (r : Rational) : Integer := r.num

/-- The multiprecision `denominator(r)`; always positive. -/
def denominator (r : Rational) : Integer := (r.den : ℤ)

/-- Index of the highest set bit of a natural number, by repeated halving
(`fuel` bounds the number of halvings). -/
def log2Aux : ℕ → ℕ → ℕ
  | 0, _ => 0
  | fuel + 1, n => if n < 2 then 0 else log2Aux fuel (n / 2) + 1

/-- Index of the highest set bit of `n` (`0` for `n ≤ 1`). -/
def log2Nat (n : ℕ) : ℕ := log2Aux n n

/-- Number of binary digits of `n`; `mpz_sizeinbase(n, 2)` returns `1` for `0`. -/
def bitLength (n : ℕ) : ℕ := log2Nat n + 1

/-- The multiprecision `msb(x)`: index of the most significant set bit. It is
defined for positive arguments only and raises for zero and for negative values
(the guard `roundval == 0 ? 1 : msb(roundval) + 1` of `powRound` exists for that
reason). -/
def msb (x : Integer) : Except Error ℕ :=
  if x ≤ 0 then .error .arithDomain else .ok (log2Nat x.toNat)

/-- Modelled from the spec: the two-integer constructor `Rational(a, b)` of the
multiprecision library (not under src/). It builds the normalised fraction `a / b`
and fails with an arithmetic domain error when `b` is zero ("Inversion (swap
numerator/denominator; fails if numerator is zero)"). -/
def mkRational (a b : Integer) : Except Error Rational :=
  if b = 0 then .error .arithDomain else .ok (Rat.divInt a b)

/-! ## `invert` -/

/-- The source's `invert(r)`: `r = Rational(denominator(r), numerator(r))`. The new value of `r`
is returned; a raised exception leaves no value. -/
def invert (r : Rational) : Except Error Rational :=
  mkRational (denominator r) (numerator r)

/-! ## `powRound` -/

/-- The source's `powRound(r)`: the integer quotient `num / den` (truncated towards zero) is
replaced by two to the power of its bit length; the bit length is passed to `pow`
through a cast to `unsigned int` (32 bits). The new value of `r` is returned. -/
def powRound (r : Rational) : Except Error Rational := do
  let num := numerator r
  let den := denominator r
  let roundval := Int.tdiv num den
  let binlog ← if roundval = 0 then pure 1 else (fun m => m + 1) <$> msb roundval
  let roundval := (2 : Integer) ^ (binlog % 2 ^ 32)
  pure (roundval : ℚ)

/-! ## `sizeInBase` -/

/-- Conversion `(int) x` of an unsigned size to a 32-bit signed integer. -/
def toInt32 (x : ℕ) : ℤ :=
  let y : ℕ := x % 2 ^ 32
  if y < 2 ^ 31 then (y : ℤ) else (y : ℤ) - 2 ^ 32

/-- The GMP function `mpz_sizeinbase(x, base)`: the number of digits of `|x|`. In base two the result
is the exact bit length (`1` for zero); for any other base `digits |x| base` stands
for the library's digit count. -/
def mpzSizeInBase (digits : ℕ → ℤ → ℕ) (x : Integer) (base : ℤ) : ℕ :=
  if base = 2 then bitLength x.natAbs else digits x.natAbs base

/-- The source's `sizeInBase(R, base)`. The flag `withGMP` selects the branch compiled under
`SOPLEX_WITH_GMP` (sizes by `mpz_sizeinbase`) or the other one (sizes by `msb` in
base two). `digits` stands for the digit count in a base other than two (the GMP
count, resp. the floating-point expression `log2(x) / log2(base)` truncated, which
is applied to the signed numerator and is passed the signed value here). -/
def sizeInBase (withGMP : Bool) (digits : ℕ → ℤ → ℕ) (digitsFloat : ℤ → ℤ → ℕ)
    (R : Rational) (base : ℤ) : Except Error ℤ :=
  if R = 0 then pure 3
  else do
    let num := numerator R
    let den := denominator R
    let (densize, numsize) ←
      if withGMP then
        pure (mpzSizeInBase digits den base, mpzSizeInBase digits num base)
      else if base ≠ 2 then
        pure (digitsFloat den base + 1, digitsFloat num base + 1)
      else do
        let d ← msb den
        let n ← msb num
        pure (d + 1, n + 1)
    pure (toInt32 (densize + numsize))

/-! ## Finite binary64 values

A finite `double` is the rational `m * 2 ^ e` with `|m| < 2 ^ 53` and
`-1074 ≤ e`; infinities and NaN have no rational value and are outside the
embedding. -/

/-- The integer `⌊log₂ |q|⌋` for a non-zero rational `q`, from the bit lengths of numerator and
denominator. -/
def floorLog2 (q : ℚ) : ℤ :=
  let k : ℤ := (bitLength q.num.natAbs : ℤ) - (bitLength q.den : ℤ)
  if (2 : ℚ) ^ k ≤ |q| then k else k - 1

/-- Exponent of the spacing of the binary64 grid at `q` (53 significant bits,
gradual underflow below `2 ^ (-1022)`). -/
def ulpExp (q : ℚ) : ℤ := max (floorLog2 q - 52) (-1074)

/-- Nearest integer, ties to the even one. -/
def roundHalfEven (x : ℚ) : ℤ :=
  let f := ⌊x⌋
  let t := x - f
  if t < 1 / 2 then f else if 1 / 2 < t then f + 1 else if f % 2 = 0 then f else f + 1

/-- The binary64 value nearest to `q` (ties to even), as a rational: the value of a
decimal floating literal such as `1e100`, and the default conversion to `double`. -/
def roundDouble (q : ℚ) : ℚ :=
  if q = 0 then 0 else (roundHalfEven (q / 2 ^ ulpExp q) : ℚ) * 2 ^ ulpExp q

/-- The `double` literal `1e100`. -/
def double1e100 : ℚ := roundDouble (10 ^ 100)

/-- The next binary64 value above `x`. -/
def nextUp (x : ℚ) : ℚ :=
  if x = 0 then 2 ^ (-1074 : ℤ)
  else if 0 < x then x + 2 ^ ulpExp x
  else x + 2 ^ ulpExp (x + 2 ^ (-1075 : ℤ))

/-- The next binary64 value below `x`. -/
def nextDown (x : ℚ) : ℚ := -nextUp (-x)

/-- The C library's `nextafter(x, y)` on finite doubles: the neighbour of `x` in the
direction of `y`, and `y` itself when they are equal. -/
def nextafter (x y : ℚ) : ℚ :=
  if x < y then nextUp x else if y < x then nextDown x else y

/-- The C library's `pow(x, y)` called on two `int` arguments, as in `pow(10, mult)`:
the arguments are promoted to `double` and the result is the `double` nearest to
`x ^ y`. A result that is not finite has no rational value. The C library does not
promise the nearest double where `x ^ y` is not a double (an implementation may be off
by one unit in the last place, as at `10 ^ 23`); the properties below use the function
only where the nearest double is what the implementations return. -/
def stdPow (x y : ℤ) : Except Error ℚ :=
  if x = 0 ∧ y < 0 then .error .arithDomain
  else
    let v := roundDouble ((x : ℚ) ^ y)
    if |v| < 2 ^ 1024 then .ok v else .error .arithDomain

/-! ## `isAdjacentTo` -/

/-- The source's `isAdjacentTo(r, d)`. The conversion `(double) r` is the parameter
`toDouble`: the source provides for a conversion that rounds down as well as for one
that rounds up. -/
def isAdjacentTo (toDouble : ℚ → ℚ) (r : Rational) (d : ℚ) : Bool :=
  let x := toDouble r
  let tmp : Rational := x
  -- the rational value is representable in double precision
  if tmp = r then true
  -- the rounded value is smaller than the rational value
  else if tmp < r then
    let a := x
    let b := nextafter a double1e100
    (a == d) || (b == d)
  -- the rounded value is larger than the rational value
  else
    let b := x
    let a := nextafter b (-double1e100)
    (a == d) || (b == d)

/-! ## Strings

A `std::string` is embedded as the list of its characters; positions are natural
numbers and `npos` is the largest `size_t`. -/

/-- The constant `std::string::npos`. -/
def npos : ℕ := 2 ^ 64 - 1

/-- The character `s[0]`; the terminating NUL for the empty string. -/
def front (s : List Char) : Char := s.headD (Char.ofNat 0)

/-- The position `s.find(c)`. -/
def strFind (s : List Char) (c : Char) : ℕ :=
  if c ∈ s then s.indexOf c else npos

/-- The position `s.find_first_of(cs)`. -/
def findFirstOf (s cs : List Char) : ℕ :=
  if s.any (fun c => cs.contains c) then s.findIdx (fun c => cs.contains c) else npos

/-- The position `s.find_first_not_of(c)`. -/
def findFirstNotOf (s : List Char) (c : Char) : ℕ :=
  if s.any (fun x => x != c) then s.findIdx (fun x => x != c) else npos

/-- The string `s.substr(pos, n)` for `pos ≤ s.size()`. -/
def substr (s : List Char) (pos n : ℕ) : List Char := (s.drop pos).take n

/-- The string after `s.erase(pos, n)` for `pos ≤ s.size()`. -/
def strErase (s : List Char) (pos n : ℕ) : List Char := s.take pos ++ s.drop (pos + n)

/-- The predicate `std::isspace` in the C locale. -/
def isSpace (c : Char) : Bool := c == ' ' || (9 ≤ c.toNat && c.toNat ≤ 13)

/-- Value of a decimal digit character. -/
def digitValue (c : Char) : ℕ := c.toNat - 48

/-- Value of a string of decimal digits. -/
def decimalValue (ds : List Char) : ℕ := ds.foldl (fun acc c => 10 * acc + digitValue c) 0

/-- The library's `std::stoi(s)`: leading white space is skipped, an optional sign and
the longest run of decimal digits are read and whatever follows is ignored. It raises
when no digit can be read and when the value does not fit an `int` (32 bits). -/
def stoi (s : List Char) : Except Error ℤ :=
  let s := s.dropWhile isSpace
  let (neg, s) := match s with
    | '-' :: t => (true, t)
    | '+' :: t => (false, t)
    | _ => (false, s)
  let ds := s.takeWhile Char.isDigit
  if ds = [] then .error .invalidInput
  else
    let v : ℤ := if neg then -(decimalValue ds : ℤ) else (decimalValue ds : ℤ)
    if v < -(2 ^ 31) ∨ 2 ^ 31 - 1 < v then .error .invalidInput else .ok v

/-- An optionally negated, non-empty string of decimal digits. -/
def parseInteger (s : List Char) : Except Error Integer :=
  if front s = '-' then
    let t := s.drop 1
    if t ≠ [] ∧ t.all Char.isDigit then .ok (-(decimalValue t : ℤ)) else .error .invalidInput
  else
    if s ≠ [] ∧ s.all Char.isDigit then .ok (decimalValue s : ℤ) else .error .invalidInput

/-- Modelled from the spec: the string constructor `Rational(const char*)` of the
multiprecision library (not under src/): "fraction string p/q", "A string lacking
`.`, `e`, `E` is parsed as `p/q` if it contains `/`; otherwise as an integer". The
numerator is an optionally negated digit string and the denominator a digit string,
both read in base ten; any other text is rejected as invalid input (the GMP parser
rejects a numerator without a digit), and a zero denominator is a division by
zero. -/
def rationalOfString (s : List Char) : Except Error Rational :=
  match s.dropWhile (fun c => c != '/') with
  | [] => do
    let n ← parseInteger s
    pure (n : ℚ)
  | _ :: q => do
    let n ← parseInteger (s.takeWhile (fun c => c != '/'))
    if q ≠ [] ∧ q.all Char.isDigit then mkRational n (decimalValue q)
    else .error .invalidInput

/-! ## `findSubStringIC` and `ratFromString` -/

/-- The pattern occurs at the head of the text, letters compared through
`std::toupper`. -/
def matchesAtIC : List Char → List Char → Bool
  | [], _ => true
  | _ :: _, [] => false
  | a :: as, b :: bs => (a.toUpper == b.toUpper) && matchesAtIC as bs

/-- The source's `findSubStringIC(substr, str)` (`std::search` with a case-insensitive
comparison): the position of the first occurrence of `substr` in `str`, and
`str.length` (the `end()` iterator) when there is none. -/
def findSubStringIC (substr : List Char) : List Char → ℕ
  | [] => 0
  | c :: cs => if matchesAtIC substr (c :: cs) then 0 else findSubStringIC substr cs + 1

/-- The block of `ratFromString` that rewrites a decimal mantissa `s` (the exponent
already cut off) into the text handed to the string constructor: a leading `.` gets
a `0` in front; when there is a `.`, it is erased, padding zeros are removed and
`/1000…` with one zero per fractional digit is appended. The `assert` on the digits
is embedded as a failure. -/
def mantissaText (s : List Char) : Except Error (List Char) :=
  let s := if front s = '.' then '0' :: s else s
  let pos := strFind s '.'
  -- if s contains a ., convert it to a rational
  if pos ≠ npos then
    let exp := s.length - 1 - pos
    let den := '1' :: List.replicate exp '0'
    let s := strErase s pos 1
    if (s.drop 1).all Char.isDigit then
      -- remove padding 0s
      let s :=
        if front s = '-' then
          strErase s 1 (min (findFirstNotOf (substr s 1 npos) '0') (s.length - 1))
        else
          strErase s 0 (min (findFirstNotOf s '0') (s.length - 1))
      .ok (s ++ '/' :: den)
    else .error .invalidInput
  else .ok s

/-- Case 2 of `ratFromString`: the text `s` is a base-10 decimal number. The exponent
after the first `e` or `E` is read by `std::stoi` and cut off, the mantissa is
rewritten by `mantissaText` and handed to the string constructor, and the result is
multiplied by `pow(10, mult)`. -/
def ratFromDecimal (s : List Char) : Except Error Rational := do
  let it := findSubStringIC ['e'] s
  let (mult, s) ←
    if it ≠ s.length then do
      let exponentidx := it
      let mult ← stoi (substr s (exponentidx + 1) s.length)
      pure (mult, substr s 0 exponentidx)
    else pure ((0 : ℤ), s)
  let s ← mantissaText s
  let res ← if front s = '+' then rationalOfString (s.drop 1) else rationalOfString s
  let p ← stdPow 10 mult
  pure (res * p)

/-- The source's `ratFromString(desc)`: the texts `inf` and `-inf` give the double
constants `1e100` and `-1e100`; a text without `.`, `E`, `e` goes to the string
constructor (case 1), any other text is read as a decimal number (case 2). -/
def ratFromString (desc : String) : Except Error Rational :=
  if desc = "inf" then .ok double1e100
  else if desc = "-inf" then .ok (-double1e100)
  else
    let s := desc.toList
    -- case 1: string is given in nom/den format
    if findFirstOf s ['.', 'E', 'e'] = npos then
      if front s = '+' then rationalOfString (s.drop 1) else rationalOfString s
    -- case 2: string is given as base-10 decimal number
    else ratFromDecimal s

/-! ## `orderOfMagnitude` -/

/-- The C library's `log10` on a `double`. Its value at a positive finite argument is
the parameter `log10`; at a negative argument the result is NaN and at zero or at an
infinite argument it is infinite, neither of which has a rational value. -/
def stdLog10 (log10 : ℚ → ℚ) (x : ℚ) : Option ℚ :=
  if 0 < x ∧ x < 2 ^ 1024 then some (log10 x) else none

/-- Conversion `(int) x` of a `double`: the fraction is discarded (truncation towards
zero). For NaN, for an infinite value and for a value outside the range of `int` the
conversion has no defined result (undefined behaviour; common builds deliver the
smallest `int`), which is embedded as an error. -/
def doubleToInt (x : Option ℚ) : Except Error ℤ :=
  match x with
  | none => .error .arithDomain
  | some v =>
    let t : ℤ := if 0 ≤ v then ⌊v⌋ else ⌈v⌉
    if -(2 ^ 31) ≤ t ∧ t ≤ 2 ^ 31 - 1 then .ok t else .error .arithDomain

/-- The source's `orderOfMagnitude(r)`. The conversion `(double)` of an `Integer` is the
parameter `toDouble`, the value of the C library's `log10` on positive doubles the
parameter `log10`. The first comparison is between the `int` on the left and the
`double` `log10((double)denominator(r))` on the right. -/
def orderOfMagnitude (toDouble : ℚ → ℚ) (log10 : ℚ → ℚ) (r : Rational) : Except Error ℤ :=
  if numerator r = 0 then .ok 0
  else do
    let a ← doubleToInt (stdLog10 log10 (toDouble (numerator r)))
    if stdLog10 log10 (toDouble (denominator r)) = some (a : ℚ) then .ok 0
    else do
      let a ← doubleToInt (stdLog10 log10 (toDouble (numerator r)))
      let b ← doubleToInt (stdLog10 log10 (toDouble (denominator r)))
      .ok (a - b)

/-! ## The Harris ratio test (`src/soplex/spxharrisrt.cpp`)

The type `Real` is `double`, and a finite double is the rational it denotes. The
functions are embedded twice. Under the source's names (`maxDelta`, `minDelta`,
`selectLeave`, ...) the operations on `Real` are exact operations on `ℚ`: this is the
algorithm in exact arithmetic. Under the names that end in `Fl` (`maxDeltaFl`,
`minDeltaFl`, `selectLeaveFl`, ...) the result of every operation is passed through a
rounding function `fl`: with `fl := roundDouble` this is the source in binary64
arithmetic, and with `fl := id` it is the exact embedding (`maxDeltaFl_id`,
`selectLeaveFl_id`). Vectors are functions from indices to values, and the index list
of an update vector is a list of indices. -/

/-- The source's `degenerateEps()`: `delta() * (1.0 - numCycle() / maxCycle())`, where
the two counters are `int` and their quotient is the integer division. -/
def degenerateEps (delta : ℚ) (numCycle maxCycle : ℤ) : ℚ :=
  delta * (1 - ((Int.tdiv numCycle maxCycle : ℤ) : ℚ))

/-- Ways in which the embedding of the ratio test can end without a result: a failed
`assert`, and the exhaustion of the recursion budget of the embedding. -/
inductive Fault where
  | assertion
  | fuel
  deriving DecidableEq, Repr

/-- The local variables `theval` and `themax` of `maxDelta` and `minDelta`. -/
structure DeltaLoop where
  theval : ℚ
  themax : ℚ

/-- What a call of `maxDelta` or `minDelta` leaves behind: the returned `sel` and the
contents of `*max` and `*val` after the call. -/
structure DeltaResult where
  sel : ℤ
  max : ℚ
  val : ℚ
  deriving DecidableEq

/-- One pass of the loop body of `maxDelta` for the index `i = idx[num]`; `delta` is the
member `this->delta` and `infinity` the global constant of that name. The operations
are exact; `maxDeltaBodyFl` is the same body with every operation rounded. -/
def maxDeltaBody (delta infinity epsilon : ℚ) (upd vec low up : ℕ → ℚ) (i : ℕ)
    (st : DeltaLoop) : DeltaLoop :=
  let x := upd i
  if x > epsilon then
    let themax := if x > st.themax then x else st.themax
    let x := (up i - vec i + delta) / x
    if x < st.theval ∧ up i < infinity then { theval := x, themax := themax }
    else { theval := st.theval, themax := themax }
  else if x < -epsilon then
    let themax := if -x > st.themax then -x else st.themax
    let x := (low i - vec i - delta) / x
    if x < st.theval ∧ low i > -infinity then { theval := x, themax := themax }
    else { theval := st.theval, themax := themax }
  else st

/-- The source's `maxDelta(max, val, num, idx, upd, vec, low, up, epsilon)`. The loop
`while (num--)` visits `idx` from its last entry to its first, which is the order of
`List.foldr`. -/
def maxDelta (delta infinity : ℚ) (max val : ℚ) (idx : List ℕ) (upd vec low up : ℕ → ℚ)
    (epsilon : ℚ) : Except Fault DeltaResult :=
  if val ≥ 0 then
    let st := idx.foldr (maxDeltaBody delta infinity epsilon upd vec low up)
      { theval := val, themax := 0 }
    .ok { sel := -1, max := max, val := st.theval }
  else .error .assertion

/-- One pass of the loop body of `minDelta` for the index `i = idx[num]`. The operations
are exact; `minDeltaBodyFl` is the same body with every operation rounded. -/
def minDeltaBody (delta infinity epsilon : ℚ) (upd vec low up : ℕ → ℚ) (i : ℕ)
    (st : DeltaLoop) : DeltaLoop :=
  let x := upd i
  if x > epsilon then
    let themax := if x > st.themax then x else st.themax
    let x := (low i - vec i - delta) / x
    if x > st.theval ∧ low i > -infinity then { theval := x, themax := themax }
    else { theval := st.theval, themax := themax }
  else if x < -epsilon then
    let themax := if -x > st.themax then -x else st.themax
    let x := (up i - vec i + delta) / x
    if x > st.theval ∧ up i < infinity then { theval := x, themax := themax }
    else { theval := st.theval, themax := themax }
  else st

/-- The source's `minDelta(max, val, num, idx, upd, vec, low, up, epsilon)`. -/
def minDelta (delta infinity : ℚ) (max val : ℚ) (idx : List ℕ) (upd vec low up : ℕ → ℚ)
    (epsilon : ℚ) : Except Fault DeltaResult :=
  if val < 0 then
    let st := idx.foldr (minDeltaBody delta infinity epsilon upd vec low up)
      { theval := val, themax := 0 }
    .ok { sel := -1, max := max, val := st.theval }
  else .error .assertion

/-- The candidate steps of `maxDelta` in the words of the spec: `(up[i] - vec[i] +
delta) / upd[i]` for the listed `i` with `upd[i] > epsilon` and `up[i] < infinity`, and
`(low[i] - vec[i] - delta) / upd[i]` for the listed `i` with `upd[i] < -epsilon` and
`low[i] > -infinity`. -/
def maxDeltaCandidate (delta infinity epsilon : ℚ) (idx : List ℕ) (upd vec low up : ℕ → ℚ)
    (c : ℚ) : Prop :=
  (∃ i ∈ idx, upd i > epsilon ∧ up i < infinity ∧ c = (up i - vec i + delta) / upd i) ∨
    (∃ i ∈ idx, upd i < -epsilon ∧ low i > -infinity ∧ c = (low i - vec i - delta) / upd i)

/-- The part of the solver that `selectLeave` reads and writes: the tolerances
`epsilon()` and `delta()`, the cycling counters, the accumulated shift `shift()`, the
feasibility vector `fVec()` with its update vector `fVec().delta()` (dense values
`updVal`, index list `updIdx`, dimension `dim`) and the bounds `ubBound()` and
`lbBound()`. -/
structure Solver where
  epsilon : ℚ
  solverDelta : ℚ
  numCycle : ℤ
  maxCycle : ℤ
  theShift : ℚ
  fVec : ℕ → ℚ
  updVal : ℕ → ℚ
  updIdx : List ℕ
  dim : ℕ
  ubBound : ℕ → ℚ
  lbBound : ℕ → ℚ

/-- Modelled from the spec: the solver's `shiftUBbound(i, to)` (not under src/), the
bound shift request for an upper bound: the bound `ubBound[i]` is moved to `to` and
the amount `to - ubBound[i]` by which it moved is added to the accumulated shift. -/
def Solver.shiftUBbound (s : Solver) (i : ℕ) (t : ℚ) : Solver :=
  { s with theShift := s.theShift + (t - s.ubBound i), ubBound := Function.update s.ubBound i t }

/-- Modelled from the spec: the solver's `shiftLBbound(i, to)` (not under src/), the
bound shift request for a lower bound: the bound `lbBound[i]` is moved to `to` and the
amount `lbBound[i] - to` by which it moved is added to the accumulated shift. -/
def Solver.shiftLBbound (s : Solver) (i : ℕ) (t : ℚ) : Solver :=
  { s with theShift := s.theShift + (s.lbBound i - t), lbBound := Function.update s.lbBound i t }

/-- Modelled from the spec: the update vector's `setup()` (not under src/): "after
`setup()`, index list exactly enumerates positions where value≠0". -/
def Solver.setupUpd (s : Solver) : Solver :=
  { s with updIdx := (List.range s.dim).filter (fun i => decide (s.updVal i ≠ 0)) }

/-- Modelled from the spec: the update vector's `clearNum(k)` (not under src/):
"`clearNum(k)` removes the k-th active index and zeroes the value". -/
def Solver.clearNum (s : Solver) (k : ℕ) : Solver :=
  { s with updVal := Function.update s.updVal (s.updIdx.getD k 0) 0,
           updIdx := s.updIdx.eraseIdx k }

/-- The solver together with the local variables `stab`, `sel` and `leave` of
`selectLeave` during phase 2. -/
structure LeaveScan where
  s : Solver
  stab : ℚ
  sel : ℚ
  leave : ℤ

/-- The body of the phase-2 loop of `selectLeave` in the branch `max > epsilon`, for
the position `j` of the index list. The operations are exact; `leaveBodyPosFl` is the
same body with every operation rounded. -/
def leaveBodyPos (max useeps degeneps epsilon : ℚ) (j : ℕ) (c : LeaveScan) : LeaveScan :=
  let i := c.s.updIdx.getD j 0
  let x := c.s.updVal i
  if x > useeps then
    let y := c.s.ubBound i - c.s.fVec i
    if y < -degeneps then { c with s := c.s.shiftUBbound i (c.s.fVec i) }
    else
      let y := y / x
      if y ≤ max ∧ y > c.sel - epsilon ∧ x > c.stab then
        { c with sel := y, leave := (i : ℤ), stab := x }
      else c
  else if x < -useeps then
    let y := c.s.lbBound i - c.s.fVec i
    if y > degeneps then { c with s := c.s.shiftLBbound i (c.s.fVec i) }
    else
      let y := y / x
      if y ≤ max ∧ y > c.sel - epsilon ∧ -x > c.stab then
        { c with sel := y, leave := (i : ℤ), stab := -x }
      else c
  else { c with s := c.s.clearNum j }

/-- The phase-2 loop `for (j = upd.size() - 1; j >= 0; --j)` of the branch
`max > epsilon`: called with the number of positions still to visit. -/
def leaveLoopPos (max useeps degeneps epsilon : ℚ) : ℕ → LeaveScan → LeaveScan
  | 0, c => c
  | j + 1, c => leaveLoopPos max useeps degeneps epsilon j
      (leaveBodyPos max useeps degeneps epsilon j c)

/-- The body of the phase-2 loop of `selectLeave` in the branch `max < -epsilon`, for
the position `j` of the index list. The operations are exact; `leaveBodyNegFl` is the
same body with every operation rounded. -/
def leaveBodyNeg (max useeps degeneps epsilon : ℚ) (j : ℕ) (c : LeaveScan) : LeaveScan :=
  let i := c.s.updIdx.getD j 0
  let x := c.s.updVal i
  if x < -useeps then
    let y := c.s.ubBound i - c.s.fVec i
    if y < -degeneps then { c with s := c.s.shiftUBbound i (c.s.fVec i) }
    else
      let y := y / x
      if y ≥ max ∧ y < c.sel + epsilon ∧ -x > c.stab then
        { c with sel := y, leave := (i : ℤ), stab := -x }
      else c
  else if x > useeps then
    let y := c.s.lbBound i - c.s.fVec i
    if y > degeneps then { c with s := c.s.shiftLBbound i (c.s.fVec i) }
    else
      let y := y / x
      if y ≥ max ∧ y < c.sel + epsilon ∧ x > c.stab then
        { c with sel := y, leave := (i : ℤ), stab := x }
      else c
  else { c with s := c.s.clearNum j }

/-- The phase-2 loop of the branch `max < -epsilon`. -/
def leaveLoopNeg (max useeps degeneps epsilon : ℚ) : ℕ → LeaveScan → LeaveScan
  | 0, c => c
  | j + 1, c => leaveLoopNeg max useeps degeneps epsilon j
      (leaveBodyNeg max useeps degeneps epsilon j c)

/-- What a call of `selectLeave` leaves behind: the returned index, the contents of
`val` after the call and the solver. -/
structure LeaveResult where
  leave : ℤ
  val : ℚ
  s : Solver

/-- The threshold `useeps` of phase 2: `maxabs * epsilon * 0.001`, raised to `epsilon`
when it is smaller. -/
def leaveUseeps (maxabs epsilon : ℚ) : ℚ :=
  let useeps := maxabs * epsilon * (1 / 1000)
  if useeps < epsilon then epsilon else useeps

/-- The source's `selectLeave(val, ...)`. The parameters `delta` and `infinity` are the
member `this->delta` and the global constant; the first argument bounds the depth of
the retry recursion `return selectLeave(val, 0, false)`; a failed `assert` ends the
call without a result. -/
def selectLeave (delta infinity : ℚ) : ℕ → Solver → ℚ → Except Fault LeaveResult
  | 0, _, _ => .error .fuel
  | fuel + 1, s, val =>
    let maxabs : ℚ := 1
    let epsilon := s.epsilon
    let degeneps := degenerateEps s.solverDelta s.numCycle s.maxCycle
    if ¬ (delta > epsilon ∧ epsilon > 0 ∧ s.maxCycle > 0) then .error .assertion
    else
      let max := val
      let lastshift := s.theShift
      let s := s.setupUpd
      if max > epsilon then
        -- phase 1:
        match maxDelta delta infinity maxabs max s.updIdx s.updVal s.fVec s.lbBound s.ubBound
            epsilon with
        | .error e => .error e
        | .ok r =>
          let maxabs := r.max
          let max := r.val
          if max = val then .ok { leave := -1, val := val, s := s }
          else
            -- phase 2:
            let useeps := leaveUseeps maxabs epsilon
            let c := leaveLoopPos max useeps degeneps epsilon s.updIdx.length
              { s := s, stab := 0, sel := -infinity, leave := -1 }
            if lastshift ≠ c.s.theShift then selectLeave delta infinity fuel c.s val
            else if c.leave ≥ 0 then .ok { leave := c.leave, val := c.sel, s := c.s }
            else .error .assertion
      else if max < -epsilon then
        -- phase 1:
        match minDelta delta infinity maxabs max s.updIdx s.updVal s.fVec s.lbBound s.ubBound
            epsilon with
        | .error e => .error e
        | .ok r =>
          let maxabs := r.max
          let max := r.val
          if max = val then .ok { leave := -1, val := val, s := s }
          else
            -- phase 2:
            let useeps := leaveUseeps maxabs epsilon
            let c := leaveLoopNeg max useeps degeneps epsilon s.updIdx.length
              { s := s, stab := 0, sel := infinity, leave := -1 }
            if lastshift ≠ c.s.theShift then selectLeave delta infinity fuel c.s val
            else if c.leave ≥ 0 then .ok { leave := c.leave, val := c.sel, s := c.s }
            else .error .assertion
      else .ok { leave := -1, val := val, s := s }

/-- The observable outcome of a call of `selectLeave`: the returned index and the
contents of `val`. -/
def leaveOutcome (r : Except Fault LeaveResult) : Except Fault (ℤ × ℚ) :=
  match r with
  | .ok x => .ok (x.leave, x.val)
  | .error e => .error e

/-- A solver state for the examples: tolerance `epsilon = 1/1000`, `delta() = 1/10`,
counters `0` of `100`, no accumulated shift, vectors of dimension `dim` given by
their entries. -/
def exampleSolver (dim : ℕ) (fVec upd ub lb : ℕ → ℚ) : Solver :=
  { epsilon := 1 / 1000, solverDelta := 1 / 10, numCycle := 0, maxCycle := 100,
    theShift := 0, fVec := fVec, updVal := upd, updIdx := [], dim := dim,
    ubBound := ub, lbBound := lb }

/-- The scan `c` with the index list of the update vector replaced by `l`. -/
def LeaveScan.withIdx (c : LeaveScan) (l : List ℕ) : LeaveScan :=
  { c with s := { c.s with updIdx := l } }

/-- The body of the phase-2 loop of the branch `max > epsilon` for the index `i`,
without the bookkeeping of the index list: the third branch only zeroes the value.
It is used to reason about `leaveLoopPos`, see `leaveLoopPos_eq_foldr`. -/
def leaveStepPos (max useeps degeneps epsilon : ℚ) (i : ℕ) (c : LeaveScan) : LeaveScan :=
  let x := c.s.updVal i
  if x > useeps then
    let y := c.s.ubBound i - c.s.fVec i
    if y < -degeneps then { c with s := c.s.shiftUBbound i (c.s.fVec i) }
    else
      let y := y / x
      if y ≤ max ∧ y > c.sel - epsilon ∧ x > c.stab then
        { c with sel := y, leave := (i : ℤ), stab := x }
      else c
  else if x < -useeps then
    let y := c.s.lbBound i - c.s.fVec i
    if y > degeneps then { c with s := c.s.shiftLBbound i (c.s.fVec i) }
    else
      let y := y / x
      if y ≤ max ∧ y > c.sel - epsilon ∧ -x > c.stab then
        { c with sel := y, leave := (i : ℤ), stab := -x }
      else c
  else { c with s := { c.s with updVal := Function.update c.s.updVal i 0 } }

/-- The body of the phase-2 loop of the branch `max < -epsilon` for the index `i`,
without the bookkeeping of the index list. -/
def leaveStepNeg (max useeps degeneps epsilon : ℚ) (i : ℕ) (c : LeaveScan) : LeaveScan :=
  let x := c.s.updVal i
  if x < -useeps then
    let y := c.s.ubBound i - c.s.fVec i
    if y < -degeneps then { c with s := c.s.shiftUBbound i (c.s.fVec i) }
    else
      let y := y / x
      if y ≥ max ∧ y < c.sel + epsilon ∧ -x > c.stab then
        { c with sel := y, leave := (i : ℤ), stab := -x }
      else c
  else if x > useeps then
    let y := c.s.lbBound i - c.s.fVec i
    if y > degeneps then { c with s := c.s.shiftLBbound i (c.s.fVec i) }
    else
      let y := y / x
      if y ≥ max ∧ y < c.sel + epsilon ∧ x > c.stab then
        { c with sel := y, leave := (i : ℤ), stab := x }
      else c
  else { c with s := { c.s with updVal := Function.update c.s.updVal i 0 } }

/-- The solver `s'` differs from `s` at most in its bounds, its accumulated shift and
its update vector, and of the update vector only entries of absolute value at most `e`
were set to zero. -/
def Solver.FrameOf (e : ℚ) (s s' : Solver) : Prop :=
  s'.fVec = s.fVec ∧ s'.epsilon = s.epsilon ∧ s'.solverDelta = s.solverDelta ∧
    s'.numCycle = s.numCycle ∧ s'.maxCycle = s.maxCycle ∧ s'.dim = s.dim ∧
    ∀ k, s'.updVal k = s.updVal k ∨ (s'.updVal k = 0 ∧ |s.updVal k| ≤ e)

/-- The invariant of the phase-2 loop of the branch `max > epsilon`: either no index is
selected, or the selected index `k` has an update value beyond `useeps`, `stab` is its
absolute value, `sel` is at most `max`, and `sel` is the step that puts `fVec[k]` on
the bound tested for `k`, whose slack is not beyond `degeneps` on the wrong side. -/
def LeaveInvPos (max useeps degeneps : ℚ) (c : LeaveScan) : Prop :=
  c.leave = -1 ∨ ∃ k : ℕ, c.leave = (k : ℤ) ∧ c.sel ≤ max ∧
    ((useeps < c.s.updVal k ∧ c.stab = c.s.updVal k ∧
        c.sel * c.s.updVal k = c.s.ubBound k - c.s.fVec k ∧
        -degeneps ≤ c.s.ubBound k - c.s.fVec k) ∨
     (c.s.updVal k < -useeps ∧ c.stab = -c.s.updVal k ∧
        c.sel * c.s.updVal k = c.s.lbBound k - c.s.fVec k ∧
        c.s.lbBound k - c.s.fVec k ≤ degeneps))

/-- The invariant of the phase-2 loop of the branch `max < -epsilon`. -/
def LeaveInvNeg (max useeps degeneps : ℚ) (c : LeaveScan) : Prop :=
  c.leave = -1 ∨ ∃ k : ℕ, c.leave = (k : ℤ) ∧ max ≤ c.sel ∧
    ((c.s.updVal k < -useeps ∧ c.stab = -c.s.updVal k ∧
        c.sel * c.s.updVal k = c.s.ubBound k - c.s.fVec k ∧
        -degeneps ≤ c.s.ubBound k - c.s.fVec k) ∨
     (useeps < c.s.updVal k ∧ c.stab = c.s.updVal k ∧
        c.sel * c.s.updVal k = c.s.lbBound k - c.s.fVec k ∧
        c.s.lbBound k - c.s.fVec k ≤ degeneps))

/-- What `selectLeave` guarantees when it returns an index `k ≥ 0`, in terms of the
solver state `r.s` it leaves: the state differs from the one of the call by bounds,
shift and cleared small update values only, the step `r.val` is closer to zero than or
beyond the requested `val` on its side, and it puts `fVec[k]` exactly on the bound
tested for `k`, whose slack was not beyond `degeneps` on the wrong side. -/
def LeavePost (s : Solver) (val : ℚ) (r : LeaveResult) : Prop :=
  Solver.FrameOf s.epsilon s r.s ∧ 0 < s.epsilon ∧
  ∃ k : ℕ, r.leave = (k : ℤ) ∧
    ((val > s.epsilon ∧ r.val < val ∧
      ((s.epsilon < r.s.updVal k ∧
          r.val * r.s.updVal k = r.s.ubBound k - r.s.fVec k ∧
          -degenerateEps s.solverDelta s.numCycle s.maxCycle ≤
            r.s.ubBound k - r.s.fVec k) ∨
       (r.s.updVal k < -s.epsilon ∧
          r.val * r.s.updVal k = r.s.lbBound k - r.s.fVec k ∧
          r.s.lbBound k - r.s.fVec k ≤
            degenerateEps s.solverDelta s.numCycle s.maxCycle))) ∨
     (val < -s.epsilon ∧ val < r.val ∧
      ((r.s.updVal k < -s.epsilon ∧
          r.val * r.s.updVal k = r.s.ubBound k - r.s.fVec k ∧
          -degenerateEps s.solverDelta s.numCycle s.maxCycle ≤
            r.s.ubBound k - r.s.fVec k) ∨
       (s.epsilon < r.s.updVal k ∧
          r.val * r.s.updVal k = r.s.lbBound k - r.s.fVec k ∧
          r.s.lbBound k - r.s.fVec k ≤
            degenerateEps s.solverDelta s.numCycle s.maxCycle))))

/-- The envelope step that phase 1 of `selectLeave` computes for `val > epsilon`. -/
def leaveEnvelopePos (delta infinity : ℚ) (s : Solver) (val : ℚ) : ℚ :=
  (s.setupUpd.updIdx.foldr
    (maxDeltaBody delta infinity s.epsilon s.updVal s.fVec s.lbBound s.ubBound)
    { theval := val, themax := 0 }).theval

/-- The envelope step that phase 1 of `selectLeave` computes for `val < -epsilon`. -/
def leaveEnvelopeNeg (delta infinity : ℚ) (s : Solver) (val : ℚ) : ℚ :=
  (s.setupUpd.updIdx.foldr
    (minDeltaBody delta infinity s.epsilon s.updVal s.fVec s.lbBound s.ubBound)
    { theval := val, themax := 0 }).theval

/-- The state in which the phase-2 loop of `selectLeave` ends for `val > epsilon`. -/
def leaveScanPos (delta infinity : ℚ) (s : Solver) (val : ℚ) : LeaveScan :=
  leaveLoopPos (leaveEnvelopePos delta infinity s val) s.epsilon
    (degenerateEps s.solverDelta s.numCycle s.maxCycle) s.epsilon s.setupUpd.updIdx.length
    { s := s.setupUpd, stab := 0, sel := -infinity, leave := -1 }

/-- The state in which the phase-2 loop of `selectLeave` ends for `val < -epsilon`. -/
def leaveScanNeg (delta infinity : ℚ) (s : Solver) (val : ℚ) : LeaveScan :=
  leaveLoopNeg (leaveEnvelopeNeg delta infinity s val) s.epsilon
    (degenerateEps s.solverDelta s.numCycle s.maxCycle) s.epsilon s.setupUpd.updIdx.length
    { s := s.setupUpd, stab := 0, sel := infinity, leave := -1 }

/-- The accumulated shift of `s'` is at least the one of `s`, and when they are equal
the bounds of `s'` are those of `s`. -/
def Solver.ShiftedFrom (s s' : Solver) : Prop :=
  s.theShift ≤ s'.theShift ∧
    (s'.theShift = s.theShift → s'.ubBound = s.ubBound ∧ s'.lbBound = s.lbBound)

/-- The selection rule of the phase-2 loops on its own: the state is `(stab, sel,
leave)`, the index `i` has the pivot magnitude `a i` and the step `y i`, and it
replaces the selected index when its magnitude is beyond `useeps`, its step is within
the envelope `max` and above `sel - epsilon`, and its magnitude is larger than
`stab`. -/
def pickStep (max useeps epsilon : ℚ) (a y : ℕ → ℚ) (i : ℕ) (st : ℚ × ℚ × ℤ) : ℚ × ℚ × ℤ :=
  if useeps < a i ∧ y i ≤ max ∧ y i > st.2.1 - epsilon ∧ a i > st.1 then (a i, y i, (i : ℤ))
  else st

/-- The true step of the index `i` in the branch `max > epsilon` of `selectLeave`: to
the upper bound for `upd[i] > 0` and to the lower bound otherwise. -/
def leaveTrueStepPos (s : Solver) (i : ℕ) : ℚ :=
  if 0 < s.updVal i then (s.ubBound i - s.fVec i) / s.updVal i
  else (s.lbBound i - s.fVec i) / s.updVal i

/-- The true step of the index `i` in the branch `max < -epsilon` of `selectLeave`: to
the upper bound for `upd[i] < 0` and to the lower bound otherwise. -/
def leaveTrueStepNeg (s : Solver) (i : ℕ) : ℚ :=
  if s.updVal i < 0 then (s.ubBound i - s.fVec i) / s.updVal i
  else (s.lbBound i - s.fVec i) / s.updVal i

/-- The result `SPxId enterId` of `selectEnter`: invalid as constructed, the id of a
row of the pricing vector (`solver()->id(i)`) or of the co-pricing vector
(`solver()->coId(i)`). -/
inductive EnterId where
  | invalid
  | id (i : ℕ)
  | coId (i : ℕ)
  deriving DecidableEq, Repr

/-- The part of the solver that phase 2 of `selectEnter` reads and writes: the
tolerance and the accumulated shift, the vectors `pVec()` and `coPvec()` with their
update vectors (dense values and index lists) and the bounds `upBound()`, `lpBound()`,
`ucBound()` and `lcBound()`. -/
structure EnterSolver where
  epsilon : ℚ
  theShift : ℚ
  pVec : ℕ → ℚ
  pUpdVal : ℕ → ℚ
  pUpdIdx : List ℕ
  coPvec : ℕ → ℚ
  cUpdVal : ℕ → ℚ
  cUpdIdx : List ℕ
  upBound : ℕ → ℚ
  lpBound : ℕ → ℚ
  ucBound : ℕ → ℚ
  lcBound : ℕ → ℚ

/-- Modelled from the spec: the solver's `shiftUPbound(i, to)` (not under src/), the
bound shift request for the upper bound of `pVec[i]`. -/
def EnterSolver.shiftUPbound (s : EnterSolver) (i : ℕ) (t : ℚ) : EnterSolver :=
  { s with theShift := s.theShift + (t - s.upBound i), upBound := Function.update s.upBound i t }

/-- Modelled from the spec: the solver's `shiftLPbound(i, to)` (not under src/), the
bound shift request for the lower bound of `pVec[i]`. -/
def EnterSolver.shiftLPbound (s : EnterSolver) (i : ℕ) (t : ℚ) : EnterSolver :=
  { s with theShift := s.theShift + (s.lpBound i - t), lpBound := Function.update s.lpBound i t }

/-- Modelled from the spec: the solver's `shiftUCbound(i, to)` (not under src/), the
bound shift request for the upper bound of `coPvec[i]`. -/
def EnterSolver.shiftUCbound (s : EnterSolver) (i : ℕ) (t : ℚ) : EnterSolver :=
  { s with theShift := s.theShift + (t - s.ucBound i), ucBound := Function.update s.ucBound i t }

/-- Modelled from the spec: the solver's `shiftLCbound(i, to)` (not under src/), the
bound shift request for the lower bound of `coPvec[i]`. -/
def EnterSolver.shiftLCbound (s : EnterSolver) (i : ℕ) (t : ℚ) : EnterSolver :=
  { s with theShift := s.theShift + (s.lcBound i - t), lcBound := Function.update s.lcBound i t }

/-- Modelled from the spec: `pupd.clearNum(k)` (not under src/), which removes the
k-th active index of `pVec().delta()` and zeroes the value. -/
def EnterSolver.clearNumP (s : EnterSolver) (k : ℕ) : EnterSolver :=
  { s with pUpdVal := Function.update s.pUpdVal (s.pUpdIdx.getD k 0) 0,
           pUpdIdx := s.pUpdIdx.eraseIdx k }

/-- Modelled from the spec: `cupd.clearNum(k)` (not under src/), which removes the
k-th active index of `coPvec().delta()` and zeroes the value. -/
def EnterSolver.clearNumC (s : EnterSolver) (k : ℕ) : EnterSolver :=
  { s with cUpdVal := Function.update s.cUpdVal (s.cUpdIdx.getD k 0) 0,
           cUpdIdx := s.cUpdIdx.eraseIdx k }

/-- The solver together with the local variables `stab`, `sel`, `pnr`, `cnr` and
`enterId` of `selectEnter` during phase 2. -/
structure EnterScan where
  s : EnterSolver
  stab : ℚ
  sel : ℚ
  pnr : ℤ
  cnr : ℤ
  enterId : EnterId

/-- The body of the first phase-2 loop of `selectEnter` in the branch `val > epsilon`
(over `pupd`), for the position `j`. -/
def enterBodyPosP (max ruseeps degeneps : ℚ) (j : ℕ) (c : EnterScan) : EnterScan :=
  let i := c.s.pUpdIdx.getD j 0
  let x := c.s.pUpdVal i
  if x > ruseeps then
    let y := c.s.upBound i - c.s.pVec i
    if y < -degeneps then { c with s := c.s.shiftUPbound i (c.s.pVec i - degeneps) }
    else
      let y := y / x
      if y ≤ max ∧ x ≥ c.stab then
        { c with enterId := .id i, sel := y, pnr := (i : ℤ), stab := x }
      else c
  else if x < -ruseeps then
    let y := c.s.lpBound i - c.s.pVec i
    if y > degeneps then { c with s := c.s.shiftLPbound i (c.s.pVec i + degeneps) }
    else
      let y := y / x
      if y ≤ max ∧ -x ≥ c.stab then
        { c with enterId := .id i, sel := y, pnr := (i : ℤ), stab := -x }
      else c
  else { c with s := c.s.clearNumP j }

/-- The body of the second phase-2 loop of `selectEnter` in the branch `val > epsilon`
(over `cupd`), for the position `j`. -/
def enterBodyPosC (max cuseeps degeneps : ℚ) (j : ℕ) (c : EnterScan) : EnterScan :=
  let i := c.s.cUpdIdx.getD j 0
  let x := c.s.cUpdVal i
  if x > cuseeps then
    let y := c.s.ucBound i - c.s.coPvec i
    if y < -degeneps then { c with s := c.s.shiftUCbound i (c.s.coPvec i - degeneps) }
    else
      let y := y / x
      if y ≤ max ∧ x ≥ c.stab then
        { c with enterId := .coId i, sel := y, cnr := (j : ℤ), stab := x }
      else c
  else if x < -cuseeps then
    let y := c.s.lcBound i - c.s.coPvec i
    if y > degeneps then { c with s := c.s.shiftLCbound i (c.s.coPvec i + degeneps) }
    else
      let y := y / x
      if y ≤ max ∧ -x ≥ c.stab then
        { c with enterId := .coId i, sel := y, cnr := (j : ℤ), stab := -x }
      else c
  else { c with s := c.s.clearNumC j }

/-- The body of the first phase-2 loop of `selectEnter` in the branch
`val < -epsilon` (over `pupd`), for the position `j`. -/
def enterBodyNegP (max ruseeps degeneps : ℚ) (j : ℕ) (c : EnterScan) : EnterScan :=
  let i := c.s.pUpdIdx.getD j 0
  let x := c.s.pUpdVal i
  if x > ruseeps then
    let y := c.s.lpBound i - c.s.pVec i
    if y > degeneps then { c with s := c.s.shiftLPbound i (c.s.pVec i) }
    else
      let y := y / x
      if y ≥ max ∧ x > c.stab then
        { c with enterId := .id i, sel := y, pnr := (i : ℤ), stab := x }
      else c
  else if x < -ruseeps then
    let y := c.s.upBound i - c.s.pVec i
    if y < -degeneps then { c with s := c.s.shiftUPbound i (c.s.pVec i) }
    else
      let y := y / x
      if y ≥ max ∧ -x > c.stab then
        { c with enterId := .id i, sel := y, pnr := (i : ℤ), stab := -x }
      else c
  else { c with s := c.s.clearNumP j }

/-- The body of the second phase-2 loop of `selectEnter` in the branch
`val < -epsilon` (over `cupd`), for the position `j`. -/
def enterBodyNegC (max cuseeps degeneps : ℚ) (j : ℕ) (c : EnterScan) : EnterScan :=
  let i := c.s.cUpdIdx.getD j 0
  let x := c.s.cUpdVal i
  if x > cuseeps then
    let y := c.s.lcBound i - c.s.coPvec i
    if y > degeneps then { c with s := c.s.shiftLCbound i (c.s.coPvec i) }
    else
      let y := y / x
      if y ≥ max ∧ x > c.stab then
        { c with enterId := .coId i, sel := y, cnr := (j : ℤ), stab := x }
      else c
  else if x < -cuseeps then
    let y := c.s.ucBound i - c.s.coPvec i
    if y < -degeneps then { c with s := c.s.shiftUCbound i (c.s.coPvec i) }
    else
      let y := y / x
      if y ≥ max ∧ -x > c.stab then
        { c with enterId := .coId i, sel := y, cnr := (j : ℤ), stab := -x }
      else c
  else { c with s := c.s.clearNumC j }

/-- A state of phase 2 of `selectEnter` for the examples: one row and one column, both
with update value `1`, `pVec = coPvec = 1`, and all bounds `0` except the lower bounds
`-1`. -/
def exampleEnterScan : EnterScan :=
  { s := { epsilon := 1 / 1000, theShift := 0,
           pVec := fun _ => 1, pUpdVal := fun _ => 1, pUpdIdx := [0],
           coPvec := fun _ => 1, cUpdVal := fun _ => 1, cUpdIdx := [0],
           upBound := fun _ => 0, lpBound := fun _ => -1,
           ucBound := fun _ => 0, lcBound := fun _ => -1 },
    stab := 0, sel := 0, pnr := -1, cnr := -1, enterId := .invalid }

/-- The data members of `SoPlex::Statistics` that statistics.cpp names. The timers
`readingTime`, ..., `transformTime` are given by the seconds they have accumulated;
the class `Timer` is not under src/ and its `reset()` is taken to set them to zero. -/
structure Statistics where
  readingTime : ℚ
  solvingTime : ℚ
  preprocessingTime : ℚ
  simplexTime : ℚ
  syncTime : ℚ
  transformTime : ℚ
  luFactorizationTime : ℚ
  luSolveTime : ℚ
  iterations : ℤ
  iterationsFromBasis : ℤ
  iterationsPrimal : ℤ
  luFactorizations : ℤ
  luSolves : ℤ
  refinements : ℤ
  stallRefinements : ℤ
  deriving DecidableEq

/-- The source's `Statistics::clearSolvingData()`. -/
def Statistics.clearSolvingData (st : Statistics) : Statistics :=
  { st with
    solvingTime := 0
    preprocessingTime := 0
    simplexTime := 0
    syncTime := 0
    transformTime := 0
    luFactorizationTime := 0
    luSolveTime := 0
    iterations := 0
    luFactorizations := 0
    luSolves := 0
    refinements := 0
    stallRefinements := 0 }

/-- The source's `Statistics::clearAllData()`. -/
def Statistics.clearAllData (st : Statistics) : Statistics :=
  Statistics.clearSolvingData { st with readingTime := 0 }

/-- The source's default constructor `Statistics::Statistics()`: it has no member
initialisers, so the members start with the contents `mem` of the object's memory,
and it calls `clearAllData()`. -/
def Statistics.construct (mem : Statistics) : Statistics :=
  Statistics.clearAllData mem

/-- The thresholds `ruseeps` and `cuseeps` of phase 2 of `selectEnter` in the branch
`val > epsilon`, computed from `rmaxabs` resp. `cmaxabs`; they are raised to `epsilon`
when they are smaller. -/
def enterUseepsPos (maxabs epsilon : ℚ) : ℚ :=
  let useeps := maxabs * (1 / 1000) * epsilon
  if useeps < epsilon then epsilon else useeps

/-- The thresholds `ruseeps` and `cuseeps` of phase 2 of `selectEnter` in the branch
`val < -epsilon`: the source does not compare them with `epsilon` here. -/
def enterUseepsNeg (maxabs epsilon : ℚ) : ℚ :=
  maxabs * epsilon * (1 / 1000)

/-- The loop `for (j = pupd.size() - 1; j >= 0; --j)` of the branch `val > epsilon` of
`selectEnter`, as a function of the number of positions still to visit. -/
def enterLoopPosP (max ruseeps degeneps : ℚ) : ℕ → EnterScan → EnterScan
  | 0, c => c
  | j + 1, c => enterLoopPosP max ruseeps degeneps j (enterBodyPosP max ruseeps degeneps j c)

/-- The loop `for (j = cupd.size() - 1; j >= 0; --j)` of the branch `val > epsilon` of
`selectEnter`. -/
def enterLoopPosC (max cuseeps degeneps : ℚ) : ℕ → EnterScan → EnterScan
  | 0, c => c
  | j + 1, c => enterLoopPosC max cuseeps degeneps j (enterBodyPosC max cuseeps degeneps j c)

/-- The loop `for (j = pupd.size() - 1; j >= 0; --j)` of the branch `val < -epsilon` of
`selectEnter`. -/
def enterLoopNegP (max ruseeps degeneps : ℚ) : ℕ → EnterScan → EnterScan
  | 0, c => c
  | j + 1, c => enterLoopNegP max ruseeps degeneps j (enterBodyNegP max ruseeps degeneps j c)

/-- The loop `for (j = cupd.size() - 1; j >= 0; --j)` of the branch `val < -epsilon` of
`selectEnter`. -/
def enterLoopNegC (max cuseeps degeneps : ℚ) : ℕ → EnterScan → EnterScan
  | 0, c => c
  | j + 1, c => enterLoopNegC max cuseeps degeneps j (enterBodyNegC max cuseeps degeneps j c)

/-- One pass of the `for (;;)` loop of `selectEnter` in the branch `val > epsilon`, from
its start to the end of phase 2: phase 1 runs `maxDelta` over `pupd` and then over
`cupd` with the common envelope `max`; when `max == val` the function returns
(`none`); otherwise phase 2 runs the two loops with the thresholds computed from
`rmaxabs` and `cmaxabs`. The value `enterId` is the one the variable holds when the
pass starts. -/
def enterPassPos (delta infinity degeneps : ℚ) (s : EnterSolver) (val : ℚ)
    (enterId : EnterId) : Except Fault (Option EnterScan) :=
  let rmaxabs : ℚ := 1
  let cmaxabs : ℚ := 1
  let epsilon := s.epsilon
  match maxDelta delta infinity rmaxabs val s.pUpdIdx s.pUpdVal s.pVec s.lpBound s.upBound
      epsilon with
  | .error e => .error e
  | .ok r1 =>
    match maxDelta delta infinity cmaxabs r1.val s.cUpdIdx s.cUpdVal s.coPvec s.lcBound
        s.ucBound epsilon with
    | .error e => .error e
    | .ok r2 =>
      let max := r2.val
      if max = val then .ok none
      else
        let ruseeps := enterUseepsPos r1.max epsilon
        let cuseeps := enterUseepsPos r2.max epsilon
        let c := enterLoopPosP max ruseeps degeneps s.pUpdIdx.length
          { s := s, stab := 0, sel := -infinity, pnr := -1, cnr := -1, enterId := enterId }
        .ok (some (enterLoopPosC max cuseeps degeneps c.s.cUpdIdx.length c))

/-- One pass of the `for (;;)` loop of `selectEnter` in the branch `val < -epsilon`,
from its start to the end of phase 2. -/
def enterPassNeg (delta infinity degeneps : ℚ) (s : EnterSolver) (val : ℚ)
    (enterId : EnterId) : Except Fault (Option EnterScan) :=
  let rmaxabs : ℚ := 1
  let cmaxabs : ℚ := 1
  let epsilon := s.epsilon
  match minDelta delta infinity rmaxabs val s.pUpdIdx s.pUpdVal s.pVec s.lpBound s.upBound
      epsilon with
  | .error e => .error e
  | .ok r1 =>
    match minDelta delta infinity cmaxabs r1.val s.cUpdIdx s.cUpdVal s.coPvec s.lcBound
        s.ucBound epsilon with
    | .error e => .error e
    | .ok r2 =>
      let max := r2.val
      if max = val then .ok none
      else
        let ruseeps := enterUseepsNeg r1.max epsilon
        let cuseeps := enterUseepsNeg r2.max epsilon
        let c := enterLoopNegP max ruseeps degeneps s.pUpdIdx.length
          { s := s, stab := 0, sel := infinity, pnr := -1, cnr := -1, enterId := enterId }
        .ok (some (enterLoopNegC max cuseeps degeneps c.s.cUpdIdx.length c))

/-- A state of `selectEnter` for the examples, with `epsilon = 1/1000`: one row whose
update value `1/2000` is below `epsilon`, with `pVec = 0` on its bounds `0`, and one
column with the update value `1`, `coPvec = 0` and the bounds `-1` and `1`. -/
def exampleEnterSolver : EnterSolver :=
  { epsilon := 1 / 1000, theShift := 0,
    pVec := fun _ => 0, pUpdVal := fun _ => 1 / 2000, pUpdIdx := [0],
    coPvec := fun _ => 0, cUpdVal := fun _ => 1, cUpdIdx := [0],
    upBound := fun _ => 0, lpBound := fun _ => 0,
    ucBound := fun _ => 1, lcBound := fun _ => -1 }

/-- The value of a row for the solution `solu`: the source's inner loop
`val += rowvec.value(col) * solu[rowvec.index(col)]` over the nonzeros of the sparse
row vector, which is given by its pairs of index and value. The products and sums are
exact; `rowValueFl` is the same loop with every operation rounded. -/
def rowValue (rowvec : List (ℕ × ℚ)) (solu : ℕ → ℚ) : ℚ :=
  rowvec.foldl (fun val e => val + e.2 * solu e.1) 0

/-- The source's `SoPlex::qualConstraintViolation(maxviol, sumviol)` for the primal
vector `solu` that `getPrimal` delivers; the result is the pair of `maxviol` and
`sumviol`, and a failing `assert(lhs(row) <= rhs(row))` is an error. The operations on
`Real` are exact; `qualConstraintViolationFl` is the same function with every
operation rounded. -/
def qualConstraintViolation (rowVector : ℕ → List (ℕ × ℚ)) (nRows : ℕ) (lhs rhs : ℕ → ℚ)
    (solu : ℕ → ℚ) : Except Fault (ℚ × ℚ) :=
  (List.range nRows).foldlM (fun (acc : ℚ × ℚ) row =>
    let val := rowValue (rowVector row) solu
    if lhs row ≤ rhs row then
      let viol :=
        if val < lhs row then |val - lhs row|
        else if val > rhs row then |val - rhs row|
        else 0
      Except.ok (if viol > acc.1 then viol else acc.1, acc.2 + viol)
    else Except.error Fault.assertion) (0, 0)

/-- The source's `SoPlex::qualBoundViolation(maxviol, sumviol)` for the primal vector
`solu`. The operations on `Real` are exact; `qualBoundViolationFl` is the same function
with every operation rounded. -/
def qualBoundViolation (nCols : ℕ) (lower upper : ℕ → ℚ) (solu : ℕ → ℚ) :
    Except Fault (ℚ × ℚ) :=
  (List.range nCols).foldlM (fun (acc : ℚ × ℚ) col =>
    if lower col ≤ upper col then
      let viol :=
        if solu col < lower col then |solu col - lower col|
        else if solu col > upper col then |solu col - upper col|
        else 0
      Except.ok (if viol > acc.1 then viol else acc.1, acc.2 + viol)
    else Except.error Fault.assertion) (0, 0)

/-- A shift request of the branch `max > epsilon` for the index `i` would be void in
the state `s`: whenever the test for a shift of the bound of `i` succeeds, the bound
is already at `fVec[i]`. -/
def LeaveSettledPos (useeps degeneps : ℚ) (s : Solver) (i : ℕ) : Prop :=
  (useeps < s.updVal i → s.ubBound i - s.fVec i < -degeneps → s.ubBound i = s.fVec i) ∧
  (s.updVal i < -useeps → s.lbBound i - s.fVec i > degeneps → s.lbBound i = s.fVec i)

/-- A shift request of the branch `max < -epsilon` for the index `i` would be void in
the state `s`. -/
def LeaveSettledNeg (useeps degeneps : ℚ) (s : Solver) (i : ℕ) : Prop :=
  (s.updVal i < -useeps → s.ubBound i - s.fVec i < -degeneps → s.ubBound i = s.fVec i) ∧
  (useeps < s.updVal i → s.lbBound i - s.fVec i > degeneps → s.lbBound i = s.fVec i)

/-- The methods of the loaded scaler (`thescaler`) that the unscaled quality functions
call: `unscaleSolution(usol)` maps the primal vector, `unscaledLhs`, `unscaledRhs`,
`unscaledLower` and `unscaledUpper` deliver the unscaled sides and bounds, and
`unscaledRowVector(row, urowvec)` the unscaled row. What they compute is left open:
each one is a parameter. -/
structure Scaler where
  unscaleSolution : (ℕ → ℚ) → ℕ → ℚ
  unscaledLhs : ℕ → ℚ
  unscaledRhs : ℕ → ℚ
  unscaledLower : ℕ → ℚ
  unscaledUpper : ℕ → ℚ
  unscaledRowVector : ℕ → List (ℕ × ℚ)

/-- The source's `SoPlex::qualConstraintViolationUnscaled(maxviol, sumviol)` for the
primal vector `solu` that `getPrimal` delivers; `thescaler` is `none` for the null
pointer. -/
def qualConstraintViolationUnscaled (thescaler : Option Scaler) (nRows : ℕ)
    (solu : ℕ → ℚ) : Except Fault (ℚ × ℚ) :=
  match thescaler with
  | none => Except.ok (0, 0)
  | some sc =>
    let usol := sc.unscaleSolution solu
    (List.range nRows).foldlM (fun (acc : ℚ × ℚ) row =>
      let val := rowValue (sc.unscaledRowVector row) usol
      if sc.unscaledLhs row ≤ sc.unscaledRhs row then
        let viol :=
          if val < sc.unscaledLhs row then |val - sc.unscaledLhs row|
          else if val > sc.unscaledRhs row then |val - sc.unscaledRhs row|
          else 0
        Except.ok (if viol > acc.1 then viol else acc.1, acc.2 + viol)
      else Except.error Fault.assertion) (0, 0)

/-- The source's `SoPlex::qualBoundViolationUnscaled(maxviol, sumviol)`. -/
def qualBoundViolationUnscaled (thescaler : Option Scaler) (nCols : ℕ)
    (solu : ℕ → ℚ) : Except Fault (ℚ × ℚ) :=
  match thescaler with
  | none => Except.ok (0, 0)
  | some sc =>
    let usol := sc.unscaleSolution solu
    (List.range nCols).foldlM (fun (acc : ℚ × ℚ) col =>
      if sc.unscaledLower col ≤ sc.unscaledUpper col then
        let viol :=
          if usol col < sc.unscaledLower col then |usol col - sc.unscaledLower col|
          else if usol col > sc.unscaledUpper col then |usol col - sc.unscaledUpper col|
          else 0
        Except.ok (if viol > acc.1 then viol else acc.1, acc.2 + viol)
      else Except.error Fault.assertion) (0, 0)

/-- The optimisation sense `SPxLP::SPxSense`. -/
inductive SPxSense where
  | MAXIMIZE
  | MINIMIZE
  deriving DecidableEq

/-- The data of the LP and of its solution that a quality function of `SoPlex` can
reach: the dimensions, the optimisation sense, the objective, the rows of the
constraint matrix, the basis (the status of each column and row) and the primal and
dual solution. -/
structure QualLP where
  nCols : ℕ
  nRows : ℕ
  spxSense : SPxSense
  obj : ℕ → ℚ
  rowVector : ℕ → List (ℕ × ℚ)
  basisColStatus : ℕ → ℤ
  basisRowStatus : ℕ → ℤ
  primal : ℕ → ℚ
  dual : ℕ → ℚ

/-- The source's `SoPlex::qualRdCostViolation(maxviol, sumviol)`. The local vector
`DVector rdcost(nCols())` is allocated and never written before it is read; `rdcost`
stands for its contents. The result is the pair of `maxviol` and `sumviol`. -/
def qualRdCostViolation (lp : QualLP) (rdcost : ℕ → ℚ) : ℚ × ℚ :=
  (List.range lp.nCols).foldl (fun (acc : ℚ × ℚ) col =>
    let viol :=
      if lp.spxSense = SPxSense.MINIMIZE then
        (if rdcost col < 0 then -rdcost col else 0)
      else
        (if rdcost col > 0 then rdcost col else 0)
    (if viol > acc.1 then viol else acc.1, acc.2 + viol)) (0, 0)

/-- The violation of a reduced cost in the words of the spec: `max(0, -rdcost[col])`
for MINIMIZE and `max(0, rdcost[col])` for MAXIMIZE. -/
def rdCostViolation (sense : SPxSense) (x : ℚ) : ℚ :=
  match sense with
  | SPxSense.MINIMIZE => max 0 (-x)
  | SPxSense.MAXIMIZE => max 0 x

/-- A division that `Statistics::print` evaluates: dividend and divisor. -/
structure Division where
  dividend : ℚ
  divisor : ℚ
  deriving DecidableEq

/-- The divisions that the source's `Statistics::print(os)` evaluates, in the order of
the source, each under the guard of the source: five shares of the solving time under
`solTime > 0`, four shares of the iterations under `iterations > 0`, the
factorisation frequency under `luFactorizations > 0` and the solve frequency under
`luSolves > 0`. The text written to `os` is not modelled. -/
def Statistics.print (st : Statistics) : List Division :=
  let solTime := st.solvingTime
  let otherTime := solTime - st.syncTime - st.transformTime - st.preprocessingTime -
    st.simplexTime
  (if solTime > 0 then [Division.mk st.preprocessingTime solTime] else []) ++
  (if solTime > 0 then [Division.mk st.simplexTime solTime] else []) ++
  (if solTime > 0 then [Division.mk st.syncTime solTime] else []) ++
  (if solTime > 0 then [Division.mk (100 * st.transformTime) solTime] else []) ++
  (if solTime > 0 then [Division.mk (100 * otherTime) solTime] else []) ++
  (if st.iterations > 0 then
    [Division.mk (100 * ((st.iterations - st.iterationsFromBasis : ℤ) : ℚ)) st.iterations]
    else []) ++
  (if st.iterations > 0 then
    [Division.mk (100 * (st.iterationsFromBasis : ℚ)) st.iterations] else []) ++
  (if st.iterations > 0 then
    [Division.mk (100 * (st.iterationsPrimal : ℚ)) st.iterations] else []) ++
  (if st.iterations > 0 then
    [Division.mk (100 * ((st.iterations - st.iterationsPrimal : ℤ) : ℚ)) st.iterations]
    else []) ++
  (if st.luFactorizations > 0 then [Division.mk st.iterations st.luFactorizations] else []) ++
  (if st.luSolves > 0 then [Division.mk st.luSolves st.iterations] else [])

/-- Two problems with two columns and the sense MINIMIZE that differ in everything
else. -/
def exampleQualLP (c : ℚ) (b : ℤ) : QualLP :=
  { nCols := 2, nRows := 1, spxSense := SPxSense.MINIMIZE, obj := fun _ => c,
    rowVector := fun _ => [(0, c)], basisColStatus := fun _ => b,
    basisRowStatus := fun _ => b, primal := fun _ => c, dual := fun _ => c }

/-- The source's `SpxLcm(result, a, b)`: the least common multiple of `a` and `b`
(`mpz_lcm`, resp. the multiprecision `lcm`), which is never negative. -/
def SpxLcm (a b : Integer) : Integer := (Int.lcm a b : ℤ)

/-- Addition of two `int` values, 32 bits wide and wrapping. -/
def addInt32 (a b : ℤ) : ℤ := toInt32 ((a + b) % 2 ^ 32).toNat

/-- Conversion of an `int` to `size_t` (64 bits). -/
def toSizeT (x : ℤ) : ℕ := (x % 2 ^ 64).toNat

/-- The least common multiple that the loop of `dlcmSizeRational` builds:
`lcm = 1; for i < length: SpxLcm(lcm, lcm, denominator(vector[i]))`. -/
def denominatorLcm (vector : ℕ → Rational) (length : ℕ) : Integer :=
  (List.range length).foldl (fun lcm i => SpxLcm lcm (denominator (vector i))) 1

/-- The source's `dlcmSizeRational(vector, length, base)` for a length that passes
`assert(length >= 0)`: `sizeInBase(Rational(lcm), base) + 1` as an `int`. The first
three arguments select the build of `sizeInBase`. -/
def dlcmSizeRational (withGMP : Bool) (digits : ℕ → ℤ → ℕ) (digitsFloat : ℤ → ℤ → ℕ)
    (vector : ℕ → Rational) (length : ℕ) (base : ℤ) : Except Error ℤ := do
  let lcm := denominatorLcm vector length
  let s ← sizeInBase withGMP digits digitsFloat (lcm : ℚ) base
  pure (addInt32 s 1)

/-- The source's `dmaxSizeRational(vector, length, base)` for a length that passes
`assert(length >= 0)`: the maximum, held in a `size_t`, of
`sizeInBase(Rational(denominator(vector[i])), base) + 1`, returned as an `int`. -/
def dmaxSizeRational (withGMP : Bool) (digits : ℕ → ℤ → ℕ) (digitsFloat : ℤ → ℤ → ℕ)
    (vector : ℕ → Rational) (length : ℕ) (base : ℤ) : Except Error ℤ := do
  let dmax ← (List.range length).foldlM (fun (dmax : ℕ) i => do
    let s ← sizeInBase withGMP digits digitsFloat ((denominator (vector i) : ℤ) : ℚ) base
    let dsize := toSizeT (addInt32 s 1)
    pure (if dsize > dmax then dsize else dmax)) 0
  pure (toInt32 dmax)

/-- A vector of two rationals with the denominators `2 ^ K` and `7`. -/
def hugeDenominators (K : ℕ) : ℕ → Rational :=
  fun i => if i = 0 then ((2 ^ K : ℕ) : ℚ)⁻¹ else ((7 : ℕ) : ℚ)⁻¹

/-- The quantities of the solver that `selectEnter` reads besides those of
`EnterSolver`: `solver()->delta()` and the cycling counters (for `degenerateEps()`),
the dimensions of `pVec()` and `coPvec()`, the test `solver()->isBasic(id)` and the
sparse vectors `solver()->vector(i)`, given by their pairs of index and value. -/
structure EnterContext where
  solverDelta : ℚ
  numCycle : ℤ
  maxCycle : ℤ
  pDim : ℕ
  cDim : ℕ
  isBasic : EnterId → Bool
  vector : ℕ → List (ℕ × ℚ)

/-- Modelled from the spec: `pVec().delta().setup()` (not under src/): "after `setup()`,
index list exactly enumerates positions where value≠0". -/
def EnterSolver.setupP (s : EnterSolver) (dim : ℕ) : EnterSolver :=
  { s with pUpdIdx := (List.range dim).filter (fun i => decide (s.pUpdVal i ≠ 0)) }

/-- Modelled from the spec: `coPvec().delta().setup()` (not under src/). -/
def EnterSolver.setupC (s : EnterSolver) (dim : ℕ) : EnterSolver :=
  { s with cUpdIdx := (List.range dim).filter (fun i => decide (s.cUpdVal i ≠ 0)) }

/-- Modelled from the spec: `pupd.setValue(i, v)` (not under src/): "`setValue(i,v)`
writes and, if transitioning from zero, appends the index". -/
def EnterSolver.setValueP (s : EnterSolver) (i : ℕ) (v : ℚ) : EnterSolver :=
  { s with pUpdVal := Function.update s.pUpdVal i v,
           pUpdIdx := if s.pUpdVal i = 0 ∧ v ≠ 0 then s.pUpdIdx ++ [i] else s.pUpdIdx }

/-- The assignment `pvec[pnr] = solver()->vector(pnr) * cvec` of `selectEnter`: the
product of the sparse vector with `coPvec()`. -/
def EnterSolver.recomputePvec (s : EnterSolver) (vector : ℕ → List (ℕ × ℚ)) (pnr : ℕ) :
    EnterSolver :=
  { s with pVec := Function.update s.pVec pnr (rowValue (vector pnr) s.coPvec) }

/-- What a call of `selectEnter` leaves behind: the returned id, the contents of `val`
after the call and the solver. -/
structure EnterResult where
  enterId : EnterId
  val : ℚ
  s : EnterSolver

/-- The local variables of `selectEnter` that live across the passes of `for (;;)`:
`enterId`, `minStability`, `rmaxabs` and `cmaxabs`. -/
structure EnterLocals where
  enterId : EnterId
  minStability : ℚ
  rmaxabs : ℚ
  cmaxabs : ℚ

/-- How control leaves the branches of `selectEnter`: by a `return` inside a branch, or
towards the two final assertions, with the values of `max`, `sel` and `enterId` at that
point. -/
inductive EnterExit where
  | returned (r : EnterResult)
  | final (max sel : ℚ) (enterId : EnterId) (s : EnterSolver)

/-- The loop `for (;;)` of the branch `val > epsilon` of `selectEnter`; the first argument
bounds the number of passes. -/
def enterRunPos (ctx : EnterContext) (delta infinity degeneps : ℚ) :
    ℕ → EnterSolver → ℚ → EnterLocals → Except Fault EnterExit
  | 0, _, _, _ => .error .fuel
  | fuel + 1, s, val, l =>
    let epsilon := s.epsilon
    let lastshift := s.theShift
    if ¬ (delta > epsilon) then .error .assertion
    else
      -- phase 1:
      match maxDelta delta infinity l.rmaxabs val s.pUpdIdx s.pUpdVal s.pVec s.lpBound
          s.upBound epsilon with
      | .error e => .error e
      | .ok r1 =>
        match maxDelta delta infinity l.cmaxabs r1.val s.cUpdIdx s.cUpdVal s.coPvec s.lcBound
            s.ucBound epsilon with
        | .error e => .error e
        | .ok r2 =>
          let max := r2.val
          if max = val then .ok (.returned { enterId := l.enterId, val := val, s := s })
          else
            -- phase 2:
            let ruseeps := enterUseepsPos r1.max epsilon
            let cuseeps := enterUseepsPos r2.max epsilon
            let c := enterLoopPosP max ruseeps degeneps s.pUpdIdx.length
              { s := s, stab := 0, sel := -infinity, pnr := -1, cnr := -1,
                enterId := l.enterId }
            let c := enterLoopPosC max cuseeps degeneps c.s.cUpdIdx.length c
            let l := { l with enterId := c.enterId, rmaxabs := r1.max, cmaxabs := r2.max }
            if lastshift = c.s.theShift then
              if c.cnr ≥ 0 then
                if ctx.isBasic c.enterId then
                  enterRunPos ctx delta infinity degeneps fuel (c.s.clearNumC c.cnr.toNat) val l
                else .ok (.final max c.sel c.enterId c.s)
              else if c.pnr ≥ 0 then
                let pnr := c.pnr.toNat
                let s1 := c.s.recomputePvec ctx.vector pnr
                if ctx.isBasic c.enterId then
                  enterRunPos ctx delta infinity degeneps fuel (s1.setValueP pnr 0) val l
                else
                  let x := s1.pUpdVal pnr
                  if x > 0 then
                    let sel := s1.upBound pnr - s1.pVec pnr
                    if x < l.minStability ∧ sel < delta then
                      enterRunPos ctx delta infinity degeneps fuel
                        (s1.shiftUPbound pnr (s1.pVec pnr)) val
                        { l with minStability := l.minStability / 2 }
                    else
                      let sel := sel / x
                      if sel > max then enterRunPos ctx delta infinity degeneps fuel s1 val l
                      else .ok (.final max sel c.enterId s1)
                  else
                    let sel := s1.lpBound pnr - s1.pVec pnr
                    if -x < l.minStability ∧ -sel < delta then
                      enterRunPos ctx delta infinity degeneps fuel
                        (s1.shiftLPbound pnr (s1.pVec pnr)) val
                        { l with minStability := l.minStability / 2 }
                    else
                      let sel := sel / x
                      if sel > max then enterRunPos ctx delta infinity degeneps fuel s1 val l
                      else .ok (.final max sel c.enterId s1)
              else .ok (.returned { enterId := .invalid, val := 0, s := c.s })
            else enterRunPos ctx delta infinity degeneps fuel c.s val l

/-- The loop `for (;;)` of the branch `val < -epsilon` of `selectEnter`; the first
argument bounds the number of passes. -/
def enterRunNeg (ctx : EnterContext) (delta infinity degeneps : ℚ) :
    ℕ → EnterSolver → ℚ → EnterLocals → Except Fault EnterExit
  | 0, _, _, _ => .error .fuel
  | fuel + 1, s, val, l =>
    let epsilon := s.epsilon
    let lastshift := s.theShift
    if ¬ (delta > epsilon) then .error .assertion
    else
      -- phase 1:
      match minDelta delta infinity l.rmaxabs val s.pUpdIdx s.pUpdVal s.pVec s.lpBound
          s.upBound epsilon with
      | .error e => .error e
      | .ok r1 =>
        match minDelta delta infinity l.cmaxabs r1.val s.cUpdIdx s.cUpdVal s.coPvec s.lcBound
            s.ucBound epsilon with
        | .error e => .error e
        | .ok r2 =>
          let max := r2.val
          if max = val then .ok (.returned { enterId := l.enterId, val := val, s := s })
          else
            -- phase 2:
            let ruseeps := enterUseepsNeg r1.max epsilon
            let cuseeps := enterUseepsNeg r2.max epsilon
            let c := enterLoopNegP max ruseeps degeneps s.pUpdIdx.length
              { s := s, stab := 0, sel := infinity, pnr := -1, cnr := -1,
                enterId := l.enterId }
            let c := enterLoopNegC max cuseeps degeneps c.s.cUpdIdx.length c
            let l := { l with enterId := c.enterId, rmaxabs := r1.max, cmaxabs := r2.max }
            if lastshift = c.s.theShift then
              if c.cnr ≥ 0 then
                if ctx.isBasic c.enterId then
                  enterRunNeg ctx delta infinity degeneps fuel (c.s.clearNumC c.cnr.toNat) val l
                else .ok (.final max c.sel c.enterId c.s)
              else if c.pnr ≥ 0 then
                let pnr := c.pnr.toNat
                let s1 := c.s.recomputePvec ctx.vector pnr
                if ctx.isBasic c.enterId then
                  enterRunNeg ctx delta infinity degeneps fuel (s1.setValueP pnr 0) val l
                else
                  let x := s1.pUpdVal pnr
                  if x > 0 then
                    let sel := s1.lpBound pnr - s1.pVec pnr
                    if x < l.minStability ∧ -sel < delta then
                      enterRunNeg ctx delta infinity degeneps fuel
                        (s1.shiftLPbound pnr (s1.pVec pnr)) val
                        { l with minStability := l.minStability / 2 }
                    else
                      let sel := sel / x
                      if sel < max then enterRunNeg ctx delta infinity degeneps fuel s1 val l
                      else .ok (.final max sel c.enterId s1)
                  else
                    let sel := s1.upBound pnr - s1.pVec pnr
                    if -x < l.minStability ∧ sel < delta then
                      enterRunNeg ctx delta infinity degeneps fuel
                        (s1.shiftUPbound pnr (s1.pVec pnr)) val
                        { l with minStability := l.minStability / 2 }
                    else
                      let sel := sel / x
                      if sel < max then enterRunNeg ctx delta infinity degeneps fuel s1 val l
                      else .ok (.final max sel c.enterId s1)
              else .ok (.returned { enterId := .invalid, val := 0, s := c.s })
            else enterRunNeg ctx delta infinity degeneps fuel c.s val l

/-- The source's `selectEnter(val, ...)` from its start to the point before the two final
assertions: the initial assertions, the two calls of `setup()` and the branch for the
sign of `val`. Neither branch is entered when `|val| ≤ epsilon`. -/
def selectEnterBranches (ctx : EnterContext) (delta infinity : ℚ) (fuel : ℕ)
    (s : EnterSolver) (val : ℚ) : Except Fault EnterExit :=
  let enterId := EnterId.invalid
  let max : ℚ := 0
  let sel : ℚ := 0
  let l : EnterLocals :=
    { enterId := enterId, minStability := 1 / 10000, rmaxabs := 1, cmaxabs := 1 }
  let epsilon := s.epsilon
  let degeneps := degenerateEps ctx.solverDelta ctx.numCycle ctx.maxCycle
  if ¬ (delta > epsilon ∧ epsilon > 0 ∧ ctx.maxCycle > 0) then .error .assertion
  else
    let s := (s.setupC ctx.cDim).setupP ctx.pDim
    if val > epsilon then enterRunPos ctx delta infinity degeneps fuel s val l
    else if val < -epsilon then enterRunNeg ctx delta infinity degeneps fuel s val l
    else .ok (.final max sel enterId s)

/-- The source's `selectEnter(val, ...)`. The parameters `delta` and `infinity` are the
member `this->delta` and the global constant; `fuel` bounds the number of passes of
`for (;;)`; a failed `assert` ends the call without a result. -/
def selectEnter (ctx : EnterContext) (delta infinity : ℚ) (fuel : ℕ) (s : EnterSolver)
    (val : ℚ) : Except Fault EnterResult :=
  match selectEnterBranches ctx delta infinity fuel s val with
  | .error e => .error e
  | .ok (.returned r) => .ok r
  | .ok (.final max sel enterId s) =>
    if ¬ (max * val ≥ 0) then .error .assertion
    else if enterId = EnterId.invalid then .error .assertion
    else .ok { enterId := enterId, val := sel, s := s }

/-- The source's `selectEnter(val, ...)` without its two final assertions, as they are
compiled under `NDEBUG`: what the function returns when they are not checked. -/
def selectEnterNoAssert (ctx : EnterContext) (delta infinity : ℚ) (fuel : ℕ)
    (s : EnterSolver) (val : ℚ) : Except Fault EnterResult :=
  match selectEnterBranches ctx delta infinity fuel s val with
  | .error e => .error e
  | .ok (.returned r) => .ok r
  | .ok (.final _ sel enterId s) => .ok { enterId := enterId, val := sel, s := s }

/-- A context for the examples: `solver()->delta() = 1/10`, no cycling, one row and one
column, nothing basic. -/
def exampleEnterContext : EnterContext :=
  { solverDelta := 1 / 10, numCycle := 0, maxCycle := 100, pDim := 1, cDim := 1,
    isBasic := fun _ => false, vector := fun _ => [(0, 1)] }

/-- One pass of the loop body of `maxDelta` with the result of every arithmetic operation
on `Real` passed through `fl`. The source's `Real` is `double`: with `fl := roundDouble`
each operation gives the binary64 result, with `fl := id` the operations are exact
(`maxDeltaBody`). Comparisons and negations do not round. -/
def maxDeltaBodyFl (fl : ℚ → ℚ) (delta infinity epsilon : ℚ) (upd vec low up : ℕ → ℚ)
    (i : ℕ) (st : DeltaLoop) : DeltaLoop :=
  let x := upd i
  if x > epsilon then
    let themax := if x > st.themax then x else st.themax
    let x := fl (fl (fl (up i - vec i) + delta) / x)
    if x < st.theval ∧ up i < infinity then { theval := x, themax := themax }
    else { theval := st.theval, themax := themax }
  else if x < -epsilon then
    let themax := if -x > st.themax then -x else st.themax
    let x := fl (fl (fl (low i - vec i) - delta) / x)
    if x < st.theval ∧ low i > -infinity then { theval := x, themax := themax }
    else { theval := st.theval, themax := themax }
  else st

/-- The source's `maxDelta` with the arithmetic operations rounded by `fl`. -/
def maxDeltaFl (fl : ℚ → ℚ) (delta infinity : ℚ) (max val : ℚ) (idx : List ℕ)
    (upd vec low up : ℕ → ℚ) (epsilon : ℚ) : Except Fault DeltaResult :=
  if val ≥ 0 then
    let st := idx.foldr (maxDeltaBodyFl fl delta infinity epsilon upd vec low up)
      { theval := val, themax := 0 }
    .ok { sel := -1, max := max, val := st.theval }
  else .error .assertion

/-- One pass of the loop body of `minDelta` with the arithmetic operations rounded by
`fl`. -/
def minDeltaBodyFl (fl : ℚ → ℚ) (delta infinity epsilon : ℚ) (upd vec low up : ℕ → ℚ)
    (i : ℕ) (st : DeltaLoop) : DeltaLoop :=
  let x := upd i
  if x > epsilon then
    let themax := if x > st.themax then x else st.themax
    let x := fl (fl (fl (low i - vec i) - delta) / x)
    if x > st.theval ∧ low i > -infinity then { theval := x, themax := themax }
    else { theval := st.theval, themax := themax }
  else if x < -epsilon then
    let themax := if -x > st.themax then -x else st.themax
    let x := fl (fl (fl (up i - vec i) + delta) / x)
    if x > st.theval ∧ up i < infinity then { theval := x, themax := themax }
    else { theval := st.theval, themax := themax }
  else st

/-- The source's `minDelta` with the arithmetic operations rounded by `fl`. -/
def minDeltaFl (fl : ℚ → ℚ) (delta infinity : ℚ) (max val : ℚ) (idx : List ℕ)
    (upd vec low up : ℕ → ℚ) (epsilon : ℚ) : Except Fault DeltaResult :=
  if val < 0 then
    let st := idx.foldr (minDeltaBodyFl fl delta infinity epsilon upd vec low up)
      { theval := val, themax := 0 }
    .ok { sel := -1, max := max, val := st.theval }
  else .error .assertion

/-- The source's `degenerateEps()` with the two operations on `Real` rounded by `fl`;
the quotient of the two `int` counters is the integer division. -/
def degenerateEpsFl (fl : ℚ → ℚ) (delta : ℚ) (numCycle maxCycle : ℤ) : ℚ :=
  fl (delta * fl (1 - ((Int.tdiv numCycle maxCycle : ℤ) : ℚ)))

/-- Modelled from the spec: the solver's `shiftUBbound(i, to)` (not under src/) as in
`Solver.shiftUBbound`, with the difference and the sum rounded by `fl`. -/
def Solver.shiftUBboundFl (fl : ℚ → ℚ) (s : Solver) (i : ℕ) (t : ℚ) : Solver :=
  { s with theShift := fl (s.theShift + fl (t - s.ubBound i)),
           ubBound := Function.update s.ubBound i t }

/-- Modelled from the spec: the solver's `shiftLBbound(i, to)` (not under src/) as in
`Solver.shiftLBbound`, with the difference and the sum rounded by `fl`. -/
def Solver.shiftLBboundFl (fl : ℚ → ℚ) (s : Solver) (i : ℕ) (t : ℚ) : Solver :=
  { s with theShift := fl (s.theShift + fl (s.lbBound i - t)),
           lbBound := Function.update s.lbBound i t }

/-- The threshold `useeps` of phase 2, `maxabs * epsilon * 0.001` raised to `epsilon`
when it is smaller, with the two products rounded by `fl`; `0.001` is a literal of type
`double`, the value `fl (1 / 1000)`. -/
def leaveUseepsFl (fl : ℚ → ℚ) (maxabs epsilon : ℚ) : ℚ :=
  let useeps := fl (fl (maxabs * epsilon) * fl (1 / 1000))
  if useeps < epsilon then epsilon else useeps

/-- The body of the phase-2 loop of `selectLeave` in the branch `max > epsilon`, for the
position `j`, with the operations `up[i] - vec[i]`, `y /= x` and `sel - epsilon`
rounded by `fl`. -/
def leaveBodyPosFl (fl : ℚ → ℚ) (max useeps degeneps epsilon : ℚ) (j : ℕ) (c : LeaveScan) :
    LeaveScan :=
  let i := c.s.updIdx.getD j 0
  let x := c.s.updVal i
  if x > useeps then
    let y := fl (c.s.ubBound i - c.s.fVec i)
    if y < -degeneps then { c with s := c.s.shiftUBboundFl fl i (c.s.fVec i) }
    else
      let y := fl (y / x)
      if y ≤ max ∧ y > fl (c.sel - epsilon) ∧ x > c.stab then
        { c with sel := y, leave := (i : ℤ), stab := x }
      else c
  else if x < -useeps then
    let y := fl (c.s.lbBound i - c.s.fVec i)
    if y > degeneps then { c with s := c.s.shiftLBboundFl fl i (c.s.fVec i) }
    else
      let y := fl (y / x)
      if y ≤ max ∧ y > fl (c.sel - epsilon) ∧ -x > c.stab then
        { c with sel := y, leave := (i : ℤ), stab := -x }
      else c
  else { c with s := c.s.clearNum j }

/-- The phase-2 loop of the branch `max > epsilon` with rounded operations: called with
the number of positions still to visit. -/
def leaveLoopPosFl (fl : ℚ → ℚ) (max useeps degeneps epsilon : ℚ) :
    ℕ → LeaveScan → LeaveScan
  | 0, c => c
  | j + 1, c => leaveLoopPosFl fl max useeps degeneps epsilon j
      (leaveBodyPosFl fl max useeps degeneps epsilon j c)

/-- The body of the phase-2 loop of `selectLeave` in the branch `max < -epsilon`, for the
position `j`, with the operations `up[i] - vec[i]`, `y /= x` and `sel + epsilon`
rounded by `fl`. -/
def leaveBodyNegFl (fl : ℚ → ℚ) (max useeps degeneps epsilon : ℚ) (j : ℕ) (c : LeaveScan) :
    LeaveScan :=
  let i := c.s.updIdx.getD j 0
  let x := c.s.updVal i
  if x < -useeps then
    let y := fl (c.s.ubBound i - c.s.fVec i)
    if y < -degeneps then { c with s := c.s.shiftUBboundFl fl i (c.s.fVec i) }
    else
      let y := fl (y / x)
      if y ≥ max ∧ y < fl (c.sel + epsilon) ∧ -x > c.stab then
        { c with sel := y, leave := (i : ℤ), stab := -x }
      else c
  else if x > useeps then
    let y := fl (c.s.lbBound i - c.s.fVec i)
    if y > degeneps then { c with s := c.s.shiftLBboundFl fl i (c.s.fVec i) }
    else
      let y := fl (y / x)
      if y ≥ max ∧ y < fl (c.sel + epsilon) ∧ x > c.stab then
        { c with sel := y, leave := (i : ℤ), stab := x }
      else c
  else { c with s := c.s.clearNum j }

/-- The phase-2 loop of the branch `max < -epsilon` with rounded operations. -/
def leaveLoopNegFl (fl : ℚ → ℚ) (max useeps degeneps epsilon : ℚ) :
    ℕ → LeaveScan → LeaveScan
  | 0, c => c
  | j + 1, c => leaveLoopNegFl fl max useeps degeneps epsilon j
      (leaveBodyNegFl fl max useeps degeneps epsilon j c)

/-- The source's `selectLeave(val, ...)` with every arithmetic operation on `Real`
rounded by `fl`: `selectLeaveFl roundDouble` is the function in binary64 arithmetic and
`selectLeaveFl id` is `selectLeave`. The other arguments are those of `selectLeave`. -/
def selectLeaveFl (fl : ℚ → ℚ) (delta infinity : ℚ) :
    ℕ → Solver → ℚ → Except Fault LeaveResult
  | 0, _, _ => .error .fuel
  | fuel + 1, s, val =>
    let maxabs : ℚ := 1
    let epsilon := s.epsilon
    let degeneps := degenerateEpsFl fl s.solverDelta s.numCycle s.maxCycle
    if ¬ (delta > epsilon ∧ epsilon > 0 ∧ s.maxCycle > 0) then .error .assertion
    else
      let max := val
      let lastshift := s.theShift
      let s := s.setupUpd
      if max > epsilon then
        -- phase 1:
        match maxDeltaFl fl delta infinity maxabs max s.updIdx s.updVal s.fVec s.lbBound
            s.ubBound epsilon with
        | .error e => .error e
        | .ok r =>
          let maxabs := r.max
          let max := r.val
          if max = val then .ok { leave := -1, val := val, s := s }
          else
            -- phase 2:
            let useeps := leaveUseepsFl fl maxabs epsilon
            let c := leaveLoopPosFl fl max useeps degeneps epsilon s.updIdx.length
              { s := s, stab := 0, sel := -infinity, leave := -1 }
            if lastshift ≠ c.s.theShift then selectLeaveFl fl delta infinity fuel c.s val
            else if c.leave ≥ 0 then .ok { leave := c.leave, val := c.sel, s := c.s }
            else .error .assertion
      else if max < -epsilon then
        -- phase 1:
        match minDeltaFl fl delta infinity maxabs max s.updIdx s.updVal s.fVec s.lbBound
            s.ubBound epsilon with
        | .error e => .error e
        | .ok r =>
          let maxabs := r.max
          let max := r.val
          if max = val then .ok { leave := -1, val := val, s := s }
          else
            -- phase 2:
            let useeps := leaveUseepsFl fl maxabs epsilon
            let c := leaveLoopNegFl fl max useeps degeneps epsilon s.updIdx.length
              { s := s, stab := 0, sel := infinity, leave := -1 }
            if lastshift ≠ c.s.theShift then selectLeaveFl fl delta infinity fuel c.s val
            else if c.leave ≥ 0 then .ok { leave := c.leave, val := c.sel, s := c.s }
            else .error .assertion
      else .ok { leave := -1, val := val, s := s }

/-- A solver state for the examples in binary64 arithmetic, all of whose entries are
doubles: tolerance `epsilon = 2 ^ (-10)`, `delta() = 1/8`, counters `0` of `100`, no
accumulated shift, vectors of dimension `dim` given by their entries. -/
def exampleSolverFl (dim : ℕ) (fVec upd ub lb : ℕ → ℚ) : Solver :=
  { epsilon := 1 / 1024, solverDelta := 1 / 8, numCycle := 0, maxCycle := 100,
    theShift := 0, fVec := fVec, updVal := upd, updIdx := [], dim := dim,
    ubBound := ub, lbBound := lb }

/-- The value of a row for the solution `solu` with the product and the sum of
`val += rowvec.value(col) * solu[rowvec.index(col)]` rounded by `fl`. -/
def rowValueFl (fl : ℚ → ℚ) (rowvec : List (ℕ × ℚ)) (solu : ℕ → ℚ) : ℚ :=
  rowvec.foldl (fun val e => fl (val + fl (e.2 * solu e.1))) 0

/-- The source's `SoPlex::qualConstraintViolation(maxviol, sumviol)` with every
arithmetic operation on `Real` rounded by `fl`: the row value, the differences
`val - lhs(row)` and `val - rhs(row)` and the sum `sumviol += viol`. -/
def qualConstraintViolationFl (fl : ℚ → ℚ) (rowVector : ℕ → List (ℕ × ℚ)) (nRows : ℕ)
    (lhs rhs : ℕ → ℚ) (solu : ℕ → ℚ) : Except Fault (ℚ × ℚ) :=
  (List.range nRows).foldlM (fun (acc : ℚ × ℚ) row =>
    let val := rowValueFl fl (rowVector row) solu
    if lhs row ≤ rhs row then
      let viol :=
        if val < lhs row then |fl (val - lhs row)|
        else if val > rhs row then |fl (val - rhs row)|
        else 0
      Except.ok (if viol > acc.1 then viol else acc.1, fl (acc.2 + viol))
    else Except.error Fault.assertion) (0, 0)

/-- The source's `SoPlex::qualBoundViolation(maxviol, sumviol)` with every arithmetic
operation on `Real` rounded by `fl`. -/
def qualBoundViolationFl (fl : ℚ → ℚ) (nCols : ℕ) (lower upper : ℕ → ℚ) (solu : ℕ → ℚ) :
    Except Fault (ℚ × ℚ) :=
  (List.range nCols).foldlM (fun (acc : ℚ × ℚ) col =>
    if lower col ≤ upper col then
      let viol :=
        if solu col < lower col then |fl (solu col - lower col)|
        else if solu col > upper col then |fl (solu col - upper col)|
        else 0
      Except.ok (if viol > acc.1 then viol else acc.1, fl (acc.2 + viol))
    else Except.error Fault.assertion) (0, 0)

/-! ## Properties -/

/-! ### Bit lengths -/

theorem log2Aux_bounds (fuel : ℕ) : ∀ n : ℕ, n ≤ fuel → 1 ≤ n →
    2 ^ log2Aux fuel n ≤ n ∧ n < 2 ^ (log2Aux fuel n + 1) := by
  induction fuel with
  | zero => intro n h0 h1; omega
  | succ fuel ih =>
    intro n hn h1
    by_cases h2 : n < 2
    · have hn1 : n = 1 := by omega
      simp [log2Aux, hn1]
    · have hdiv := ih (n / 2) (by omega) (by omega)
      simp only [log2Aux, if_neg h2]
      rw [pow_succ, pow_succ, pow_succ]
      rw [pow_succ] at hdiv
      omega

theorem log2Nat_bounds (n : ℕ) (h : 1 ≤ n) :
    2 ^ log2Nat n ≤ n ∧ n < 2 ^ (log2Nat n + 1) :=
  log2Aux_bounds n n le_rfl h

/-! ### `invert` -/

theorem invert_of_ne_zero (r : Rational) (hr : r ≠ 0) : invert r = .ok r⁻¹ := by
  have hnum : r.num ≠ 0 := Rat.num_ne_zero.mpr hr
  have hval : Rat.divInt (r.den : ℤ) r.num = r⁻¹ := by
    rw [Rat.divInt_eq_div, ← inv_div, Int.cast_natCast, Rat.num_div_den]
  simp [invert, mkRational, numerator, denominator, hnum, hval]

/-- Claim C8: for every rational `r ≠ 0`, `invert` returns the fraction with numerator and
denominator swapped, `den / num`, which is `1 / r`; the product of `r` and the result
is `1`, and inverting the result gives back `r`. -/
theorem invert_swaps (r : Rational) (hr : r ≠ 0) :
    ∃ v : Rational, invert r = .ok v ∧ v = (denominator r : ℚ) / (numerator r : ℚ) ∧
      v = 1 / r ∧ r * v = 1 ∧ invert v = .ok r := by
  refine ⟨r⁻¹, invert_of_ne_zero r hr, ?_, ?_, ?_, ?_⟩
  · simp only [numerator, denominator]
    rw [← inv_div, Int.cast_natCast, Rat.num_div_den]
  · simp
  · exact mul_inv_cancel₀ hr
  · have := invert_of_ne_zero r⁻¹ (inv_ne_zero hr)
    simpa using this

/-- Witness for C8 at `r = -2/3`. -/
theorem invert_swaps_witness :
    ∃ v : Rational, invert (-2 / 3) = .ok v ∧
      v = (denominator (-2 / 3) : ℚ) / (numerator (-2 / 3) : ℚ) ∧
      v = 1 / (-2 / 3) ∧ (-2 / 3) * v = 1 ∧ invert v = .ok (-2 / 3) :=
  invert_swaps (-2 / 3) (by norm_num)

/-- Claim C9: `invert` fails exactly on the rational zero, with an arithmetic domain error
and without a value; on every other input it returns a value. -/
theorem invert_fails_iff_zero (r : Rational) :
    (invert r = .error .arithDomain ↔ r = 0) ∧ ((∃ v, invert r = .ok v) ↔ r ≠ 0) ∧
      (r = 0 → ∀ v, invert r ≠ .ok v) := by
  by_cases hr : r = 0
  · subst hr
    have h0 : invert 0 = .error .arithDomain := by
      simp [invert, mkRational, numerator]
    simp [h0]
  · have h1 := invert_of_ne_zero r hr
    simp [h1, hr]

/-! ### `powRound` -/

theorem powRound_eq_of_floor_zero (r : Rational) (hr : 0 < r) (hf : ⌊r⌋ = 0) :
    powRound r = .ok 2 := by
  have hnum : 0 ≤ r.num := le_of_lt (Rat.num_pos.mpr hr)
  have htd : Int.tdiv r.num (r.den : ℤ) = 0 := by
    rw [Int.tdiv_eq_ediv hnum (Int.natCast_nonneg _), ← Rat.floor_def, hf]
  simp only [powRound, numerator, denominator, htd]
  rfl

theorem powRound_eq_of_floor_pos (r : Rational) (hr : 0 < r) (hf : 0 < ⌊r⌋) :
    powRound r = .ok (((2 : ℤ) ^ ((log2Nat ⌊r⌋.toNat + 1) % 2 ^ 32) : ℤ) : ℚ) := by
  have hnum : 0 ≤ r.num := le_of_lt (Rat.num_pos.mpr hr)
  have htd : Int.tdiv r.num (r.den : ℤ) = ⌊r⌋ := by
    rw [Int.tdiv_eq_ediv hnum (Int.natCast_nonneg _), ← Rat.floor_def]
  have hne : ⌊r⌋ ≠ 0 := ne_of_gt hf
  have hnle : ¬ ⌊r⌋ ≤ 0 := not_le.mpr hf
  simp only [powRound, numerator, denominator, htd, msb, if_neg hne, if_neg hnle]
  rfl

/-- Claim C2 (as amended): for every rational `r > 0` below `2 ^ N` for some `N < 2 ^ 32`
(the bit length of its integer part fits the `unsigned int` handed to `pow`),
`powRound` returns a power of two `2 ^ k`, `k ≥ 1`, that is strictly greater than `r`;
for `r ≥ 1` it is the smallest such power, `2 ^ (k - 1) ≤ r < 2 ^ k`, and for
`0 < r < 1` it is `2`. -/
theorem powRound_next_power (r : Rational) (N : ℕ) (hr : 0 < r) (hN : N < 2 ^ 32)
    (hb : r < 2 ^ N) :
    ∃ k : ℕ, powRound r = .ok (2 ^ k) ∧ 1 ≤ k ∧ r < 2 ^ k ∧
      (1 ≤ r → (2 : ℚ) ^ (k - 1) ≤ r) ∧ (r < 1 → k = 1) := by
  have hfl : (⌊r⌋ : ℚ) ≤ r := Int.floor_le r
  have hlt : r < (⌊r⌋ : ℚ) + 1 := Int.lt_floor_add_one r
  have hf0 : 0 ≤ ⌊r⌋ := Int.floor_nonneg.mpr (le_of_lt hr)
  rcases eq_or_lt_of_le hf0 with hz | hpos
  · have hz' : ⌊r⌋ = 0 := hz.symm
    have hr1 : r < 1 := by rw [hz'] at hlt; simpa using hlt
    refine ⟨1, ?_, le_rfl, ?_, ?_, fun _ => rfl⟩
    · rw [powRound_eq_of_floor_zero r hr hz']; norm_num
    · linarith
    · intro h1; linarith
  · obtain ⟨n, hn⟩ := Int.eq_ofNat_of_zero_le hf0
    have hn1 : 1 ≤ n := by omega
    have hbd := log2Nat_bounds n hn1
    have htoNat : ⌊r⌋.toNat = n := by rw [hn]; simp
    have hfq : (⌊r⌋ : ℚ) = (n : ℚ) := by rw [hn]; simp
    have hlow : ((2 : ℚ) ^ log2Nat n) ≤ r := by
      have : ((2 ^ log2Nat n : ℕ) : ℚ) ≤ (n : ℚ) := by exact_mod_cast hbd.1
      calc (2 : ℚ) ^ log2Nat n = ((2 ^ log2Nat n : ℕ) : ℚ) := by norm_cast
        _ ≤ (n : ℚ) := this
        _ ≤ r := by rw [← hfq]; exact hfl
    have hup : r < (2 : ℚ) ^ (log2Nat n + 1) := by
      have : ((n + 1 : ℕ) : ℚ) ≤ ((2 ^ (log2Nat n + 1) : ℕ) : ℚ) := by exact_mod_cast hbd.2
      calc r < (n : ℚ) + 1 := by rw [← hfq]; exact hlt
        _ = ((n + 1 : ℕ) : ℚ) := by norm_cast
        _ ≤ ((2 ^ (log2Nat n + 1) : ℕ) : ℚ) := this
        _ = (2 : ℚ) ^ (log2Nat n + 1) := by norm_cast
    have hsmall : log2Nat n < N := by
      have h2 : (2 : ℚ) ^ log2Nat n < 2 ^ N := lt_of_le_of_lt hlow hb
      exact (pow_lt_pow_iff_right₀ (by norm_num : (1 : ℚ) < 2)).mp h2
    have hmod : (log2Nat n + 1) % 2 ^ 32 = log2Nat n + 1 := Nat.mod_eq_of_lt (by omega)
    refine ⟨log2Nat n + 1, ?_, by omega, hup, fun _ => ?_, fun h1 => ?_⟩
    · rw [powRound_eq_of_floor_pos r hr hpos, htoNat, hmod]; norm_num
    · simpa using hlow
    · exfalso
      have : (1 : ℚ) ≤ (n : ℚ) := by exact_mod_cast hn1
      rw [← hfq] at this
      linarith

/-- Witness for C2 (as amended) at `r = 3`, whose result is `4`. -/
theorem powRound_next_power_witness :
    ∃ k : ℕ, powRound 3 = .ok (2 ^ k) ∧ 1 ≤ k ∧ (3 : ℚ) < 2 ^ k ∧
      ((1 : ℚ) ≤ 3 → (2 : ℚ) ^ (k - 1) ≤ 3) ∧ ((3 : ℚ) < 1 → k = 1) :=
  powRound_next_power 3 2 (by norm_num) (by decide) (by norm_num)

/-- Claim C2 (counterexample): `powRound` does not leave a power of two unchanged and does
not return the smallest power of two `≥ r`: `1` becomes `2`, `4` becomes `8` and `1/2`
becomes `2`. -/
theorem powRound_power_of_two_doubled :
    powRound 1 = .ok 2 ∧ powRound 1 ≠ .ok 1 ∧ powRound 4 = .ok 8 ∧ powRound (1 / 2) = .ok 2 := by
  decide!

/-! ### `sizeInBase` -/

theorem sizeInBase_zero (withGMP : Bool) (digits : ℕ → ℤ → ℕ) (digitsFloat : ℤ → ℤ → ℕ)
    (base : ℤ) : sizeInBase withGMP digits digitsFloat 0 base = .ok 3 := by
  simp [sizeInBase]
  rfl

theorem sizeInBase_gmp_two (digits : ℕ → ℤ → ℕ) (digitsFloat : ℤ → ℤ → ℕ) (r : Rational)
    (hr : r ≠ 0) :
    sizeInBase true digits digitsFloat r 2 =
      .ok (toInt32 (bitLength r.den + bitLength r.num.natAbs)) := by
  simp [sizeInBase, hr, mpzSizeInBase, numerator, denominator]
  rfl

theorem sizeInBase_gmp_neg (digits : ℕ → ℤ → ℕ) (digitsFloat : ℤ → ℤ → ℕ) (r : Rational) :
    sizeInBase true digits digitsFloat (-r) 2 = sizeInBase true digits digitsFloat r 2 := by
  by_cases hr : r = 0
  · simp [hr]
  · rw [sizeInBase_gmp_two _ _ _ hr, sizeInBase_gmp_two _ _ _ (neg_ne_zero.mpr hr)]
    simp

theorem sizeInBase_two_of_pos (digits : ℕ → ℤ → ℕ) (digitsFloat : ℤ → ℤ → ℕ) (r : Rational)
    (hr : 0 < r) :
    sizeInBase false digits digitsFloat r 2 =
      .ok (toInt32 (bitLength r.den + bitLength r.num.natAbs)) := by
  have hnum : 0 < r.num := Rat.num_pos.mpr hr
  have hnum' : ¬ r.num ≤ 0 := not_le.mpr hnum
  have hden : ¬ (r.den : ℤ) ≤ 0 := not_le.mpr (by exact_mod_cast r.den_pos)
  have hnat : r.num.toNat = r.num.natAbs := by omega
  simp [sizeInBase, ne_of_gt hr, msb, numerator, denominator, hnum', hden, bitLength, hnat]
  rfl

/-- Claim C10 (evaluation at the failing input): in the build without GMP, `sizeInBase` of
the negative rational `-1/2` in base two raises (`msb` of the negative numerator),
whereas `sizeInBase(1/2, 2)` is `3` and the GMP build returns `3` for both signs. -/
theorem sizeInBase_negative_without_gmp (digits : ℕ → ℤ → ℕ) (digitsFloat : ℤ → ℤ → ℕ) :
    sizeInBase false digits digitsFloat (-1 / 2) 2 = .error .arithDomain ∧
      sizeInBase false digits digitsFloat (1 / 2) 2 = .ok 3 ∧
      sizeInBase true digits digitsFloat (-1 / 2) 2 = .ok 3 ∧
      sizeInBase true digits digitsFloat (1 / 2) 2 = .ok 3 := by
  have h1 : ((-1 / 2 : ℚ)).num = -1 := by norm_num
  have h2 : ((-1 / 2 : ℚ)).den = 2 := by norm_num
  have h3 : ((1 / 2 : ℚ)).num = 1 := by norm_num
  have h4 : ((1 / 2 : ℚ)).den = 2 := by norm_num
  have hne : (-1 / 2 : ℚ) ≠ 0 := by norm_num
  have hne' : (1 / 2 : ℚ) ≠ 0 := by norm_num
  refine ⟨?_, ?_, ?_, ?_⟩
  · simp only [sizeInBase, numerator, denominator, if_neg hne, h1, h2]
    simp [msb]
    rfl
  · rw [sizeInBase_two_of_pos _ _ _ (by norm_num), h3, h4]
    decide
  · rw [sizeInBase_gmp_two _ _ _ hne, h1, h2]
    decide
  · rw [sizeInBase_gmp_two _ _ _ hne', h3, h4]
    decide

/-! ### `isAdjacentTo` -/

theorem isAdjacentTo_of_representable (toDouble : ℚ → ℚ) (r : Rational) (d : ℚ)
    (h : toDouble r = r) : isAdjacentTo toDouble r d = true := by
  simp [isAdjacentTo, h]

/-- Claim C1 (evaluation at the failing input): `isAdjacentTo(1, 5.0)` is true although the
double `5.0` is neither `double(1) = 1.0` nor a neighbour of `1`: when `r` is
representable the function answers true without looking at `d`. For the
unrepresentable `1/3` the same `d` is rejected. -/
theorem isAdjacentTo_one_five :
    isAdjacentTo roundDouble 1 5 = true ∧ roundDouble 1 = 1 ∧ roundDouble 5 = 5 ∧
      isAdjacentTo roundDouble (1 / 3) 5 = false := by
  decide!

/-! ### `ratFromString` -/

/-- Claim C3 (evaluation at the failing input): for `"-0.0"` and `"-0.00"` the removal of
padding zeros in the branch for a leading `-` erases every digit, the text handed to
the string constructor is a bare minus sign followed by `/10` (resp. `/100`) and
`ratFromString` fails; the unsigned `"0.0"` and the other signed forms are read
correctly. -/
theorem ratFromString_negative_zero :
    mantissaText "-0.0".toList = .ok "-/10".toList ∧
      ratFromString "-0.0" = .error .invalidInput ∧
      ratFromString "-0.00" = .error .invalidInput ∧
      mantissaText "0.0".toList = .ok "0/10".toList ∧
      ratFromString "0.0" = .ok 0 ∧
      ratFromString "+0.5" = .ok (1 / 2) ∧
      ratFromString "-0.5" = .ok (-1 / 2) := by
  decide!

theorem double_ne_one_hundredth (m e : ℤ) : (m : ℚ) * 2 ^ e ≠ 1 / 100 := by
  intro h
  have h5 : ∀ n : ℕ, ∀ k : ℤ, 100 * k ≠ 2 ^ n := by
    intro n k hk
    have hdvd : (5 : ℤ) ∣ 2 ^ n := ⟨20 * k, by rw [← hk]; ring⟩
    have hp : Prime (5 : ℤ) := by norm_num
    have := hp.dvd_of_dvd_pow hdvd
    omega
  rcases le_or_lt 0 e with he | he
  · obtain ⟨n, rfl⟩ := Int.eq_ofNat_of_zero_le he
    have h1 : (100 : ℚ) * ((m * 2 ^ n : ℤ) : ℚ) = ((2 ^ 0 : ℤ) : ℚ) := by
      push_cast
      rw [zpow_natCast] at h
      linarith
    have h2 : 100 * (m * 2 ^ n) = (2 : ℤ) ^ 0 := by exact_mod_cast h1
    exact h5 0 _ h2
  · obtain ⟨n, hn⟩ := Int.eq_ofNat_of_zero_le (show 0 ≤ -e by omega)
    have he' : e = -(n : ℤ) := by omega
    rw [he', zpow_neg, zpow_natCast] at h
    have hpos : (0 : ℚ) < 2 ^ n := by positivity
    have h1 : (100 : ℚ) * (m : ℚ) = 2 ^ n := by
      field_simp at h
      linarith
    have h2 : 100 * m = (2 : ℤ) ^ n := by exact_mod_cast h1
    exact h5 n _ h2

/-- Claim C4 (evaluation at the failing input): `ratFromString(".5e-2")` is one half of the
double nearest to `0.01`, not `1/200`; `ratFromString(".5")` is `1/2`, so the value is
not `ratFromString(".5") * 10 ^ (-2)`. An exponent of `2` is applied exactly. -/
theorem ratFromString_negative_exponent :
    ratFromString ".5e-2" = .ok (5764607523034235 / 2 ^ 60) ∧
      ratFromString ".5e-2" ≠ .ok (1 / 200) ∧
      ratFromString ".5" = .ok (1 / 2) ∧
      stdPow 10 (-2) = .ok (5764607523034235 / 2 ^ 59) ∧
      ratFromString ".5e2" = .ok 50 := by
  decide!

/-- Claim C6 (as amended): `ratFromString("inf")` is the exact value of the double constant
`1e100`, which is `5147557589468029 * 2 ^ 280`, larger than `10 ^ 100` by about
`1.59 * 10 ^ 83`; `ratFromString("-inf")` is its negation, is negative and is above
`-10 ^ 200`. -/
theorem ratFromString_inf :
    ratFromString "inf" = .ok (5147557589468029 * 2 ^ 280) ∧
      ratFromString "-inf" = .ok (-(5147557589468029 * 2 ^ 280)) ∧
      (5147557589468029 * 2 ^ 280 : ℚ) = 10 ^ 100 +
        159028911097599180468360808563945281389781327557747838772170381060813469985856815104 ∧
      (-(5147557589468029 * 2 ^ 280) : ℚ) < 0 ∧
      (-(10 : ℚ) ^ 200) < -(5147557589468029 * 2 ^ 280) := by
  decide!

/-- Claim C6 (counterexample): `ratFromString("inf")` is not `10 ^ 100` and
`ratFromString("-inf")` is not `-10 ^ 100`. -/
theorem ratFromString_inf_ne_pow :
    ratFromString "inf" ≠ .ok (10 ^ 100) ∧ ratFromString "-inf" ≠ .ok (-10 ^ 100) := by
  decide!

/-- Claim C7 (counterexample): strings outside the grammar that `ratFromString` accepts:
characters after the exponent digits and a second exponent marker are ignored. -/
theorem ratFromString_trailing_accepted :
    ratFromString "1e5x" = .ok 100000 ∧ ratFromString "1.5e2e3" = .ok 150 := by
  decide!


/-! ### Strings accepted by `ratFromString` -/

theorem isDigit_ne (c x : Char) (hx : x.isDigit = false) (hc : c.isDigit = true) : c ≠ x := by
  intro h
  rw [h, hx] at hc
  exact Bool.false_ne_true hc

theorem front_cons (c : Char) (l : List Char) : front (c :: l) = c := rfl

theorem dropWhile_ne_slash (l q : List Char) (hl : ∀ x ∈ l, x ≠ '/') :
    (l ++ '/' :: q).dropWhile (fun c => c != '/') = '/' :: q := by
  induction l with
  | nil => simp
  | cons a l ih =>
    have ha : (a != '/') = true := by simpa using hl a (List.mem_cons_self _ _)
    have := ih (fun x hx => hl x (List.mem_cons_of_mem _ hx))
    simp only [List.cons_append, List.dropWhile_cons, ha, this, if_true]

theorem takeWhile_ne_slash (l q : List Char) (hl : ∀ x ∈ l, x ≠ '/') :
    (l ++ '/' :: q).takeWhile (fun c => c != '/') = l := by
  induction l with
  | nil => simp
  | cons a l ih =>
    have ha : (a != '/') = true := by simpa using hl a (List.mem_cons_self _ _)
    have := ih (fun x hx => hl x (List.mem_cons_of_mem _ hx))
    simp only [List.cons_append, List.takeWhile_cons, ha, this, if_true]

theorem dropWhile_no_slash (l : List Char) (hl : ∀ x ∈ l, x ≠ '/') :
    l.dropWhile (fun c => c != '/') = [] := by
  induction l with
  | nil => simp
  | cons a l ih =>
    have ha : (a != '/') = true := by simpa using hl a (List.mem_cons_self _ _)
    have := ih (fun x hx => hl x (List.mem_cons_of_mem _ hx))
    simp only [List.cons_append, List.dropWhile_cons, ha, this, if_true]

theorem parseInteger_digits (p : List Char) (hp : p ≠ []) (hd : p.all Char.isDigit = true) :
    parseInteger p = .ok (decimalValue p : ℤ) := by
  obtain ⟨c, t, rfl⟩ := List.exists_cons_of_ne_nil hp
  have hc : c.isDigit = true := by
    simp only [List.all_cons, Bool.and_eq_true] at hd
    exact hd.1
  have hne : c ≠ '-' := isDigit_ne c '-' (by decide) hc
  simp only [parseInteger, front_cons, if_neg hne]
  rw [if_pos ⟨hp, hd⟩]

theorem parseInteger_neg_digits (p : List Char) (hp : p ≠ []) (hd : p.all Char.isDigit = true) :
    parseInteger ('-' :: p) = .ok (-(decimalValue p : ℤ)) := by
  simp only [parseInteger, front_cons, List.drop_succ_cons, List.drop_zero]
  rw [if_pos trivial, if_pos ⟨hp, hd⟩]

theorem rationalOfString_fraction (n q : List Char) (hn : ∀ x ∈ n, x ≠ '/') :
    rationalOfString (n ++ '/' :: q) =
      (parseInteger n >>= fun v =>
        if q ≠ [] ∧ q.all Char.isDigit = true then mkRational v (decimalValue q)
        else .error .invalidInput) := by
  simp only [rationalOfString, dropWhile_ne_slash n q hn, takeWhile_ne_slash n q hn]

theorem rationalOfString_integer (n : List Char) (hn : ∀ x ∈ n, x ≠ '/') :
    rationalOfString n = (parseInteger n >>= fun v => pure (v : ℚ)) := by
  simp only [rationalOfString, dropWhile_no_slash n hn]

theorem string_ne_inf (l : List Char) (hl : ∀ x ∈ l, x ≠ 'i') :
    String.mk l ≠ "inf" ∧ String.mk l ≠ "-inf" := by
  constructor
  · intro h
    have h2 : l = ['i', 'n', 'f'] := congrArg String.data h
    exact hl 'i' (by rw [h2]; simp) rfl
  · intro h
    have h2 : l = ['-', 'i', 'n', 'f'] := congrArg String.data h
    exact hl 'i' (by rw [h2]; simp) rfl

theorem findFirstOf_eq_npos (l cs : List Char) (hl : ∀ x ∈ l, cs.contains x = false) :
    findFirstOf l cs = npos := by
  have hany : l.any (fun c => cs.contains c) = false := by
    rw [List.any_eq_false]
    intro x hx
    rw [hl x hx]
    exact Bool.false_ne_true
  simp only [findFirstOf, hany]
  rfl

/-- With none of `.`, `E`, `e` in the text (and the text neither `inf` nor `-inf`),
`ratFromString` hands the text, without a leading `+`, to the string constructor. -/
theorem ratFromString_case1 (l : List Char) (hi : ∀ x ∈ l, x ≠ 'i')
    (hl : ∀ x ∈ l, ['.', 'E', 'e'].contains x = false) :
    ratFromString (String.mk l) =
      if front l = '+' then rationalOfString (l.drop 1) else rationalOfString l := by
  have h := string_ne_inf l hi
  simp only [ratFromString, if_neg h.1, if_neg h.2, String.toList, findFirstOf_eq_npos l _ hl,
    if_true]

theorem digit_facts (x : Char) (hx : x.isDigit = true) :
    x ≠ 'i' ∧ x ≠ '/' ∧ x ≠ '+' ∧ x ≠ '-' ∧ ['.', 'E', 'e'].contains x = false := by
  refine ⟨isDigit_ne x _ (by decide) hx, isDigit_ne x _ (by decide) hx,
    isDigit_ne x _ (by decide) hx, isDigit_ne x _ (by decide) hx, ?_⟩
  have h1 := isDigit_ne x '.' (by decide) hx
  have h2 := isDigit_ne x 'E' (by decide) hx
  have h3 := isDigit_ne x 'e' (by decide) hx
  simp [h1, h2, h3]

theorem fraction_char_facts (x : Char)
    (hx : x.isDigit = true ∨ x = '+' ∨ x = '-' ∨ x = '/') :
    x ≠ 'i' ∧ ['.', 'E', 'e'].contains x = false := by
  rcases hx with h | rfl | rfl | rfl
  · exact ⟨(digit_facts x h).1, (digit_facts x h).2.2.2.2⟩
  · decide
  · decide
  · decide

theorem mkRational_natCast (n : ℤ) (d : ℕ) (hd : d ≠ 0) :
    mkRational n (d : ℤ) = .ok ((n : ℚ) / (d : ℚ)) := by
  have hd' : (d : ℤ) ≠ 0 := by exact_mod_cast hd
  simp [mkRational, hd', Rat.divInt_eq_div]

/-- The text `sgn ++ p ++ "/" ++ q` (sign `-` or none, digit strings `p`, `q`) read by
the string constructor. -/
theorem rationalOfString_signed_fraction (neg : Bool) (p q : List Char)
    (hp : p ≠ [] ∧ p.all Char.isDigit = true) (hq : q ≠ [] ∧ q.all Char.isDigit = true)
    (hq0 : decimalValue q ≠ 0) :
    rationalOfString ((if neg then ['-'] else []) ++ p ++ '/' :: q) =
      .ok ((if neg then -1 else 1) * (decimalValue p : ℚ) / (decimalValue q : ℚ)) := by
  have hpd : ∀ x ∈ p, x.isDigit = true := List.all_eq_true.mp hp.2
  cases neg with
  | false =>
    have hn : ∀ x ∈ ([] : List Char) ++ p, x ≠ '/' := by
      intro x hx
      exact (digit_facts x (hpd x (by simpa using hx))).2.1
    simp only [Bool.false_eq_true, if_false]
    rw [rationalOfString_fraction _ q hn, List.nil_append, parseInteger_digits p hp.1 hp.2]
    simp only [Except.bind, bind, if_pos hq]
    rw [mkRational_natCast _ _ hq0]
    simp
  | true =>
    have hn : ∀ x ∈ ['-'] ++ p, x ≠ '/' := by
      intro x hx
      rcases List.mem_append.mp hx with h | h
      · have : x = '-' := by simpa using h
        rw [this]; decide
      · exact (digit_facts x (hpd x h)).2.1
    simp only [if_true]
    rw [rationalOfString_fraction _ q hn, List.singleton_append,
      parseInteger_neg_digits p hp.1 hp.2]
    simp only [Except.bind, bind, if_pos hq]
    rw [mkRational_natCast _ _ hq0]
    simp

/-- The text `sgn ++ p` (sign `-` or none, digit string `p`) read by the string
constructor. -/
theorem rationalOfString_signed_integer (neg : Bool) (p : List Char)
    (hp : p ≠ [] ∧ p.all Char.isDigit = true) :
    rationalOfString ((if neg then ['-'] else []) ++ p) =
      .ok ((if neg then -1 else 1) * (decimalValue p : ℚ)) := by
  have hpd : ∀ x ∈ p, x.isDigit = true := List.all_eq_true.mp hp.2
  cases neg with
  | false =>
    have hn : ∀ x ∈ ([] : List Char) ++ p, x ≠ '/' := by
      intro x hx
      exact (digit_facts x (hpd x (by simpa using hx))).2.1
    simp only [Bool.false_eq_true, if_false]
    rw [rationalOfString_integer _ hn, List.nil_append, parseInteger_digits p hp.1 hp.2]
    simp [Except.bind, bind, pure, Except.pure]
  | true =>
    have hn : ∀ x ∈ ['-'] ++ p, x ≠ '/' := by
      intro x hx
      rcases List.mem_append.mp hx with h | h
      · have : x = '-' := by simpa using h
        rw [this]; decide
      · exact (digit_facts x (hpd x h)).2.1
    simp only [if_true]
    rw [rationalOfString_integer _ hn, List.singleton_append,
      parseInteger_neg_digits p hp.1 hp.2]
    simp [Except.bind, bind, pure, Except.pure]

theorem front_digits_append (p r : List Char) (hp : p ≠ [] ∧ p.all Char.isDigit = true) :
    front (p ++ r) ≠ '+' := by
  obtain ⟨c, t, rfl⟩ := List.exists_cons_of_ne_nil hp.1
  have hc : c.isDigit = true := by
    have := hp.2
    simp only [List.all_cons, Bool.and_eq_true] at this
    exact this.1
  simpa [front] using (digit_facts c hc).2.2.1

theorem signed_text_chars (sgn p r : List Char) (hs : sgn = [] ∨ sgn = ['+'] ∨ sgn = ['-'])
    (hp : p.all Char.isDigit = true)
    (hr : ∀ x ∈ r, x.isDigit = true ∨ x = '+' ∨ x = '-' ∨ x = '/') :
    ∀ x ∈ sgn ++ p ++ r, x ≠ 'i' ∧ ['.', 'E', 'e'].contains x = false := by
  intro x hx
  apply fraction_char_facts
  rcases List.mem_append.mp hx with h | h
  · rcases List.mem_append.mp h with h | h
    · rcases hs with rfl | rfl | rfl
      · simp at h
      · right; left; simpa using h
      · right; right; left; simpa using h
    · exact Or.inl (List.all_eq_true.mp hp x h)
  · exact hr x h

/-- Claim C5: a text `[+|-] p` made of a decimal digit string `p` is read as the integer
`± p`, and a text `[+|-] p "/" q` with digit strings `p`, `q`, `q` not zero, as the
rational `± p / q`; a leading `+` is ignored. (Such a text contains none of `.`, `e`,
`E`.) -/
theorem ratFromString_fraction_or_integer (sgn p : List Char)
    (hs : sgn = [] ∨ sgn = ['+'] ∨ sgn = ['-'])
    (hp : p ≠ [] ∧ p.all Char.isDigit = true) :
    ratFromString (String.mk (sgn ++ p)) =
        .ok ((if sgn = ['-'] then -1 else 1) * (decimalValue p : ℚ)) ∧
      ∀ q : List Char, q ≠ [] → q.all Char.isDigit = true → decimalValue q ≠ 0 →
        ratFromString (String.mk (sgn ++ p ++ '/' :: q)) =
          .ok ((if sgn = ['-'] then -1 else 1) * (decimalValue p : ℚ) / (decimalValue q : ℚ)) := by
  constructor
  · have h2 := signed_text_chars sgn p [] hs hp.2 (by simp)
    rw [List.append_nil] at h2
    rw [ratFromString_case1 _ (fun x hx => (h2 x hx).1) (fun x hx => (h2 x hx).2)]
    rcases hs with rfl | rfl | rfl
    · have hf := front_digits_append p [] hp
      rw [List.append_nil] at hf
      rw [List.nil_append, if_neg hf]
      simpa using rationalOfString_signed_integer false p hp
    · simpa [front] using rationalOfString_signed_integer false p hp
    · have hf : front (['-'] ++ p) ≠ '+' := by simp [front]
      rw [if_neg hf]
      simpa using rationalOfString_signed_integer true p hp
  · intro q hq1 hq2 hq0
    have hq : q ≠ [] ∧ q.all Char.isDigit = true := ⟨hq1, hq2⟩
    have hr : ∀ x ∈ '/' :: q, x.isDigit = true ∨ x = '+' ∨ x = '-' ∨ x = '/' := by
      intro x hx
      rcases List.mem_cons.mp hx with h | h
      · exact Or.inr (Or.inr (Or.inr h))
      · exact Or.inl (List.all_eq_true.mp hq2 x h)
    have h1 := signed_text_chars sgn p ('/' :: q) hs hp.2 hr
    rw [ratFromString_case1 _ (fun x hx => (h1 x hx).1) (fun x hx => (h1 x hx).2)]
    rcases hs with rfl | rfl | rfl
    · have hf := front_digits_append p ('/' :: q) hp
      rw [List.nil_append, if_neg hf]
      simpa using rationalOfString_signed_fraction false p q hp hq hq0
    · simpa [front] using rationalOfString_signed_fraction false p q hp hq hq0
    · have hf : front (['-'] ++ p ++ '/' :: q) ≠ '+' := by simp [front]
      rw [if_neg hf]
      simpa using rationalOfString_signed_fraction true p q hp hq hq0

/-- Witness for C5 at the texts `1` and `1/3`. -/
theorem ratFromString_fraction_or_integer_witness :
    ratFromString "1" = .ok 1 ∧ ratFromString "1/3" = .ok (1 / 3) := by
  have h := ratFromString_fraction_or_integer [] ['1'] (Or.inl rfl) (by decide)
  have h3 := h.2 ['3'] (by decide) (by decide) (by decide)
  have h1 := h.1
  have e1 : decimalValue ['1'] = 1 := by decide
  have e3 : decimalValue ['3'] = 3 := by decide
  have hs : ¬ (([] : List Char) = ['-']) := by decide
  rw [e1] at h1 h3
  rw [e3] at h3
  simp only [if_neg hs, one_mul, Nat.cast_one, Nat.cast_ofNat] at h1 h3
  exact ⟨h1, h3⟩

/-! ### Strings rejected by `ratFromString` -/

theorem toUpper_eq_E (x : Char) : x.toUpper = 'E' ↔ (x = 'e' ∨ x = 'E') := by
  constructor
  · intro h
    unfold Char.toUpper at h
    by_cases hr : x.toNat ≥ 97 ∧ x.toNat ≤ 122
    · simp only [hr, and_self, if_true] at h
      left
      have hx : x = Char.ofNat x.toNat := (Char.ofNat_toNat x).symm
      obtain ⟨h1, h2⟩ := hr
      generalize x.toNat = n at h hx h1 h2
      interval_cases n
      all_goals first
        | exact absurd h (by decide)
        | exact hx
    · simp only [hr, if_false] at h
      exact Or.inr h
  · rintro (rfl | rfl) <;> decide

theorem matchesAtIC_e (x : Char) (xs : List Char) :
    matchesAtIC ['e'] (x :: xs) = true ↔ (x = 'e' ∨ x = 'E') := by
  have h : ('e' : Char).toUpper = 'E' := by decide
  simp only [matchesAtIC, h, Bool.and_true, beq_iff_eq]
  rw [← toUpper_eq_E x]
  exact eq_comm

theorem findSubStringIC_e_none (m : List Char) (hm : ∀ x ∈ m, x ≠ 'e' ∧ x ≠ 'E') :
    findSubStringIC ['e'] m = m.length := by
  induction m with
  | nil => rfl
  | cons a m ih =>
    have ha := hm a (List.mem_cons_self _ _)
    have hno : ¬ (matchesAtIC ['e'] (a :: m) = true) := by
      rw [matchesAtIC_e]; tauto
    simp only [findSubStringIC, if_neg hno, List.length_cons,
      ih (fun x hx => hm x (List.mem_cons_of_mem _ hx))]

theorem findSubStringIC_e_append (m t : List Char) (c : Char)
    (hm : ∀ x ∈ m, x ≠ 'e' ∧ x ≠ 'E') (hc : c = 'e' ∨ c = 'E') :
    findSubStringIC ['e'] (m ++ c :: t) = m.length := by
  induction m with
  | nil =>
    have hyes : matchesAtIC ['e'] (c :: t) = true := (matchesAtIC_e c t).mpr hc
    simp [findSubStringIC, hyes]
  | cons a m ih =>
    have ha := hm a (List.mem_cons_self _ _)
    have hno : ¬ (matchesAtIC ['e'] (a :: (m ++ c :: t)) = true) := by
      rw [matchesAtIC_e]; tauto
    have ih' := ih (fun x hx => hm x (List.mem_cons_of_mem _ hx))
    rw [List.cons_append]
    show (if matchesAtIC ['e'] (a :: (m ++ c :: t)) = true then 0
      else findSubStringIC ['e'] (m ++ c :: t) + 1) = (a :: m).length
    rw [if_neg hno, ih', List.length_cons]

theorem indexOf_point (a r : List Char) (ha : '.' ∉ a) :
    (a ++ '.' :: r).indexOf '.' = a.length := by
  induction a with
  | nil => simp [List.indexOf_cons]
  | cons c a ih =>
    have hc : c ≠ '.' := fun h => ha (by rw [h]; exact List.mem_cons_self _ _)
    have ih' := ih (fun h => ha (List.mem_cons_of_mem _ h))
    have hb : (c == '.') = false := by simpa using hc
    rw [List.cons_append, List.indexOf_cons, ih', hb, cond_false, List.length_cons]

theorem strFind_point (a r : List Char) (ha : '.' ∉ a) :
    strFind (a ++ '.' :: r) '.' = a.length := by
  have hmem : '.' ∈ a ++ '.' :: r := by simp
  simp only [strFind, if_pos hmem, indexOf_point a r ha]

theorem strErase_point (a r : List Char) : strErase (a ++ '.' :: r) a.length 1 = a ++ r := by
  simp [strErase]

theorem not_all_digits_of_mem (a r : List Char) (x : Char) (hx : x ∈ a.drop 1 ++ r)
    (hd : x.isDigit = false) (ha : a ≠ []) :
    ((a ++ r).drop 1).all Char.isDigit = false := by
  obtain ⟨c, t, rfl⟩ := List.exists_cons_of_ne_nil ha
  rw [List.cons_append, List.drop_succ_cons, List.drop_zero]
  rw [List.drop_succ_cons, List.drop_zero] at hx
  rw [Bool.eq_false_iff]
  intro h
  have := List.all_eq_true.mp h x hx
  rw [hd] at this
  exact Bool.false_ne_true this

/-- A mantissa with a decimal point is rejected when, apart from its first character
and the first point, it holds a character that is not a digit. -/
theorem mantissaText_non_digit (a r : List Char) (x : Char) (ha : '.' ∉ a)
    (hx : x ∈ a.drop 1 ++ r) (hd : x.isDigit = false)
    (hlen : (a ++ '.' :: r).length < npos) :
    mantissaText (a ++ '.' :: r) = .error .invalidInput := by
  have hlen' : a.length < npos := by
    simp only [List.length_append, List.length_cons] at hlen
    omega
  cases a with
  | nil =>
    have hf : front ('.' :: r) = '.' := rfl
    have hfind := strFind_point ['0'] r (by decide)
    have herase := strErase_point ['0'] r
    have hnd := not_all_digits_of_mem ['0'] r x hx hd (by simp)
    have hpos : (['0'] : List Char).length ≠ npos := by
      simp only [List.length_cons, List.length_nil]
      decide
    simp only [List.singleton_append] at hfind herase hnd
    simp only [mantissaText, List.nil_append, hf, if_true, hfind, herase, hnd]
    simp only [ne_eq, hpos, not_false_eq_true, if_true, Bool.false_eq_true, if_false]
  | cons c a' =>
    have hc : c ≠ '.' := fun h => ha (by rw [h]; exact List.mem_cons_self _ _)
    have hf : front (c :: a' ++ '.' :: r) ≠ '.' := by simpa [front] using hc
    have hfind := strFind_point (c :: a') r ha
    have herase := strErase_point (c :: a') r
    have hnd := not_all_digits_of_mem (c :: a') r x hx hd (by simp)
    have hpos : (c :: a').length ≠ npos := by omega
    simp only [mantissaText, if_neg hf, hfind, herase, hnd]
    simp only [ne_eq, hpos, not_false_eq_true, if_true, Bool.false_eq_true, if_false]

/-- With one of `.`, `E`, `e` in the text, `ratFromString` takes case 2. -/
theorem ratFromString_case2 (l : List Char)
    (hany : l.any (fun c => ['.', 'E', 'e'].contains c) = true) (hlen : l.length < npos) :
    ratFromString (String.mk l) = ratFromDecimal l := by
  have h1 : String.mk l ≠ "inf" := by
    intro h
    have h2 : l = ['i', 'n', 'f'] := congrArg String.data h
    rw [h2] at hany
    exact absurd hany (by decide)
  have h2 : String.mk l ≠ "-inf" := by
    intro h
    have h2 : l = ['-', 'i', 'n', 'f'] := congrArg String.data h
    rw [h2] at hany
    exact absurd hany (by decide)
  have h3 : findFirstOf l ['.', 'E', 'e'] ≠ npos := by
    simp only [findFirstOf, hany, if_true]
    have := @List.findIdx_le_length Char (fun c => ['.', 'E', 'e'].contains c) l
    omega
  simp only [ratFromString, if_neg h1, if_neg h2, String.toList, if_neg h3]

theorem stoi_error (s : List Char) (e : Error) (h : stoi s = .error e) : e = .invalidInput := by
  unfold stoi at h
  simp only at h
  split at h
  · injection h with h; exact h.symm
  · split at h
    · split at h
      · injection h with h; exact h.symm
      · exact absurd h (by simp)
    · split at h
      · injection h with h; exact h.symm
      · exact absurd h (by simp)

theorem ratFromDecimal_no_exponent (m : List Char) (hm : ∀ x ∈ m, x ≠ 'e' ∧ x ≠ 'E')
    (hbad : mantissaText m = .error .invalidInput) :
    ratFromDecimal m = .error .invalidInput := by
  simp only [ratFromDecimal, findSubStringIC_e_none m hm, ne_eq, not_true_eq_false, if_false]
  simp only [bind, Except.bind, pure, Except.pure, hbad]

theorem ratFromDecimal_exponent (m t : List Char) (c : Char)
    (hm : ∀ x ∈ m, x ≠ 'e' ∧ x ≠ 'E') (hc : c = 'e' ∨ c = 'E')
    (hbad : stoi t = .error .invalidInput ∨ mantissaText m = .error .invalidInput) :
    ratFromDecimal (m ++ c :: t) = .error .invalidInput := by
  have hne : m.length ≠ (m ++ c :: t).length := by
    simp only [List.length_append, List.length_cons]
    omega
  have hsub1 : substr (m ++ c :: t) (m.length + 1) (m ++ c :: t).length = t := by
    simp [substr]
    omega
  have hsub0 : substr (m ++ c :: t) 0 m.length = m := by
    simp [substr]
  simp only [ratFromDecimal, findSubStringIC_e_append m t c hm hc, ne_eq, hne,
    not_false_eq_true, if_true, hsub1, hsub0]
  cases hst : stoi t with
  | error e =>
    have he := stoi_error t e hst
    subst he
    simp only [bind, Except.bind]
  | ok v =>
    have hmt : mantissaText m = .error .invalidInput := by
      rcases hbad with h | h
      · rw [hst] at h; exact absurd h (by simp)
      · exact h
    simp only [bind, Except.bind, pure, Except.pure, hmt]

/-- Claim C7 (as amended): let the text be `m ++ t`, where `m` holds no exponent marker
and `t` is empty or starts with `e` or `E` (so `m` is the mantissa). `ratFromString`
fails with an invalid-input error, returning no value, when `std::stoi` cannot read an
`int` at the start of the text after the marker (no digit after optional white space
and sign, as in `1e`, or a value out of range), and when the mantissa has a decimal
point and, apart from its first character and that first point, a character that is
not a digit (a second decimal point, for instance). What follows the exponent digits
is not examined. -/
theorem ratFromString_rejects (m t : List Char)
    (hm : ∀ x ∈ m, x ≠ 'e' ∧ x ≠ 'E')
    (ht : t = [] ∨ ∃ c u, t = c :: u ∧ (c = 'e' ∨ c = 'E'))
    (hlen : (m ++ t).length < npos)
    (hbad : (∃ c u, t = c :: u ∧ stoi u = .error .invalidInput) ∨
      (∃ a r x, m = a ++ '.' :: r ∧ '.' ∉ a ∧ x ∈ a.drop 1 ++ r ∧ x.isDigit = false)) :
    ratFromString (String.mk (m ++ t)) = .error .invalidInput := by
  have hmant : (∃ a r x, m = a ++ '.' :: r ∧ '.' ∉ a ∧ x ∈ a.drop 1 ++ r ∧
      x.isDigit = false) → mantissaText m = .error .invalidInput := by
    rintro ⟨a, r, x, rfl, ha, hx, hd⟩
    refine mantissaText_non_digit a r x ha hx hd ?_
    rw [List.length_append] at hlen
    omega
  rcases ht with rfl | ⟨c, u, rfl, hc⟩
  · rcases hbad with ⟨c, u, h, _⟩ | h2
    · exact absurd h (by simp)
    · have hany : (m ++ []).any (fun c => ['.', 'E', 'e'].contains c) = true := by
        obtain ⟨a, r, x, rfl, _, _, _⟩ := h2
        simp
      rw [ratFromString_case2 _ hany hlen, List.append_nil]
      exact ratFromDecimal_no_exponent m hm (hmant h2)
  · have hany : (m ++ c :: u).any (fun c => ['.', 'E', 'e'].contains c) = true := by
      rcases hc with rfl | rfl <;> simp
    rw [ratFromString_case2 _ hany hlen]
    refine ratFromDecimal_exponent m u c hm hc ?_
    rcases hbad with ⟨c', u', h, hst⟩ | h2
    · have hu : u = u' := (List.cons.inj h).2
      rw [hu]
      exact Or.inl hst
    · exact Or.inr (hmant h2)

/-- Witness for C7 (as amended) at the text `1e`, an exponent marker without digits. -/
theorem ratFromString_rejects_witness :
    ratFromString "1e" = .error .invalidInput :=
  ratFromString_rejects ['1'] ['e'] (by decide) (Or.inr ⟨'e', [], rfl, Or.inl rfl⟩)
    (by decide) (Or.inl ⟨'e', [], rfl, by decide⟩)

/-! ### `orderOfMagnitude` -/

theorem orderOfMagnitude_of_defined (toDouble log10 : ℚ → ℚ) (r : Rational) (a b : ℤ)
    (hr : numerator r ≠ 0)
    (ha : doubleToInt (stdLog10 log10 (toDouble (numerator r))) = .ok a)
    (hb : doubleToInt (stdLog10 log10 (toDouble (denominator r))) = .ok b) :
    orderOfMagnitude toDouble log10 r = .ok (a - b) := by
  simp only [orderOfMagnitude, if_neg hr, ha, bind, Except.bind]
  split
  · rename_i h
    rw [h] at hb
    have ht : (if (0 : ℚ) ≤ (a : ℚ) then ⌊(a : ℚ)⌋ else ⌈(a : ℚ)⌉) = a := by
      split <;> simp
    simp only [doubleToInt, ht] at hb
    have hab : a = b := by
      split at hb
      · exact Except.ok.inj hb
      · exact absurd hb (by simp)
    rw [hab, sub_self]
  · rw [hb]

/-- Claim C11 (evaluation at the failing input): for the negative rational `-100` the
code takes `log10` of the negative numerator, which is NaN, and converts it to `int`,
which has no defined value; whatever `log10` is, the result is not
`⌊log₁₀ 100⌋ - ⌊log₁₀ 1⌋ = 2`. For `num = 0` the result is `0`. -/
theorem orderOfMagnitude_negative (log10 : ℚ → ℚ) :
    orderOfMagnitude roundDouble log10 (-100) = .error .arithDomain ∧
      orderOfMagnitude roundDouble log10 (-100) ≠ .ok 2 ∧
      orderOfMagnitude roundDouble log10 0 = .ok 0 := by
  have h1 : roundDouble (-100) = -100 := by decide!
  have hn : numerator (-100) = -100 := by decide!
  have h2 : orderOfMagnitude roundDouble log10 (-100) = .error .arithDomain := by
    have hne : numerator (-100) ≠ 0 := by rw [hn]; decide
    simp only [orderOfMagnitude, if_neg hne, hn]
    have h3 : stdLog10 log10 (roundDouble ((-100 : ℤ) : ℚ)) = none := by
      have : (((-100 : ℤ)) : ℚ) = -100 := by norm_num
      rw [this, h1]
      simp [stdLog10]
    rw [h3]
    rfl
  refine ⟨h2, ?_, ?_⟩
  · rw [h2]; simp
  · simp [orderOfMagnitude, numerator]

/-! ### `degenerateEps` -/

theorem degenerateEps_below_maxCycle (delta : ℚ) (numCycle maxCycle : ℤ)
    (h0 : 0 ≤ numCycle) (h1 : numCycle < maxCycle) :
    degenerateEps delta numCycle maxCycle = delta := by
  have hd : Int.tdiv numCycle maxCycle = 0 := by
    rw [Int.tdiv_eq_ediv h0 (by omega)]
    exact Int.ediv_eq_zero_of_lt h0 h1
  simp [degenerateEps, hd]

/-- Claim C12 (evaluation at the failing input): with `numCycle = 50` and
`maxCycle = 100` the integer quotient of the counters is `0`, so `degenerateEps`
returns `delta` itself and not `delta / 2`. -/
theorem degenerateEps_half (delta : ℚ) :
    degenerateEps delta 50 100 = delta ∧
      (delta ≠ 0 → degenerateEps delta 50 100 ≠ delta * (1 - 50 / 100)) ∧
      degenerateEps 1 50 100 = 1 := by
  have h := degenerateEps_below_maxCycle delta 50 100 (by decide) (by decide)
  refine ⟨h, ?_, degenerateEps_below_maxCycle 1 50 100 (by decide) (by decide)⟩
  intro hd hc
  rw [h] at hc
  apply hd
  linarith

/-! ### `maxDelta` -/

theorem maxDelta_eq (delta infinity max val : ℚ) (idx : List ℕ) (upd vec low up : ℕ → ℚ)
    (epsilon : ℚ) (hval : 0 ≤ val) :
    maxDelta delta infinity max val idx upd vec low up epsilon =
      .ok { sel := -1, max := max,
            val := (idx.foldr (maxDeltaBody delta infinity epsilon upd vec low up)
              { theval := val, themax := 0 }).theval } := by
  simp [maxDelta, hval]

/-- The value left by the loop of `maxDelta` is the least of the start value and the
candidate steps. -/
theorem maxDelta_loop_least (delta infinity epsilon : ℚ) (upd vec low up : ℕ → ℚ)
    (heps : 0 ≤ epsilon) (st0 : DeltaLoop) (idx : List ℕ) :
    let v := (idx.foldr (maxDeltaBody delta infinity epsilon upd vec low up) st0).theval
    v ≤ st0.theval ∧
      (∀ c, maxDeltaCandidate delta infinity epsilon idx upd vec low up c → v ≤ c) ∧
      (v = st0.theval ∨ maxDeltaCandidate delta infinity epsilon idx upd vec low up v) := by
  induction idx with
  | nil =>
    refine ⟨le_rfl, ?_, Or.inl rfl⟩
    intro c hc
    rcases hc with ⟨i, hi, _⟩ | ⟨i, hi, _⟩ <;> simp at hi
  | cons i rest ih =>
    obtain ⟨ih1, ih2, ih3⟩ := ih
    simp only [List.foldr_cons]
    set st := rest.foldr (maxDeltaBody delta infinity epsilon upd vec low up) st0 with hst
    have hmono : ∀ c, maxDeltaCandidate delta infinity epsilon rest upd vec low up c →
        maxDeltaCandidate delta infinity epsilon (i :: rest) upd vec low up c := by
      intro c hc
      rcases hc with ⟨k, hk, h⟩ | ⟨k, hk, h⟩
      · exact Or.inl ⟨k, List.mem_cons_of_mem _ hk, h⟩
      · exact Or.inr ⟨k, List.mem_cons_of_mem _ hk, h⟩
    have hsplit : ∀ c, maxDeltaCandidate delta infinity epsilon (i :: rest) upd vec low up c →
        maxDeltaCandidate delta infinity epsilon rest upd vec low up c ∨
        (upd i > epsilon ∧ up i < infinity ∧ c = (up i - vec i + delta) / upd i) ∨
        (upd i < -epsilon ∧ low i > -infinity ∧ c = (low i - vec i - delta) / upd i) := by
      intro c hc
      rcases hc with ⟨k, hk, h⟩ | ⟨k, hk, h⟩
      · rcases List.mem_cons.mp hk with rfl | hk'
        · exact Or.inr (Or.inl h)
        · exact Or.inl (Or.inl ⟨k, hk', h⟩)
      · rcases List.mem_cons.mp hk with rfl | hk'
        · exact Or.inr (Or.inr h)
        · exact Or.inl (Or.inr ⟨k, hk', h⟩)
    by_cases hx : upd i > epsilon
    · have hnx : ¬ upd i < -epsilon := by linarith
      by_cases hc : (up i - vec i + delta) / upd i < st.theval ∧ up i < infinity
      · have hv : (maxDeltaBody delta infinity epsilon upd vec low up i st).theval =
            (up i - vec i + delta) / upd i := by
          simp only [maxDeltaBody, if_pos hx, if_pos hc]
        rw [hv]
        refine ⟨by linarith [hc.1], ?_, Or.inr (Or.inl ⟨i, List.mem_cons_self _ _, hx, hc.2, rfl⟩)⟩
        intro c hcand
        rcases hsplit c hcand with h | ⟨_, _, h⟩ | ⟨h, _, _⟩
        · linarith [ih2 c h, hc.1]
        · rw [h]
        · exact absurd h hnx
      · have hv : (maxDeltaBody delta infinity epsilon upd vec low up i st).theval =
            st.theval := by
          simp only [maxDeltaBody, if_pos hx, if_neg hc]
        rw [hv]
        refine ⟨ih1, ?_, ?_⟩
        · intro c hcand
          rcases hsplit c hcand with h | ⟨_, h2, h⟩ | ⟨h, _, _⟩
          · exact ih2 c h
          · rw [h]
            by_contra hlt
            exact hc ⟨not_le.mp hlt, h2⟩
          · exact absurd h hnx
        · rcases ih3 with h | h
          · exact Or.inl h
          · exact Or.inr (hmono _ h)
    · by_cases hx2 : upd i < -epsilon
      · by_cases hc : (low i - vec i - delta) / upd i < st.theval ∧ low i > -infinity
        · have hv : (maxDeltaBody delta infinity epsilon upd vec low up i st).theval =
              (low i - vec i - delta) / upd i := by
            simp only [maxDeltaBody, if_neg hx, if_pos hx2, if_pos hc]
          rw [hv]
          refine ⟨by linarith [hc.1], ?_,
            Or.inr (Or.inr ⟨i, List.mem_cons_self _ _, hx2, hc.2, rfl⟩)⟩
          intro c hcand
          rcases hsplit c hcand with h | ⟨h, _, _⟩ | ⟨_, _, h⟩
          · linarith [ih2 c h, hc.1]
          · exact absurd h hx
          · rw [h]
        · have hv : (maxDeltaBody delta infinity epsilon upd vec low up i st).theval =
              st.theval := by
            simp only [maxDeltaBody, if_neg hx, if_pos hx2, if_neg hc]
          rw [hv]
          refine ⟨ih1, ?_, ?_⟩
          · intro c hcand
            rcases hsplit c hcand with h | ⟨h, _, _⟩ | ⟨_, h2, h⟩
            · exact ih2 c h
            · exact absurd h hx
            · rw [h]
              by_contra hlt
              exact hc ⟨not_le.mp hlt, h2⟩
          · rcases ih3 with h | h
            · exact Or.inl h
            · exact Or.inr (hmono _ h)
      · have hv : (maxDeltaBody delta infinity epsilon upd vec low up i st).theval =
            st.theval := by
          simp only [maxDeltaBody, if_neg hx, if_neg hx2]
        rw [hv]
        refine ⟨ih1, ?_, ?_⟩
        · intro c hcand
          rcases hsplit c hcand with h | ⟨h, _, _⟩ | ⟨h, _, _⟩
          · exact ih2 c h
          · exact absurd h hx
          · exact absurd h hx2
        · rcases ih3 with h | h
          · exact Or.inl h
          · exact Or.inr (hmono _ h)

/-- Claim C15: when `selectLeave` is called (its assertions holding) with
`|val| > epsilon` and phase 1 returns the envelope `val` unchanged, the call returns
`-1`, leaves `val` as it was and requests no bound shift: bounds and accumulated shift
are those of the call. -/
theorem selectLeave_no_improvement (delta infinity : ℚ) (fuel : ℕ) (s : Solver) (val : ℚ)
    (hassert : delta > s.epsilon ∧ s.epsilon > 0 ∧ s.maxCycle > 0)
    (hval : |val| > s.epsilon)
    (hpos : val > 0 → ∃ r, maxDelta delta infinity 1 val s.setupUpd.updIdx s.updVal s.fVec
      s.lbBound s.ubBound s.epsilon = .ok r ∧ r.val = val)
    (hneg : val < 0 → ∃ r, minDelta delta infinity 1 val s.setupUpd.updIdx s.updVal s.fVec
      s.lbBound s.ubBound s.epsilon = .ok r ∧ r.val = val) :
    ∃ res : LeaveResult, selectLeave delta infinity (fuel + 1) s val = .ok res ∧
      res.leave = -1 ∧ res.val = val ∧ res.s.ubBound = s.ubBound ∧
      res.s.lbBound = s.lbBound ∧ res.s.theShift = s.theShift := by
  have heps := hassert.2.1
  by_cases hp : val > s.epsilon
  · obtain ⟨r, hr, hrv⟩ := hpos (by linarith)
    refine ⟨{ leave := -1, val := val, s := s.setupUpd }, ?_, rfl, rfl, rfl, rfl, rfl⟩
    have hr' : maxDelta delta infinity 1 val s.setupUpd.updIdx s.setupUpd.updVal
        s.setupUpd.fVec s.setupUpd.lbBound s.setupUpd.ubBound s.epsilon = .ok r := hr
    simp only [selectLeave, hassert, and_self, not_true_eq_false, if_false, if_pos hp]
    have hse : s.setupUpd.epsilon = s.epsilon := rfl
    simp only [hr', hrv, if_true]
  · have hn : val < -s.epsilon := by
      rcases abs_cases val with ⟨h, _⟩ | ⟨h, _⟩
      · rw [h] at hval; exact absurd hval hp
      · rw [h] at hval; linarith
    obtain ⟨r, hr, hrv⟩ := hneg (by linarith)
    refine ⟨{ leave := -1, val := val, s := s.setupUpd }, ?_, rfl, rfl, rfl, rfl, rfl⟩
    have hr' : minDelta delta infinity 1 val s.setupUpd.updIdx s.setupUpd.updVal
        s.setupUpd.fVec s.setupUpd.lbBound s.setupUpd.ubBound s.epsilon = .ok r := hr
    simp only [selectLeave, hassert, and_self, not_true_eq_false, if_false, if_neg hp,
      if_pos hn]
    simp only [hr', hrv, if_true]

/-- Witness for C15: an update vector without an entry and `val = 1`. -/
theorem selectLeave_no_improvement_witness :
    ∃ res : LeaveResult, selectLeave (1 / 10) (10 ^ 100) (0 + 1)
        (exampleSolver 0 (fun _ => 0) (fun _ => 0) (fun _ => 1) (fun _ => -1)) 1 = .ok res ∧
      res.leave = -1 ∧ res.val = 1 ∧
      res.s.ubBound = (exampleSolver 0 (fun _ => 0) (fun _ => 0) (fun _ => 1)
        (fun _ => -1)).ubBound ∧
      res.s.lbBound = (exampleSolver 0 (fun _ => 0) (fun _ => 0) (fun _ => 1)
        (fun _ => -1)).lbBound ∧
      res.s.theShift = (exampleSolver 0 (fun _ => 0) (fun _ => 0) (fun _ => 1)
        (fun _ => -1)).theShift :=
  selectLeave_no_improvement (1 / 10) (10 ^ 100) 0
    (exampleSolver 0 (fun _ => 0) (fun _ => 0) (fun _ => 1) (fun _ => -1)) 1
    (by decide!) (by decide!)
    (fun _ => ⟨{ sel := -1, max := 1, val := 1 }, by decide!, rfl⟩)
    (fun h => absurd h (by decide!))

/-! ### The phase-2 loops of `selectLeave` as folds over the index list -/

theorem take_eraseIdx_self (l : List ℕ) (j : ℕ) : (l.eraseIdx j).take j = l.take j := by
  induction l generalizing j with
  | nil => simp
  | cons a l ih =>
    cases j with
    | zero => simp
    | succ j => simp [List.eraseIdx, ih]

theorem LeaveScan.withIdx_self (c : LeaveScan) : c.withIdx c.s.updIdx = c := rfl

theorem LeaveScan.withIdx_withIdx (c : LeaveScan) (l l' : List ℕ) :
    (c.withIdx l).withIdx l' = c.withIdx l' := rfl

theorem leaveStepPos_withIdx (max useeps degeneps epsilon : ℚ) (i : ℕ) (c : LeaveScan)
    (l : List ℕ) :
    leaveStepPos max useeps degeneps epsilon i (c.withIdx l) =
      (leaveStepPos max useeps degeneps epsilon i c).withIdx l := by
  simp only [leaveStepPos, LeaveScan.withIdx, Solver.shiftUBbound, Solver.shiftLBbound]
  split_ifs <;> rfl

theorem leaveStepNeg_withIdx (max useeps degeneps epsilon : ℚ) (i : ℕ) (c : LeaveScan)
    (l : List ℕ) :
    leaveStepNeg max useeps degeneps epsilon i (c.withIdx l) =
      (leaveStepNeg max useeps degeneps epsilon i c).withIdx l := by
  simp only [leaveStepNeg, LeaveScan.withIdx, Solver.shiftUBbound, Solver.shiftLBbound]
  split_ifs <;> rfl

theorem foldr_leaveStepPos_withIdx (max useeps degeneps epsilon : ℚ) (xs : List ℕ)
    (c : LeaveScan) (l : List ℕ) :
    xs.foldr (leaveStepPos max useeps degeneps epsilon) (c.withIdx l) =
      (xs.foldr (leaveStepPos max useeps degeneps epsilon) c).withIdx l := by
  induction xs with
  | nil => rfl
  | cons a xs ih => rw [List.foldr_cons, ih, leaveStepPos_withIdx, List.foldr_cons]

theorem foldr_leaveStepNeg_withIdx (max useeps degeneps epsilon : ℚ) (xs : List ℕ)
    (c : LeaveScan) (l : List ℕ) :
    xs.foldr (leaveStepNeg max useeps degeneps epsilon) (c.withIdx l) =
      (xs.foldr (leaveStepNeg max useeps degeneps epsilon) c).withIdx l := by
  induction xs with
  | nil => rfl
  | cons a xs ih => rw [List.foldr_cons, ih, leaveStepNeg_withIdx, List.foldr_cons]

theorem leaveBodyPos_eq_step (max useeps degeneps epsilon : ℚ) (j : ℕ) (c : LeaveScan) :
    ∃ l : List ℕ, l.take j = c.s.updIdx.take j ∧
      leaveBodyPos max useeps degeneps epsilon j c =
        (leaveStepPos max useeps degeneps epsilon (c.s.updIdx.getD j 0) c).withIdx l := by
  by_cases h1 : c.s.updVal (c.s.updIdx.getD j 0) > useeps
  · refine ⟨c.s.updIdx, rfl, ?_⟩
    simp only [leaveBodyPos, leaveStepPos, if_pos h1, LeaveScan.withIdx, Solver.shiftUBbound]
    split_ifs <;> rfl
  · by_cases h2 : c.s.updVal (c.s.updIdx.getD j 0) < -useeps
    · refine ⟨c.s.updIdx, rfl, ?_⟩
      simp only [leaveBodyPos, leaveStepPos, if_neg h1, if_pos h2, LeaveScan.withIdx,
        Solver.shiftLBbound]
      split_ifs <;> rfl
    · refine ⟨c.s.updIdx.eraseIdx j, take_eraseIdx_self _ _, ?_⟩
      simp only [leaveBodyPos, leaveStepPos, if_neg h1, if_neg h2, LeaveScan.withIdx,
        Solver.clearNum]

theorem leaveBodyNeg_eq_step (max useeps degeneps epsilon : ℚ) (j : ℕ) (c : LeaveScan) :
    ∃ l : List ℕ, l.take j = c.s.updIdx.take j ∧
      leaveBodyNeg max useeps degeneps epsilon j c =
        (leaveStepNeg max useeps degeneps epsilon (c.s.updIdx.getD j 0) c).withIdx l := by
  by_cases h1 : c.s.updVal (c.s.updIdx.getD j 0) < -useeps
  · refine ⟨c.s.updIdx, rfl, ?_⟩
    simp only [leaveBodyNeg, leaveStepNeg, if_pos h1, LeaveScan.withIdx, Solver.shiftUBbound]
    split_ifs <;> rfl
  · by_cases h2 : c.s.updVal (c.s.updIdx.getD j 0) > useeps
    · refine ⟨c.s.updIdx, rfl, ?_⟩
      simp only [leaveBodyNeg, leaveStepNeg, if_neg h1, if_pos h2, LeaveScan.withIdx,
        Solver.shiftLBbound]
      split_ifs <;> rfl
    · refine ⟨c.s.updIdx.eraseIdx j, take_eraseIdx_self _ _, ?_⟩
      simp only [leaveBodyNeg, leaveStepNeg, if_neg h1, if_neg h2, LeaveScan.withIdx,
        Solver.clearNum]

theorem take_succ_getD (l : List ℕ) (n : ℕ) (h : n < l.length) :
    l.take (n + 1) = l.take n ++ [l.getD n 0] := by
  rw [List.take_succ]
  congr 1
  rw [List.getD_eq_getElem _ _ h]
  simp [List.getElem?_eq_getElem h]

/-- The phase-2 loop of the branch `max > epsilon` visits the first `n` entries of the
index list from the last to the first: up to the index list it leaves behind, it is
the fold of `leaveStepPos` over these entries. -/
theorem leaveLoopPos_eq_foldr (max useeps degeneps epsilon : ℚ) :
    ∀ (n : ℕ) (c : LeaveScan), n ≤ c.s.updIdx.length →
      ∃ l : List ℕ, leaveLoopPos max useeps degeneps epsilon n c =
        ((c.s.updIdx.take n).foldr (leaveStepPos max useeps degeneps epsilon) c).withIdx l := by
  intro n
  induction n with
  | zero =>
    intro c _
    exact ⟨c.s.updIdx, rfl⟩
  | succ n ih =>
    intro c hn
    obtain ⟨l1, hl1, hbody⟩ := leaveBodyPos_eq_step max useeps degeneps epsilon n c
    have hlen : n ≤ l1.length := by
      have h1 : (l1.take n).length = n := by
        rw [hl1, List.length_take]
        omega
      rw [List.length_take] at h1
      omega
    have hn' : n ≤ (leaveBodyPos max useeps degeneps epsilon n c).s.updIdx.length := by
      rw [hbody]
      exact hlen
    obtain ⟨l, hl⟩ := ih (leaveBodyPos max useeps degeneps epsilon n c) hn'
    refine ⟨l, ?_⟩
    show leaveLoopPos max useeps degeneps epsilon n
      (leaveBodyPos max useeps degeneps epsilon n c) = _
    rw [hl, hbody]
    have h2 : ((leaveStepPos max useeps degeneps epsilon (c.s.updIdx.getD n 0) c).withIdx
        l1).s.updIdx = l1 := rfl
    rw [h2, hl1, foldr_leaveStepPos_withIdx, LeaveScan.withIdx_withIdx,
      take_succ_getD _ _ (by omega), List.foldr_append]
    rfl

/-- The phase-2 loop of the branch `max < -epsilon` as a fold of `leaveStepNeg`. -/
theorem leaveLoopNeg_eq_foldr (max useeps degeneps epsilon : ℚ) :
    ∀ (n : ℕ) (c : LeaveScan), n ≤ c.s.updIdx.length →
      ∃ l : List ℕ, leaveLoopNeg max useeps degeneps epsilon n c =
        ((c.s.updIdx.take n).foldr (leaveStepNeg max useeps degeneps epsilon) c).withIdx l := by
  intro n
  induction n with
  | zero =>
    intro c _
    exact ⟨c.s.updIdx, rfl⟩
  | succ n ih =>
    intro c hn
    obtain ⟨l1, hl1, hbody⟩ := leaveBodyNeg_eq_step max useeps degeneps epsilon n c
    have hlen : n ≤ l1.length := by
      have h1 : (l1.take n).length = n := by
        rw [hl1, List.length_take]
        omega
      rw [List.length_take] at h1
      omega
    have hn' : n ≤ (leaveBodyNeg max useeps degeneps epsilon n c).s.updIdx.length := by
      rw [hbody]
      exact hlen
    obtain ⟨l, hl⟩ := ih (leaveBodyNeg max useeps degeneps epsilon n c) hn'
    refine ⟨l, ?_⟩
    show leaveLoopNeg max useeps degeneps epsilon n
      (leaveBodyNeg max useeps degeneps epsilon n c) = _
    rw [hl, hbody]
    have h2 : ((leaveStepNeg max useeps degeneps epsilon (c.s.updIdx.getD n 0) c).withIdx
        l1).s.updIdx = l1 := rfl
    rw [h2, hl1, foldr_leaveStepNeg_withIdx, LeaveScan.withIdx_withIdx,
      take_succ_getD _ _ (by omega), List.foldr_append]
    rfl

/-! ### Invariants of the phase-2 loops of `selectLeave` -/

theorem frameOf_refl (e : ℚ) (s : Solver) : Solver.FrameOf e s s :=
  ⟨rfl, rfl, rfl, rfl, rfl, rfl, fun _ => Or.inl rfl⟩

theorem frameOf_trans {e : ℚ} {s s' s'' : Solver} (h : Solver.FrameOf e s s')
    (h' : Solver.FrameOf e s' s'') : Solver.FrameOf e s s'' := by
  obtain ⟨a1, a2, a3, a4, a5, a6, a7⟩ := h
  obtain ⟨b1, b2, b3, b4, b5, b6, b7⟩ := h'
  refine ⟨b1.trans a1, b2.trans a2, b3.trans a3, b4.trans a4, b5.trans a5, b6.trans a6, ?_⟩
  intro k
  rcases b7 k with hb | ⟨hb, hb'⟩
  · rcases a7 k with ha | ⟨ha, ha'⟩
    · exact Or.inl (hb.trans ha)
    · exact Or.inr ⟨hb.trans ha, ha'⟩
  · rcases a7 k with ha | ⟨ha, ha'⟩
    · exact Or.inr ⟨hb, by rw [← ha]; exact hb'⟩
    · exact Or.inr ⟨hb, ha'⟩

theorem leaveStepPos_frame (max useeps degeneps epsilon : ℚ) (i : ℕ) (c : LeaveScan) :
    Solver.FrameOf useeps c.s (leaveStepPos max useeps degeneps epsilon i c).s := by
  simp only [leaveStepPos]
  split_ifs with h1 h2 h3 h4 h5 h6
  · exact frameOf_refl _ _
  · exact frameOf_refl _ _
  · exact frameOf_refl _ _
  · exact frameOf_refl _ _
  · exact frameOf_refl _ _
  · exact frameOf_refl _ _
  · refine ⟨rfl, rfl, rfl, rfl, rfl, rfl, ?_⟩
    intro k
    by_cases hk : k = i
    · subst hk
      right
      refine ⟨by simp, ?_⟩
      rw [abs_le]
      constructor <;> linarith
    · left
      simp [Function.update_noteq hk]

theorem leaveStepNeg_frame (max useeps degeneps epsilon : ℚ) (i : ℕ) (c : LeaveScan) :
    Solver.FrameOf useeps c.s (leaveStepNeg max useeps degeneps epsilon i c).s := by
  simp only [leaveStepNeg]
  split_ifs with h1 h2 h3 h4 h5 h6
  · exact frameOf_refl _ _
  · exact frameOf_refl _ _
  · exact frameOf_refl _ _
  · exact frameOf_refl _ _
  · exact frameOf_refl _ _
  · exact frameOf_refl _ _
  · refine ⟨rfl, rfl, rfl, rfl, rfl, rfl, ?_⟩
    intro k
    by_cases hk : k = i
    · subst hk
      right
      refine ⟨by simp, ?_⟩
      rw [abs_le]
      constructor <;> linarith
    · left
      simp [Function.update_noteq hk]

theorem foldr_leaveStepPos_frame (max useeps degeneps epsilon : ℚ) (xs : List ℕ)
    (c : LeaveScan) :
    Solver.FrameOf useeps c.s (xs.foldr (leaveStepPos max useeps degeneps epsilon) c).s := by
  induction xs with
  | nil => exact frameOf_refl _ _
  | cons a xs ih => exact frameOf_trans ih (leaveStepPos_frame _ _ _ _ _ _)

theorem foldr_leaveStepNeg_frame (max useeps degeneps epsilon : ℚ) (xs : List ℕ)
    (c : LeaveScan) :
    Solver.FrameOf useeps c.s (xs.foldr (leaveStepNeg max useeps degeneps epsilon) c).s := by
  induction xs with
  | nil => exact frameOf_refl _ _
  | cons a xs ih => exact frameOf_trans ih (leaveStepNeg_frame _ _ _ _ _ _)

theorem leaveStepPos_inv (max useeps degeneps epsilon : ℚ) (hu : 0 ≤ useeps) (i : ℕ)
    (c : LeaveScan) (h : LeaveInvPos max useeps degeneps c) :
    LeaveInvPos max useeps degeneps (leaveStepPos max useeps degeneps epsilon i c) := by
  simp only [leaveStepPos]
  split_ifs with h1 h2 h3 h4 h5 h6
  · rcases h with h | ⟨k, hk, hsel, hcase⟩
    · exact Or.inl h
    · refine Or.inr ⟨k, hk, hsel, ?_⟩
      by_cases hki : k = i
      · subst hki
        rcases hcase with ⟨_, _, _, d⟩ | ⟨a, _, _, _⟩
        · linarith
        · linarith
      · simpa [Solver.shiftUBbound, Function.update_noteq hki] using hcase
  · refine Or.inr ⟨i, rfl, h3.1, Or.inl ⟨h1, rfl, ?_, by linarith⟩⟩
    have hx : c.s.updVal i ≠ 0 := by
      intro h0
      rw [h0] at h1
      linarith
    exact div_mul_cancel₀ _ hx
  · exact h
  · rcases h with h | ⟨k, hk, hsel, hcase⟩
    · exact Or.inl h
    · refine Or.inr ⟨k, hk, hsel, ?_⟩
      by_cases hki : k = i
      · subst hki
        rcases hcase with ⟨a, _, _, _⟩ | ⟨_, _, _, d⟩
        · linarith
        · linarith
      · simpa [Solver.shiftLBbound, Function.update_noteq hki] using hcase
  · refine Or.inr ⟨i, rfl, h6.1, Or.inr ⟨h4, rfl, ?_, by linarith⟩⟩
    have hx : c.s.updVal i ≠ 0 := by
      intro h0
      rw [h0] at h4
      linarith
    exact div_mul_cancel₀ _ hx
  · exact h
  · rcases h with h | ⟨k, hk, hsel, hcase⟩
    · exact Or.inl h
    · refine Or.inr ⟨k, hk, hsel, ?_⟩
      have hki : k ≠ i := by
        intro hki
        subst hki
        rcases hcase with ⟨a, _, _, _⟩ | ⟨a, _, _, _⟩
        · exact h1 a
        · exact h4 a
      simpa [Function.update_noteq hki] using hcase

theorem leaveStepNeg_inv (max useeps degeneps epsilon : ℚ) (hu : 0 ≤ useeps) (i : ℕ)
    (c : LeaveScan) (h : LeaveInvNeg max useeps degeneps c) :
    LeaveInvNeg max useeps degeneps (leaveStepNeg max useeps degeneps epsilon i c) := by
  simp only [leaveStepNeg]
  split_ifs with h1 h2 h3 h4 h5 h6
  · rcases h with h | ⟨k, hk, hsel, hcase⟩
    · exact Or.inl h
    · refine Or.inr ⟨k, hk, hsel, ?_⟩
      by_cases hki : k = i
      · subst hki
        rcases hcase with ⟨_, _, _, d⟩ | ⟨a, _, _, _⟩
        · linarith
        · linarith
      · simpa [Solver.shiftUBbound, Function.update_noteq hki] using hcase
  · refine Or.inr ⟨i, rfl, h3.1, Or.inl ⟨h1, rfl, ?_, by linarith⟩⟩
    have hx : c.s.updVal i ≠ 0 := by
      intro h0
      rw [h0] at h1
      linarith
    exact div_mul_cancel₀ _ hx
  · exact h
  · rcases h with h | ⟨k, hk, hsel, hcase⟩
    · exact Or.inl h
    · refine Or.inr ⟨k, hk, hsel, ?_⟩
      by_cases hki : k = i
      · subst hki
        rcases hcase with ⟨a, _, _, _⟩ | ⟨_, _, _, d⟩
        · linarith
        · linarith
      · simpa [Solver.shiftLBbound, Function.update_noteq hki] using hcase
  · refine Or.inr ⟨i, rfl, h6.1, Or.inr ⟨h4, rfl, ?_, by linarith⟩⟩
    have hx : c.s.updVal i ≠ 0 := by
      intro h0
      rw [h0] at h4
      linarith
    exact div_mul_cancel₀ _ hx
  · exact h
  · rcases h with h | ⟨k, hk, hsel, hcase⟩
    · exact Or.inl h
    · refine Or.inr ⟨k, hk, hsel, ?_⟩
      have hki : k ≠ i := by
        intro hki
        subst hki
        rcases hcase with ⟨a, _, _, _⟩ | ⟨a, _, _, _⟩
        · exact h1 a
        · exact h4 a
      simpa [Function.update_noteq hki] using hcase

theorem foldr_leaveStepPos_inv (max useeps degeneps epsilon : ℚ) (hu : 0 ≤ useeps)
    (xs : List ℕ) (c : LeaveScan) (h : LeaveInvPos max useeps degeneps c) :
    LeaveInvPos max useeps degeneps (xs.foldr (leaveStepPos max useeps degeneps epsilon) c) := by
  induction xs with
  | nil => exact h
  | cons a xs ih => exact leaveStepPos_inv _ _ _ _ hu _ _ ih

theorem foldr_leaveStepNeg_inv (max useeps degeneps epsilon : ℚ) (hu : 0 ≤ useeps)
    (xs : List ℕ) (c : LeaveScan) (h : LeaveInvNeg max useeps degeneps c) :
    LeaveInvNeg max useeps degeneps (xs.foldr (leaveStepNeg max useeps degeneps epsilon) c) := by
  induction xs with
  | nil => exact h
  | cons a xs ih => exact leaveStepNeg_inv _ _ _ _ hu _ _ ih

theorem leaveLoopPos_spec (max useeps degeneps epsilon : ℚ) (hu : 0 ≤ useeps)
    (c : LeaveScan) (h : LeaveInvPos max useeps degeneps c) :
    Solver.FrameOf useeps c.s
        (leaveLoopPos max useeps degeneps epsilon c.s.updIdx.length c).s ∧
      LeaveInvPos max useeps degeneps
        (leaveLoopPos max useeps degeneps epsilon c.s.updIdx.length c) := by
  obtain ⟨l, hl⟩ := leaveLoopPos_eq_foldr max useeps degeneps epsilon c.s.updIdx.length c
    le_rfl
  rw [hl]
  exact ⟨foldr_leaveStepPos_frame max useeps degeneps epsilon _ c,
    foldr_leaveStepPos_inv max useeps degeneps epsilon hu _ c h⟩

theorem leaveLoopNeg_spec (max useeps degeneps epsilon : ℚ) (hu : 0 ≤ useeps)
    (c : LeaveScan) (h : LeaveInvNeg max useeps degeneps c) :
    Solver.FrameOf useeps c.s
        (leaveLoopNeg max useeps degeneps epsilon c.s.updIdx.length c).s ∧
      LeaveInvNeg max useeps degeneps
        (leaveLoopNeg max useeps degeneps epsilon c.s.updIdx.length c) := by
  obtain ⟨l, hl⟩ := leaveLoopNeg_eq_foldr max useeps degeneps epsilon c.s.updIdx.length c
    le_rfl
  rw [hl]
  exact ⟨foldr_leaveStepNeg_frame max useeps degeneps epsilon _ c,
    foldr_leaveStepNeg_inv max useeps degeneps epsilon hu _ c h⟩

theorem leaveUseeps_one (epsilon : ℚ) (h : 0 < epsilon) : leaveUseeps 1 epsilon = epsilon := by
  have h1 : 1 * epsilon * (1 / 1000) < epsilon := by linarith
  simp only [leaveUseeps, if_pos h1]

theorem minDelta_eq (delta infinity max val : ℚ) (idx : List ℕ) (upd vec low up : ℕ → ℚ)
    (epsilon : ℚ) (hval : val < 0) :
    minDelta delta infinity max val idx upd vec low up epsilon =
      .ok { sel := -1, max := max,
            val := (idx.foldr (minDeltaBody delta infinity epsilon upd vec low up)
              { theval := val, themax := 0 }).theval } := by
  simp [minDelta, hval]

theorem minDeltaBody_ge (delta infinity epsilon : ℚ) (upd vec low up : ℕ → ℚ) (i : ℕ)
    (st : DeltaLoop) :
    st.theval ≤ (minDeltaBody delta infinity epsilon upd vec low up i st).theval := by
  by_cases h1 : upd i > epsilon
  · by_cases h2 : (low i - vec i - delta) / upd i > st.theval ∧ low i > -infinity
    · simp only [minDeltaBody, if_pos h1, if_pos h2]
      exact le_of_lt h2.1
    · simp only [minDeltaBody, if_pos h1, if_neg h2]
      exact le_rfl
  · by_cases h3 : upd i < -epsilon
    · by_cases h4 : (up i - vec i + delta) / upd i > st.theval ∧ up i < infinity
      · simp only [minDeltaBody, if_neg h1, if_pos h3, if_pos h4]
        exact le_of_lt h4.1
      · simp only [minDeltaBody, if_neg h1, if_pos h3, if_neg h4]
        exact le_rfl
    · simp only [minDeltaBody, if_neg h1, if_neg h3]
      exact le_rfl

theorem minDelta_loop_ge (delta infinity epsilon : ℚ) (upd vec low up : ℕ → ℚ)
    (st0 : DeltaLoop) (idx : List ℕ) :
    st0.theval ≤ (idx.foldr (minDeltaBody delta infinity epsilon upd vec low up) st0).theval := by
  induction idx with
  | nil => exact le_rfl
  | cons i rest ih => exact le_trans ih (minDeltaBody_ge _ _ _ _ _ _ _ _ _)

theorem leavePost_of_frame {s s' : Solver} {val : ℚ} {r : LeaveResult}
    (hf : Solver.FrameOf s.epsilon s s') (h : LeavePost s' val r) : LeavePost s val r := by
  obtain ⟨a1, a2, a3, a4, a5, a6, a7⟩ := hf
  obtain ⟨hfr, he, k, hk, hp⟩ := h
  rw [a2] at hfr he hp
  rw [a3, a4, a5] at hp
  exact ⟨frameOf_trans ⟨a1, a2, a3, a4, a5, a6, a7⟩ hfr, he, k, hk, hp⟩

/-! ### `selectLeave`: the result of a call -/

theorem selectLeave_pos (delta infinity : ℚ) (fuel : ℕ) (s : Solver) (val : ℚ)
    (hassert : delta > s.epsilon ∧ s.epsilon > 0 ∧ s.maxCycle > 0) (hp : val > s.epsilon) :
    selectLeave delta infinity (fuel + 1) s val =
      if leaveEnvelopePos delta infinity s val = val then
        .ok { leave := -1, val := val, s := s.setupUpd }
      else if s.theShift ≠ (leaveScanPos delta infinity s val).s.theShift then
        selectLeave delta infinity fuel (leaveScanPos delta infinity s val).s val
      else if (leaveScanPos delta infinity s val).leave ≥ 0 then
        .ok { leave := (leaveScanPos delta infinity s val).leave,
              val := (leaveScanPos delta infinity s val).sel,
              s := (leaveScanPos delta infinity s val).s }
      else .error .assertion := by
  have hmd := maxDelta_eq delta infinity 1 val s.setupUpd.updIdx s.setupUpd.updVal
    s.setupUpd.fVec s.setupUpd.lbBound s.setupUpd.ubBound s.epsilon
    (by linarith [hassert.2.1])
  simp only [selectLeave, hassert, and_self, not_true_eq_false, if_false, if_pos hp,
    hmd, leaveUseeps_one _ hassert.2.1]
  rfl

theorem selectLeave_neg (delta infinity : ℚ) (fuel : ℕ) (s : Solver) (val : ℚ)
    (hassert : delta > s.epsilon ∧ s.epsilon > 0 ∧ s.maxCycle > 0) (hn : val < -s.epsilon) :
    selectLeave delta infinity (fuel + 1) s val =
      if leaveEnvelopeNeg delta infinity s val = val then
        .ok { leave := -1, val := val, s := s.setupUpd }
      else if s.theShift ≠ (leaveScanNeg delta infinity s val).s.theShift then
        selectLeave delta infinity fuel (leaveScanNeg delta infinity s val).s val
      else if (leaveScanNeg delta infinity s val).leave ≥ 0 then
        .ok { leave := (leaveScanNeg delta infinity s val).leave,
              val := (leaveScanNeg delta infinity s val).sel,
              s := (leaveScanNeg delta infinity s val).s }
      else .error .assertion := by
  have hp : ¬ val > s.epsilon := by linarith [hassert.2.1]
  have hmd := minDelta_eq delta infinity 1 val s.setupUpd.updIdx s.setupUpd.updVal
    s.setupUpd.fVec s.setupUpd.lbBound s.setupUpd.ubBound s.epsilon
    (by linarith [hassert.2.1])
  simp only [selectLeave, hassert, and_self, not_true_eq_false, if_false, if_neg hp,
    if_pos hn, hmd, leaveUseeps_one _ hassert.2.1]
  rfl

theorem selectLeave_mid (delta infinity : ℚ) (fuel : ℕ) (s : Solver) (val : ℚ)
    (hassert : delta > s.epsilon ∧ s.epsilon > 0 ∧ s.maxCycle > 0) (hp : ¬ val > s.epsilon)
    (hn : ¬ val < -s.epsilon) :
    selectLeave delta infinity (fuel + 1) s val =
      .ok { leave := -1, val := val, s := s.setupUpd } := by
  simp only [selectLeave, hassert, and_self, not_true_eq_false, if_false, if_neg hp,
    if_neg hn]

theorem selectLeave_assert (delta infinity : ℚ) (fuel : ℕ) (s : Solver) (val : ℚ)
    (hassert : ¬ (delta > s.epsilon ∧ s.epsilon > 0 ∧ s.maxCycle > 0)) :
    selectLeave delta infinity fuel s val = .error .fuel ∨
      selectLeave delta infinity fuel s val = .error .assertion := by
  cases fuel with
  | zero => exact Or.inl rfl
  | succ fuel =>
    right
    simp only [selectLeave, hassert, not_false_eq_true, if_true]

theorem leaveScanPos_spec (delta infinity : ℚ) (s : Solver) (val : ℚ)
    (heps : 0 < s.epsilon) :
    Solver.FrameOf s.epsilon s (leaveScanPos delta infinity s val).s ∧
      LeaveInvPos (leaveEnvelopePos delta infinity s val) s.epsilon
        (degenerateEps s.solverDelta s.numCycle s.maxCycle) (leaveScanPos delta infinity s val) ∧
      leaveEnvelopePos delta infinity s val ≤ val := by
  have h := leaveLoopPos_spec (leaveEnvelopePos delta infinity s val) s.epsilon
    (degenerateEps s.solverDelta s.numCycle s.maxCycle) s.epsilon (le_of_lt heps)
    { s := s.setupUpd, stab := 0, sel := -infinity, leave := -1 } (Or.inl rfl)
  exact ⟨h.1, h.2,
    (maxDelta_loop_least delta infinity s.epsilon s.updVal s.fVec s.lbBound s.ubBound
      (le_of_lt heps) { theval := val, themax := 0 } s.setupUpd.updIdx).1⟩

theorem leaveScanNeg_spec (delta infinity : ℚ) (s : Solver) (val : ℚ)
    (heps : 0 < s.epsilon) :
    Solver.FrameOf s.epsilon s (leaveScanNeg delta infinity s val).s ∧
      LeaveInvNeg (leaveEnvelopeNeg delta infinity s val) s.epsilon
        (degenerateEps s.solverDelta s.numCycle s.maxCycle) (leaveScanNeg delta infinity s val) ∧
      val ≤ leaveEnvelopeNeg delta infinity s val := by
  have h := leaveLoopNeg_spec (leaveEnvelopeNeg delta infinity s val) s.epsilon
    (degenerateEps s.solverDelta s.numCycle s.maxCycle) s.epsilon (le_of_lt heps)
    { s := s.setupUpd, stab := 0, sel := infinity, leave := -1 } (Or.inl rfl)
  exact ⟨h.1, h.2,
    minDelta_loop_ge delta infinity s.epsilon s.updVal s.fVec s.lbBound s.ubBound
      { theval := val, themax := 0 } s.setupUpd.updIdx⟩

theorem selectLeave_post (delta infinity : ℚ) :
    ∀ (fuel : ℕ) (s : Solver) (val : ℚ) (r : LeaveResult),
      selectLeave delta infinity fuel s val = .ok r → 0 ≤ r.leave → LeavePost s val r := by
  intro fuel
  induction fuel with
  | zero =>
    intro s val r h _
    simp [selectLeave] at h
  | succ fuel ih =>
    intro s val r h hl
    by_cases hassert : delta > s.epsilon ∧ s.epsilon > 0 ∧ s.maxCycle > 0
    · have heps : 0 < s.epsilon := hassert.2.1
      by_cases hp : val > s.epsilon
      · rw [selectLeave_pos delta infinity fuel s val hassert hp] at h
        obtain ⟨hfr, hinv, hle⟩ := leaveScanPos_spec delta infinity s val heps
        split_ifs at h with h1 h2 h3
        · cases h
          norm_num at hl
        · exact leavePost_of_frame hfr (ih _ _ _ h hl)
        · cases h
          rcases hinv with hinv | ⟨k, hk, hsel, hcase⟩
          · rw [hinv] at h3
            norm_num at h3
          · refine ⟨hfr, heps, k, hk, Or.inl ⟨hp, lt_of_le_of_lt hsel (lt_of_le_of_ne hle h1), ?_⟩⟩
            rcases hcase with ⟨a, _, c, d⟩ | ⟨a, _, c, d⟩
            · exact Or.inl ⟨a, c, d⟩
            · exact Or.inr ⟨a, c, d⟩
      · by_cases hn : val < -s.epsilon
        · rw [selectLeave_neg delta infinity fuel s val hassert hn] at h
          obtain ⟨hfr, hinv, hle⟩ := leaveScanNeg_spec delta infinity s val heps
          split_ifs at h with h1 h2 h3
          · cases h
            norm_num at hl
          · exact leavePost_of_frame hfr (ih _ _ _ h hl)
          · cases h
            rcases hinv with hinv | ⟨k, hk, hsel, hcase⟩
            · rw [hinv] at h3
              norm_num at h3
            · refine ⟨hfr, heps, k, hk,
                Or.inr ⟨hn, lt_of_lt_of_le (lt_of_le_of_ne hle (Ne.symm h1)) hsel, ?_⟩⟩
              rcases hcase with ⟨a, _, c, d⟩ | ⟨a, _, c, d⟩
              · exact Or.inl ⟨a, c, d⟩
              · exact Or.inr ⟨a, c, d⟩
        · rw [selectLeave_mid delta infinity fuel s val hassert hp hn] at h
          cases h
          norm_num at hl
    · rcases selectLeave_assert delta infinity (fuel + 1) s val hassert with h' | h' <;>
        rw [h'] at h <;> cases h

theorem exampleLeave_half :
    leaveOutcome (selectLeave (1 / 10) (10 ^ 100) 3
      (exampleSolver 1 (fun _ => 0) (fun _ => 1) (fun _ => 1 / 2) (fun _ => -1)) 1) =
      .ok (0, 1 / 2) := by decide!

theorem leaveOutcome_ok {x : Except Fault LeaveResult} {k : ℤ} {v : ℚ}
    (h : leaveOutcome x = .ok (k, v)) : ∃ r, x = .ok r ∧ r.leave = k ∧ r.val = v := by
  cases x with
  | error e => simp [leaveOutcome] at h
  | ok r =>
    simp only [leaveOutcome, Except.ok.injEq, Prod.mk.injEq] at h
    exact ⟨r, rfl, h.1, h.2⟩

/-- Claim C16: whenever `selectLeave` returns an index `k ≥ 0` with the step `val`, the
leaving variable lands exactly on the bound it was tested against: with `fVec` and
`upd[k]` as at the call (the call changes neither), `fVec[k] + val * upd[k]` equals
`ubBound[k]` when the requested `val` and `upd[k]` have the same sign and `lbBound[k]`
otherwise, one of the two being the case since neither is zero. -/
theorem selectLeave_lands_on_bound (delta infinity : ℚ) (fuel : ℕ) (s : Solver) (val : ℚ)
    (r : LeaveResult) (h : selectLeave delta infinity fuel s val = .ok r)
    (hk : 0 ≤ r.leave) :
    r.s.fVec = s.fVec ∧ r.s.updVal r.leave.toNat = s.updVal r.leave.toNat ∧
      s.updVal r.leave.toNat ≠ 0 ∧ val ≠ 0 ∧
      ((0 < val ∧ 0 < s.updVal r.leave.toNat ∨ val < 0 ∧ s.updVal r.leave.toNat < 0) →
        s.fVec r.leave.toNat + r.val * s.updVal r.leave.toNat =
          r.s.ubBound r.leave.toNat) ∧
      ((0 < val ∧ s.updVal r.leave.toNat < 0 ∨ val < 0 ∧ 0 < s.updVal r.leave.toNat) →
        s.fVec r.leave.toNat + r.val * s.updVal r.leave.toNat =
          r.s.lbBound r.leave.toNat) := by
  obtain ⟨⟨a1, _, _, _, _, _, a7⟩, heps, k, hk', hc⟩ :=
    selectLeave_post delta infinity fuel s val r h hk
  have hkn : r.leave.toNat = k := by rw [hk']; simp
  rw [hkn]
  have hx : r.s.updVal k ≠ 0 → r.s.updVal k = s.updVal k := by
    intro hne
    rcases a7 k with h7 | ⟨h7, _⟩
    · exact h7
    · exact absurd h7 hne
  rw [a1] at hc
  rcases hc with ⟨hv, _, ⟨hu, he, _⟩ | ⟨hu, he, _⟩⟩ | ⟨hv, _, ⟨hu, he, _⟩ | ⟨hu, he, _⟩⟩
  all_goals
    have hx' := hx (by intro h0; rw [h0] at hu; linarith)
    rw [hx'] at hu he
    refine ⟨a1, hx', by intro h0; rw [h0] at hu; linarith, by intro h0; rw [h0] at hv; linarith,
      ?_, ?_⟩
    · rintro (⟨h1, h2⟩ | ⟨h1, h2⟩) <;> linarith
    · rintro (⟨h1, h2⟩ | ⟨h1, h2⟩) <;> linarith

/-- Witness for C16: one variable with `fVec = 0`, `upd = 1`, bounds `[-1, 1/2]` and
`val = 1`; the call returns the index `0` with the step `1/2`. -/
theorem selectLeave_lands_on_bound_witness :
    ∃ r : LeaveResult,
      selectLeave (1 / 10) (10 ^ 100) 3
        (exampleSolver 1 (fun _ => 0) (fun _ => 1) (fun _ => 1 / 2) (fun _ => -1)) 1 = .ok r ∧
      0 ≤ r.leave ∧ r.val = 1 / 2 ∧
      (0 : ℚ) + r.val * 1 = r.s.ubBound r.leave.toNat := by
  obtain ⟨r, hr, hl, hv⟩ := leaveOutcome_ok exampleLeave_half
  have hk : 0 ≤ r.leave := by rw [hl]
  have h := selectLeave_lands_on_bound (1 / 10) (10 ^ 100) 3
    (exampleSolver 1 (fun _ => 0) (fun _ => 1) (fun _ => 1 / 2) (fun _ => -1)) 1 r hr hk
  refine ⟨r, hr, hk, hv, ?_⟩
  exact h.2.2.2.2.1 (Or.inl ⟨by norm_num, by norm_num [exampleSolver]⟩)

theorem shiftedFrom_refl (s : Solver) : Solver.ShiftedFrom s s :=
  ⟨le_rfl, fun _ => ⟨rfl, rfl⟩⟩

theorem shiftedFrom_trans {s s' s'' : Solver} (h : Solver.ShiftedFrom s s')
    (h' : Solver.ShiftedFrom s' s'') : Solver.ShiftedFrom s s'' := by
  refine ⟨le_trans h.1 h'.1, fun he => ?_⟩
  have e1 : s'.theShift = s.theShift := le_antisymm (by rw [← he]; exact h'.1) h.1
  have e2 : s''.theShift = s'.theShift := by rw [he, e1]
  exact ⟨(h'.2 e2).1.trans (h.2 e1).1, (h'.2 e2).2.trans (h.2 e1).2⟩

theorem leaveStepPos_shift (max useeps degeneps epsilon : ℚ) (hd : 0 ≤ degeneps) (i : ℕ)
    (c : LeaveScan) :
    Solver.ShiftedFrom c.s (leaveStepPos max useeps degeneps epsilon i c).s := by
  simp only [leaveStepPos]
  split_ifs with h1 h2 h3 h4 h5 h6
  · refine ⟨?_, fun he => ?_⟩
    · simp only [Solver.shiftUBbound]
      linarith
    · simp only [Solver.shiftUBbound] at he
      linarith
  · exact shiftedFrom_refl _
  · exact shiftedFrom_refl _
  · refine ⟨?_, fun he => ?_⟩
    · simp only [Solver.shiftLBbound]
      linarith
    · simp only [Solver.shiftLBbound] at he
      linarith
  · exact shiftedFrom_refl _
  · exact shiftedFrom_refl _
  · exact ⟨le_rfl, fun _ => ⟨rfl, rfl⟩⟩

theorem leaveStepNeg_shift (max useeps degeneps epsilon : ℚ) (hd : 0 ≤ degeneps) (i : ℕ)
    (c : LeaveScan) :
    Solver.ShiftedFrom c.s (leaveStepNeg max useeps degeneps epsilon i c).s := by
  simp only [leaveStepNeg]
  split_ifs with h1 h2 h3 h4 h5 h6
  · refine ⟨?_, fun he => ?_⟩
    · simp only [Solver.shiftUBbound]
      linarith
    · simp only [Solver.shiftUBbound] at he
      linarith
  · exact shiftedFrom_refl _
  · exact shiftedFrom_refl _
  · refine ⟨?_, fun he => ?_⟩
    · simp only [Solver.shiftLBbound]
      linarith
    · simp only [Solver.shiftLBbound] at he
      linarith
  · exact shiftedFrom_refl _
  · exact shiftedFrom_refl _
  · exact ⟨le_rfl, fun _ => ⟨rfl, rfl⟩⟩

theorem foldr_leaveStepPos_shift (max useeps degeneps epsilon : ℚ) (hd : 0 ≤ degeneps)
    (xs : List ℕ) (c : LeaveScan) :
    Solver.ShiftedFrom c.s (xs.foldr (leaveStepPos max useeps degeneps epsilon) c).s := by
  induction xs with
  | nil => exact shiftedFrom_refl _
  | cons a xs ih => exact shiftedFrom_trans ih (leaveStepPos_shift _ _ _ _ hd _ _)

theorem foldr_leaveStepNeg_shift (max useeps degeneps epsilon : ℚ) (hd : 0 ≤ degeneps)
    (xs : List ℕ) (c : LeaveScan) :
    Solver.ShiftedFrom c.s (xs.foldr (leaveStepNeg max useeps degeneps epsilon) c).s := by
  induction xs with
  | nil => exact shiftedFrom_refl _
  | cons a xs ih => exact shiftedFrom_trans ih (leaveStepNeg_shift _ _ _ _ hd _ _)

theorem Solver.mem_setupUpd (s : Solver) (i : ℕ) :
    i ∈ s.setupUpd.updIdx ↔ i < s.dim ∧ s.updVal i ≠ 0 := by
  simp [Solver.setupUpd]

theorem foldr_pickStep_best (max useeps epsilon : ℚ) (a y : ℕ → ℚ) (st0 : ℚ × ℚ × ℤ)
    (l : List ℕ)
    (hlow : ∀ i ∈ l, useeps < a i → y i ≤ max → st0.2.1 - epsilon < y i) :
    (l.foldr (pickStep max useeps epsilon a y) st0 = st0 ∨
      ∃ k ∈ l, l.foldr (pickStep max useeps epsilon a y) st0 = (a k, y k, (k : ℤ)) ∧
        useeps < a k ∧ y k ≤ max) ∧
    ∀ i ∈ l, useeps < a i → y i ≤ max →
      a i ≤ (l.foldr (pickStep max useeps epsilon a y) st0).1 ∨
      ∃ k ∈ l, useeps < a k ∧ y k ≤ max ∧ y i + epsilon ≤ y k := by
  induction l with
  | nil => exact ⟨Or.inl rfl, by simp⟩
  | cons i rest ih =>
    obtain ⟨ihc, ihd⟩ := ih (fun j hj => hlow j (List.mem_cons_of_mem _ hj))
    simp only [List.foldr_cons]
    set st := rest.foldr (pickStep max useeps epsilon a y) st0 with hst
    by_cases hc : useeps < a i ∧ y i ≤ max ∧ y i > st.2.1 - epsilon ∧ a i > st.1
    · have hp : pickStep max useeps epsilon a y i st = (a i, y i, (i : ℤ)) := by
        simp only [pickStep, if_pos hc]
      rw [hp]
      refine ⟨Or.inr ⟨i, List.mem_cons_self _ _, rfl, hc.1, hc.2.1⟩, ?_⟩
      intro j hj hja hjy
      rcases List.mem_cons.mp hj with rfl | hj'
      · exact Or.inl le_rfl
      · rcases ihd j hj' hja hjy with h | ⟨k, hk, h⟩
        · exact Or.inl (le_trans h (le_of_lt hc.2.2.2))
        · exact Or.inr ⟨k, List.mem_cons_of_mem _ hk, h⟩
    · have hp : pickStep max useeps epsilon a y i st = st := by
        simp only [pickStep, if_neg hc]
      rw [hp]
      constructor
      · rcases ihc with h | ⟨k, hk, h⟩
        · exact Or.inl h
        · exact Or.inr ⟨k, List.mem_cons_of_mem _ hk, h⟩
      · intro j hj hja hjy
        rcases List.mem_cons.mp hj with rfl | hj'
        · by_cases hst1 : a j ≤ st.1
          · exact Or.inl hst1
          · right
            have hy : y j ≤ st.2.1 - epsilon := by
              by_contra hcon
              exact hc ⟨hja, hjy, not_le.mp hcon, not_le.mp hst1⟩
            rcases ihc with h | ⟨k, hk, h, hka, hky⟩
            · rw [h] at hy
              exact absurd hy (not_le.mpr (hlow j (List.mem_cons_self _ _) hja hjy))
            · rw [h] at hy
              exact ⟨k, List.mem_cons_of_mem _ hk, hka, hky, by simpa using (by linarith : y j + epsilon ≤ y k)⟩
        · rcases ihd j hj' hja hjy with h | ⟨k, hk, h⟩
          · exact Or.inl h
          · exact Or.inr ⟨k, List.mem_cons_of_mem _ hk, h⟩

theorem foldr_leaveStepPos_pick (max useeps degeneps epsilon : ℚ) (hu : 0 < useeps)
    (hd : 0 ≤ degeneps) (c0 : LeaveScan) :
    ∀ l : List ℕ,
      (l.foldr (leaveStepPos max useeps degeneps epsilon) c0).s.theShift = c0.s.theShift →
      ((l.foldr (leaveStepPos max useeps degeneps epsilon) c0).stab,
        (l.foldr (leaveStepPos max useeps degeneps epsilon) c0).sel,
        (l.foldr (leaveStepPos max useeps degeneps epsilon) c0).leave) =
        l.foldr (pickStep max useeps epsilon (fun j => |c0.s.updVal j|)
          (leaveTrueStepPos c0.s)) (c0.stab, c0.sel, c0.leave) ∧
      ∀ i ∈ l, (useeps < c0.s.updVal i → -degeneps ≤ c0.s.ubBound i - c0.s.fVec i) ∧
        (c0.s.updVal i < -useeps → c0.s.lbBound i - c0.s.fVec i ≤ degeneps) := by
  intro l
  induction l with
  | nil =>
    intro _
    exact ⟨rfl, by simp⟩
  | cons i rest ih =>
    intro hsh
    simp only [List.foldr_cons] at hsh ⊢
    have hfr := foldr_leaveStepPos_frame max useeps degeneps epsilon rest c0
    have hsr := foldr_leaveStepPos_shift max useeps degeneps epsilon hd rest c0
    have hss := leaveStepPos_shift max useeps degeneps epsilon hd i
      (rest.foldr (leaveStepPos max useeps degeneps epsilon) c0)
    have hceq : (rest.foldr (leaveStepPos max useeps degeneps epsilon) c0).s.theShift =
        c0.s.theShift := le_antisymm (by rw [← hsh]; exact hss.1) hsr.1
    obtain ⟨hrel, hslack⟩ := ih hceq
    obtain ⟨hub, hlb⟩ := hsr.2 hceq
    obtain ⟨hfv, _, _, _, _, _, hfr7⟩ := hfr
    rw [← hrel]
    generalize rest.foldr (leaveStepPos max useeps degeneps epsilon) c0 = c at *
    by_cases h1 : c.s.updVal i > useeps
    · have hx : c.s.updVal i = c0.s.updVal i := by
        rcases hfr7 i with h | ⟨h, _⟩
        · exact h
        · rw [h] at h1
          linarith
      have hXpos : 0 < c0.s.updVal i := by rw [← hx]; linarith
      by_cases h2 : c.s.ubBound i - c.s.fVec i < -degeneps
      · exfalso
        have hs : (leaveStepPos max useeps degeneps epsilon i c).s.theShift =
            c.s.theShift + (c.s.fVec i - c.s.ubBound i) := by
          simp only [leaveStepPos, if_pos h1, if_pos h2, Solver.shiftUBbound]
        rw [hs] at hsh
        linarith
      · have hY : leaveTrueStepPos c0.s i = (c.s.ubBound i - c.s.fVec i) / c.s.updVal i := by
          simp only [leaveTrueStepPos, if_pos hXpos, hub, hfv, hx]
        have hA : |c0.s.updVal i| = c.s.updVal i := by rw [hx, abs_of_pos hXpos]
        constructor
        · by_cases h3 : (c.s.ubBound i - c.s.fVec i) / c.s.updVal i ≤ max ∧
              (c.s.ubBound i - c.s.fVec i) / c.s.updVal i > c.sel - epsilon ∧
              c.s.updVal i > c.stab
          · have hp : useeps < |c0.s.updVal i| ∧ leaveTrueStepPos c0.s i ≤ max ∧
                leaveTrueStepPos c0.s i > c.sel - epsilon ∧ |c0.s.updVal i| > c.stab := by
              rw [hY, hA]
              exact ⟨h1, h3⟩
            have hpick : pickStep max useeps epsilon (fun j => |c0.s.updVal j|) (leaveTrueStepPos c0.s) i
                (c.stab, c.sel, c.leave) =
                (|c0.s.updVal i|, leaveTrueStepPos c0.s i, (i : ℤ)) := if_pos hp
            rw [hpick, hY, hA]
            simp only [leaveStepPos, if_pos h1, if_neg h2, if_pos h3]
          · have hp : ¬ (useeps < |c0.s.updVal i| ∧ leaveTrueStepPos c0.s i ≤ max ∧
                leaveTrueStepPos c0.s i > c.sel - epsilon ∧ |c0.s.updVal i| > c.stab) := by
              rw [hY, hA]
              exact fun h => h3 h.2
            have hpick : pickStep max useeps epsilon (fun j => |c0.s.updVal j|) (leaveTrueStepPos c0.s) i
                (c.stab, c.sel, c.leave) =
                (c.stab, c.sel, c.leave) := if_neg hp
            rw [hpick]
            simp only [leaveStepPos, if_pos h1, if_neg h2, if_neg h3]
        · intro j hj
          rcases List.mem_cons.mp hj with rfl | hj'
          · refine ⟨fun _ => ?_, fun hn => absurd hn (by linarith)⟩
            rw [← hub, ← hfv]
            linarith
          · exact hslack j hj'
    · by_cases h4 : c.s.updVal i < -useeps
      · have hx : c.s.updVal i = c0.s.updVal i := by
          rcases hfr7 i with h | ⟨h, _⟩
          · exact h
          · rw [h] at h4
            linarith
        have hXneg : c0.s.updVal i < 0 := by rw [← hx]; linarith
        have hXnp : ¬ 0 < c0.s.updVal i := by linarith
        by_cases h5 : c.s.lbBound i - c.s.fVec i > degeneps
        · exfalso
          have hs : (leaveStepPos max useeps degeneps epsilon i c).s.theShift =
              c.s.theShift + (c.s.lbBound i - c.s.fVec i) := by
            simp only [leaveStepPos, if_neg h1, if_pos h4, if_pos h5, Solver.shiftLBbound]
          rw [hs] at hsh
          linarith
        · have hY : leaveTrueStepPos c0.s i =
              (c.s.lbBound i - c.s.fVec i) / c.s.updVal i := by
            simp only [leaveTrueStepPos, if_neg hXnp, hlb, hfv, hx]
          have hA : |c0.s.updVal i| = -c.s.updVal i := by rw [hx, abs_of_neg hXneg]
          constructor
          · by_cases h6 : (c.s.lbBound i - c.s.fVec i) / c.s.updVal i ≤ max ∧
                (c.s.lbBound i - c.s.fVec i) / c.s.updVal i > c.sel - epsilon ∧
                -c.s.updVal i > c.stab
            · have hp : useeps < |c0.s.updVal i| ∧ leaveTrueStepPos c0.s i ≤ max ∧
                  leaveTrueStepPos c0.s i > c.sel - epsilon ∧ |c0.s.updVal i| > c.stab := by
                rw [hY, hA]
                exact ⟨by linarith, h6⟩
              have hpick : pickStep max useeps epsilon (fun j => |c0.s.updVal j|) (leaveTrueStepPos c0.s) i
                (c.stab, c.sel, c.leave) =
                  (|c0.s.updVal i|, leaveTrueStepPos c0.s i, (i : ℤ)) := if_pos hp
              rw [hpick, hY, hA]
              simp only [leaveStepPos, if_neg h1, if_pos h4, if_neg h5, if_pos h6]
            · have hp : ¬ (useeps < |c0.s.updVal i| ∧ leaveTrueStepPos c0.s i ≤ max ∧
                  leaveTrueStepPos c0.s i > c.sel - epsilon ∧ |c0.s.updVal i| > c.stab) := by
                rw [hY, hA]
                exact fun h => h6 h.2
              have hpick : pickStep max useeps epsilon (fun j => |c0.s.updVal j|) (leaveTrueStepPos c0.s) i
                (c.stab, c.sel, c.leave) =
                  (c.stab, c.sel, c.leave) := if_neg hp
              rw [hpick]
              simp only [leaveStepPos, if_neg h1, if_pos h4, if_neg h5, if_neg h6]
          · intro j hj
            rcases List.mem_cons.mp hj with rfl | hj'
            · refine ⟨fun hn => absurd hn (by linarith), fun _ => ?_⟩
              rw [← hlb, ← hfv]
              linarith
            · exact hslack j hj'
      · have hsmall : |c0.s.updVal i| ≤ useeps := by
          rcases hfr7 i with h | ⟨_, h⟩
          · rw [← h, abs_le]
            constructor <;> linarith
          · exact h
        constructor
        · have hp : ¬ (useeps < |c0.s.updVal i| ∧ leaveTrueStepPos c0.s i ≤ max ∧
              leaveTrueStepPos c0.s i > c.sel - epsilon ∧ |c0.s.updVal i| > c.stab) :=
            fun h => absurd h.1 (not_lt.mpr hsmall)
          have hpick : pickStep max useeps epsilon (fun j => |c0.s.updVal j|) (leaveTrueStepPos c0.s) i
                (c.stab, c.sel, c.leave) =
              (c.stab, c.sel, c.leave) := if_neg hp
          rw [hpick]
          simp only [leaveStepPos, if_neg h1, if_neg h4]
        · intro j hj
          rcases List.mem_cons.mp hj with rfl | hj'
          · have := abs_le.mp hsmall
            exact ⟨fun hn => absurd hn (by linarith), fun hn => absurd hn (by linarith)⟩
          · exact hslack j hj'

theorem foldr_leaveStepNeg_pick (max useeps degeneps epsilon : ℚ) (hu : 0 < useeps)
    (hd : 0 ≤ degeneps) (c0 : LeaveScan) :
    ∀ l : List ℕ,
      (l.foldr (leaveStepNeg max useeps degeneps epsilon) c0).s.theShift = c0.s.theShift →
      ((l.foldr (leaveStepNeg max useeps degeneps epsilon) c0).stab,
        -(l.foldr (leaveStepNeg max useeps degeneps epsilon) c0).sel,
        (l.foldr (leaveStepNeg max useeps degeneps epsilon) c0).leave) =
        l.foldr (pickStep (-max) useeps epsilon (fun j => |c0.s.updVal j|)
          (fun j => -leaveTrueStepNeg c0.s j)) (c0.stab, -c0.sel, c0.leave) ∧
      ∀ i ∈ l, (c0.s.updVal i < -useeps → -degeneps ≤ c0.s.ubBound i - c0.s.fVec i) ∧
        (useeps < c0.s.updVal i → c0.s.lbBound i - c0.s.fVec i ≤ degeneps) := by
  intro l
  induction l with
  | nil =>
    intro _
    exact ⟨rfl, by simp⟩
  | cons i rest ih =>
    intro hsh
    simp only [List.foldr_cons] at hsh ⊢
    have hfr := foldr_leaveStepNeg_frame max useeps degeneps epsilon rest c0
    have hsr := foldr_leaveStepNeg_shift max useeps degeneps epsilon hd rest c0
    have hss := leaveStepNeg_shift max useeps degeneps epsilon hd i
      (rest.foldr (leaveStepNeg max useeps degeneps epsilon) c0)
    have hceq : (rest.foldr (leaveStepNeg max useeps degeneps epsilon) c0).s.theShift =
        c0.s.theShift := le_antisymm (by rw [← hsh]; exact hss.1) hsr.1
    obtain ⟨hrel, hslack⟩ := ih hceq
    obtain ⟨hub, hlb⟩ := hsr.2 hceq
    obtain ⟨hfv, _, _, _, _, _, hfr7⟩ := hfr
    rw [← hrel]
    generalize rest.foldr (leaveStepNeg max useeps degeneps epsilon) c0 = c at *
    by_cases h1 : c.s.updVal i < -useeps
    · have hx : c.s.updVal i = c0.s.updVal i := by
        rcases hfr7 i with h | ⟨h, _⟩
        · exact h
        · rw [h] at h1
          linarith
      have hXneg : c0.s.updVal i < 0 := by rw [← hx]; linarith
      by_cases h2 : c.s.ubBound i - c.s.fVec i < -degeneps
      · exfalso
        have hs : (leaveStepNeg max useeps degeneps epsilon i c).s.theShift =
            c.s.theShift + (c.s.fVec i - c.s.ubBound i) := by
          simp only [leaveStepNeg, if_pos h1, if_pos h2, Solver.shiftUBbound]
        rw [hs] at hsh
        linarith
      · have hY : leaveTrueStepNeg c0.s i = (c.s.ubBound i - c.s.fVec i) / c.s.updVal i := by
          simp only [leaveTrueStepNeg, if_pos hXneg, hub, hfv, hx]
        have hA : |c0.s.updVal i| = -c.s.updVal i := by rw [hx, abs_of_neg hXneg]
        constructor
        · by_cases h3 : (c.s.ubBound i - c.s.fVec i) / c.s.updVal i ≥ max ∧
              (c.s.ubBound i - c.s.fVec i) / c.s.updVal i < c.sel + epsilon ∧
              -c.s.updVal i > c.stab
          · have hp : useeps < |c0.s.updVal i| ∧ -leaveTrueStepNeg c0.s i ≤ -max ∧
                -leaveTrueStepNeg c0.s i > -c.sel - epsilon ∧ |c0.s.updVal i| > c.stab := by
              rw [hY, hA]
              exact ⟨by linarith, by linarith [h3.1], by linarith [h3.2.1], h3.2.2⟩
            have hpick : pickStep (-max) useeps epsilon (fun j => |c0.s.updVal j|)
                (fun j => -leaveTrueStepNeg c0.s j) i (c.stab, -c.sel, c.leave) =
                (|c0.s.updVal i|, -leaveTrueStepNeg c0.s i, (i : ℤ)) := if_pos hp
            rw [hpick, hY, hA]
            simp only [leaveStepNeg, if_pos h1, if_neg h2, if_pos h3]
          · have hp : ¬ (useeps < |c0.s.updVal i| ∧ -leaveTrueStepNeg c0.s i ≤ -max ∧
                -leaveTrueStepNeg c0.s i > -c.sel - epsilon ∧ |c0.s.updVal i| > c.stab) := by
              rw [hY, hA]
              exact fun h => h3 ⟨by linarith [h.2.1], by linarith [h.2.2.1], h.2.2.2⟩
            have hpick : pickStep (-max) useeps epsilon (fun j => |c0.s.updVal j|)
                (fun j => -leaveTrueStepNeg c0.s j) i (c.stab, -c.sel, c.leave) =
                (c.stab, -c.sel, c.leave) := if_neg hp
            rw [hpick]
            simp only [leaveStepNeg, if_pos h1, if_neg h2, if_neg h3]
        · intro j hj
          rcases List.mem_cons.mp hj with rfl | hj'
          · refine ⟨fun _ => ?_, fun hn => absurd hn (by linarith)⟩
            rw [← hub, ← hfv]
            linarith
          · exact hslack j hj'
    · by_cases h4 : c.s.updVal i > useeps
      · have hx : c.s.updVal i = c0.s.updVal i := by
          rcases hfr7 i with h | ⟨h, _⟩
          · exact h
          · rw [h] at h4
            linarith
        have hXpos : 0 < c0.s.updVal i := by rw [← hx]; linarith
        have hXnn : ¬ c0.s.updVal i < 0 := by linarith
        by_cases h5 : c.s.lbBound i - c.s.fVec i > degeneps
        · exfalso
          have hs : (leaveStepNeg max useeps degeneps epsilon i c).s.theShift =
              c.s.theShift + (c.s.lbBound i - c.s.fVec i) := by
            simp only [leaveStepNeg, if_neg h1, if_pos h4, if_pos h5, Solver.shiftLBbound]
          rw [hs] at hsh
          linarith
        · have hY : leaveTrueStepNeg c0.s i =
              (c.s.lbBound i - c.s.fVec i) / c.s.updVal i := by
            simp only [leaveTrueStepNeg, if_neg hXnn, hlb, hfv, hx]
          have hA : |c0.s.updVal i| = c.s.updVal i := by rw [hx, abs_of_pos hXpos]
          constructor
          · by_cases h6 : (c.s.lbBound i - c.s.fVec i) / c.s.updVal i ≥ max ∧
                (c.s.lbBound i - c.s.fVec i) / c.s.updVal i < c.sel + epsilon ∧
                c.s.updVal i > c.stab
            · have hp : useeps < |c0.s.updVal i| ∧ -leaveTrueStepNeg c0.s i ≤ -max ∧
                  -leaveTrueStepNeg c0.s i > -c.sel - epsilon ∧ |c0.s.updVal i| > c.stab := by
                rw [hY, hA]
                exact ⟨h4, by linarith [h6.1], by linarith [h6.2.1], h6.2.2⟩
              have hpick : pickStep (-max) useeps epsilon (fun j => |c0.s.updVal j|)
                  (fun j => -leaveTrueStepNeg c0.s j) i (c.stab, -c.sel, c.leave) =
                  (|c0.s.updVal i|, -leaveTrueStepNeg c0.s i, (i : ℤ)) := if_pos hp
              rw [hpick, hY, hA]
              simp only [leaveStepNeg, if_neg h1, if_pos h4, if_neg h5, if_pos h6]
            · have hp : ¬ (useeps < |c0.s.updVal i| ∧ -leaveTrueStepNeg c0.s i ≤ -max ∧
                  -leaveTrueStepNeg c0.s i > -c.sel - epsilon ∧ |c0.s.updVal i| > c.stab) := by
                rw [hY, hA]
                exact fun h => h6 ⟨by linarith [h.2.1], by linarith [h.2.2.1], h.2.2.2⟩
              have hpick : pickStep (-max) useeps epsilon (fun j => |c0.s.updVal j|)
                  (fun j => -leaveTrueStepNeg c0.s j) i (c.stab, -c.sel, c.leave) =
                  (c.stab, -c.sel, c.leave) := if_neg hp
              rw [hpick]
              simp only [leaveStepNeg, if_neg h1, if_pos h4, if_neg h5, if_neg h6]
          · intro j hj
            rcases List.mem_cons.mp hj with rfl | hj'
            · refine ⟨fun hn => absurd hn (by linarith), fun _ => ?_⟩
              rw [← hlb, ← hfv]
              linarith
            · exact hslack j hj'
      · have hsmall : |c0.s.updVal i| ≤ useeps := by
          rcases hfr7 i with h | ⟨_, h⟩
          · rw [← h, abs_le]
            constructor <;> linarith
          · exact h
        constructor
        · have hp : ¬ (useeps < |c0.s.updVal i| ∧ -leaveTrueStepNeg c0.s i ≤ -max ∧
              -leaveTrueStepNeg c0.s i > -c.sel - epsilon ∧ |c0.s.updVal i| > c.stab) :=
            fun h => absurd h.1 (not_lt.mpr hsmall)
          have hpick : pickStep (-max) useeps epsilon (fun j => |c0.s.updVal j|)
              (fun j => -leaveTrueStepNeg c0.s j) i (c.stab, -c.sel, c.leave) =
              (c.stab, -c.sel, c.leave) := if_neg hp
          rw [hpick]
          simp only [leaveStepNeg, if_neg h1, if_neg h4]
        · intro j hj
          rcases List.mem_cons.mp hj with rfl | hj'
          · have := abs_le.mp hsmall
            exact ⟨fun hn => absurd hn (by linarith), fun hn => absurd hn (by linarith)⟩
          · exact hslack j hj'

theorem step_above_minus_infinity (e inf d x t : ℚ) (he : 0 < e) (hd : 0 ≤ d)
    (hinf : d ≤ e * inf) (hx : e < x) (ht : -d ≤ t) : -inf - e < t / x := by
  have hx0 : 0 < x := lt_trans he hx
  rw [lt_div_iff₀ hx0]
  have hi : 0 ≤ inf := by
    by_contra hcon
    have := mul_neg_of_pos_of_neg he (not_le.mp hcon)
    linarith
  have h1 : e * inf ≤ x * inf := mul_le_mul_of_nonneg_right (le_of_lt hx) hi
  have h2 : 0 < e * x := mul_pos he hx0
  nlinarith

/-- Counterexample to C19: one variable with `fVec = 1`, `upd = 1`, upper bound `0`,
`delta() = 1/10` (so `degenerateEps() = 1/10`) and `val = 1`. The slack `0 - 1` is below
`-degeneps`, so the first pass of `selectLeave` requests a shift of the upper bound;
the bound is moved to `fVec[0] = 1` itself (the accumulated shift becomes `1`), which
is neither `1 - 1/10` nor `1 + 1/10`. The same is seen on the loop body alone. -/
theorem selectLeave_shift_to_value :
    degenerateEps (1 / 10) 0 100 = 1 / 10 ∧
    (leaveBodyPos (-9 / 10) (1 / 1000) (1 / 10) (1 / 1000) 0
      { s := (exampleSolver 1 (fun _ => 1) (fun _ => 1) (fun _ => 0) (fun _ => -1)).setupUpd,
        stab := 0, sel := -10 ^ 100, leave := -1 }).s.ubBound 0 = 1 ∧
    (selectLeave (1 / 10) (10 ^ 100) 3
      (exampleSolver 1 (fun _ => 1) (fun _ => 1) (fun _ => 0) (fun _ => -1)) 1).toOption.map
      (fun r => (r.leave, r.val, r.s.theShift, r.s.ubBound 0, r.s.fVec 0)) =
      some (0, 0, 1, 1, 1) ∧
    (1 : ℚ) ≠ 1 - 1 / 10 ∧ (1 : ℚ) ≠ 1 + 1 / 10 := by
  refine ⟨by decide!, by decide!, by decide!, by norm_num, by norm_num⟩

/-- Claim C19, amended: when phase 2 of the ratio test requests a bound shift for the
index `i` (the slack of the tested bound is beyond `degeneps` on the wrong side),
`selectLeave` in both directions and `selectEnter` for `val < -epsilon` move the bound
to the current value `vec[i]` itself; only `selectEnter` for `val > epsilon` moves it
to the distance `degeneps` from the current value, the upper bound to
`vec[i] - degeneps` and the lower bound to `vec[i] + degeneps`. Here `i` is the index
at the position `j` of the update vector of the loop, and `0 ≤ useeps`. -/
theorem phase2_shift_targets (max useeps degeneps epsilon : ℚ) (hu : 0 ≤ useeps) (j : ℕ)
    (c : LeaveScan) (e : EnterScan) :
    (c.s.updVal (c.s.updIdx.getD j 0) > useeps →
      c.s.ubBound (c.s.updIdx.getD j 0) - c.s.fVec (c.s.updIdx.getD j 0) < -degeneps →
      (leaveBodyPos max useeps degeneps epsilon j c).s.ubBound (c.s.updIdx.getD j 0) =
        c.s.fVec (c.s.updIdx.getD j 0)) ∧
    (c.s.updVal (c.s.updIdx.getD j 0) < -useeps →
      c.s.lbBound (c.s.updIdx.getD j 0) - c.s.fVec (c.s.updIdx.getD j 0) > degeneps →
      (leaveBodyPos max useeps degeneps epsilon j c).s.lbBound (c.s.updIdx.getD j 0) =
        c.s.fVec (c.s.updIdx.getD j 0)) ∧
    (c.s.updVal (c.s.updIdx.getD j 0) < -useeps →
      c.s.ubBound (c.s.updIdx.getD j 0) - c.s.fVec (c.s.updIdx.getD j 0) < -degeneps →
      (leaveBodyNeg max useeps degeneps epsilon j c).s.ubBound (c.s.updIdx.getD j 0) =
        c.s.fVec (c.s.updIdx.getD j 0)) ∧
    (c.s.updVal (c.s.updIdx.getD j 0) > useeps →
      c.s.lbBound (c.s.updIdx.getD j 0) - c.s.fVec (c.s.updIdx.getD j 0) > degeneps →
      (leaveBodyNeg max useeps degeneps epsilon j c).s.lbBound (c.s.updIdx.getD j 0) =
        c.s.fVec (c.s.updIdx.getD j 0)) ∧
    (e.s.pUpdVal (e.s.pUpdIdx.getD j 0) > useeps →
      e.s.upBound (e.s.pUpdIdx.getD j 0) - e.s.pVec (e.s.pUpdIdx.getD j 0) < -degeneps →
      (enterBodyPosP max useeps degeneps j e).s.upBound (e.s.pUpdIdx.getD j 0) =
        e.s.pVec (e.s.pUpdIdx.getD j 0) - degeneps) ∧
    (e.s.pUpdVal (e.s.pUpdIdx.getD j 0) < -useeps →
      e.s.lpBound (e.s.pUpdIdx.getD j 0) - e.s.pVec (e.s.pUpdIdx.getD j 0) > degeneps →
      (enterBodyPosP max useeps degeneps j e).s.lpBound (e.s.pUpdIdx.getD j 0) =
        e.s.pVec (e.s.pUpdIdx.getD j 0) + degeneps) ∧
    (e.s.cUpdVal (e.s.cUpdIdx.getD j 0) > useeps →
      e.s.ucBound (e.s.cUpdIdx.getD j 0) - e.s.coPvec (e.s.cUpdIdx.getD j 0) < -degeneps →
      (enterBodyPosC max useeps degeneps j e).s.ucBound (e.s.cUpdIdx.getD j 0) =
        e.s.coPvec (e.s.cUpdIdx.getD j 0) - degeneps) ∧
    (e.s.cUpdVal (e.s.cUpdIdx.getD j 0) < -useeps →
      e.s.lcBound (e.s.cUpdIdx.getD j 0) - e.s.coPvec (e.s.cUpdIdx.getD j 0) > degeneps →
      (enterBodyPosC max useeps degeneps j e).s.lcBound (e.s.cUpdIdx.getD j 0) =
        e.s.coPvec (e.s.cUpdIdx.getD j 0) + degeneps) ∧
    (e.s.pUpdVal (e.s.pUpdIdx.getD j 0) > useeps →
      e.s.lpBound (e.s.pUpdIdx.getD j 0) - e.s.pVec (e.s.pUpdIdx.getD j 0) > degeneps →
      (enterBodyNegP max useeps degeneps j e).s.lpBound (e.s.pUpdIdx.getD j 0) =
        e.s.pVec (e.s.pUpdIdx.getD j 0)) ∧
    (e.s.pUpdVal (e.s.pUpdIdx.getD j 0) < -useeps →
      e.s.upBound (e.s.pUpdIdx.getD j 0) - e.s.pVec (e.s.pUpdIdx.getD j 0) < -degeneps →
      (enterBodyNegP max useeps degeneps j e).s.upBound (e.s.pUpdIdx.getD j 0) =
        e.s.pVec (e.s.pUpdIdx.getD j 0)) ∧
    (e.s.cUpdVal (e.s.cUpdIdx.getD j 0) > useeps →
      e.s.lcBound (e.s.cUpdIdx.getD j 0) - e.s.coPvec (e.s.cUpdIdx.getD j 0) > degeneps →
      (enterBodyNegC max useeps degeneps j e).s.lcBound (e.s.cUpdIdx.getD j 0) =
        e.s.coPvec (e.s.cUpdIdx.getD j 0)) ∧
    (e.s.cUpdVal (e.s.cUpdIdx.getD j 0) < -useeps →
      e.s.ucBound (e.s.cUpdIdx.getD j 0) - e.s.coPvec (e.s.cUpdIdx.getD j 0) < -degeneps →
      (enterBodyNegC max useeps degeneps j e).s.ucBound (e.s.cUpdIdx.getD j 0) =
        e.s.coPvec (e.s.cUpdIdx.getD j 0)) := by
  refine ⟨?_, ?_, ?_, ?_, ?_, ?_, ?_, ?_, ?_, ?_, ?_, ?_⟩
  · intro h1 h2
    simp only [leaveBodyPos, if_pos h1, if_pos h2, Solver.shiftUBbound, Function.update_same]
  · intro h1 h2
    have h0 : ¬ c.s.updVal (c.s.updIdx.getD j 0) > useeps := by linarith
    simp only [leaveBodyPos, if_neg h0, if_pos h1, if_pos h2, Solver.shiftLBbound,
      Function.update_same]
  · intro h1 h2
    simp only [leaveBodyNeg, if_pos h1, if_pos h2, Solver.shiftUBbound, Function.update_same]
  · intro h1 h2
    have h0 : ¬ c.s.updVal (c.s.updIdx.getD j 0) < -useeps := by linarith
    simp only [leaveBodyNeg, if_neg h0, if_pos h1, if_pos h2, Solver.shiftLBbound,
      Function.update_same]
  · intro h1 h2
    simp only [enterBodyPosP, if_pos h1, if_pos h2, EnterSolver.shiftUPbound,
      Function.update_same]
  · intro h1 h2
    have h0 : ¬ e.s.pUpdVal (e.s.pUpdIdx.getD j 0) > useeps := by linarith
    simp only [enterBodyPosP, if_neg h0, if_pos h1, if_pos h2, EnterSolver.shiftLPbound,
      Function.update_same]
  · intro h1 h2
    simp only [enterBodyPosC, if_pos h1, if_pos h2, EnterSolver.shiftUCbound,
      Function.update_same]
  · intro h1 h2
    have h0 : ¬ e.s.cUpdVal (e.s.cUpdIdx.getD j 0) > useeps := by linarith
    simp only [enterBodyPosC, if_neg h0, if_pos h1, if_pos h2, EnterSolver.shiftLCbound,
      Function.update_same]
  · intro h1 h2
    simp only [enterBodyNegP, if_pos h1, if_pos h2, EnterSolver.shiftLPbound,
      Function.update_same]
  · intro h1 h2
    have h0 : ¬ e.s.pUpdVal (e.s.pUpdIdx.getD j 0) > useeps := by linarith
    simp only [enterBodyNegP, if_neg h0, if_pos h1, if_pos h2, EnterSolver.shiftUPbound,
      Function.update_same]
  · intro h1 h2
    simp only [enterBodyNegC, if_pos h1, if_pos h2, EnterSolver.shiftLCbound,
      Function.update_same]
  · intro h1 h2
    have h0 : ¬ e.s.cUpdVal (e.s.cUpdIdx.getD j 0) > useeps := by linarith
    simp only [enterBodyNegC, if_neg h0, if_pos h1, if_pos h2, EnterSolver.shiftUCbound,
      Function.update_same]

/-- Witness for the amended C19: with `fVec[0] = pVec[0] = coPvec[0] = 1`, update values
`1`, upper bounds `0` and `degeneps = 1/10`, the body of `selectLeave` moves the upper
bound to `1` and the bodies of `selectEnter` for `val > epsilon` move it to
`1 - 1/10`. -/
theorem phase2_shift_targets_witness :
    (0 : ℚ) ≤ 1 / 1000 ∧
    (leaveBodyPos (-9 / 10) (1 / 1000) (1 / 10) (1 / 1000) 0
      { s := (exampleSolver 1 (fun _ => 1) (fun _ => 1) (fun _ => 0) (fun _ => -1)).setupUpd,
        stab := 0, sel := -10 ^ 100, leave := -1 }).s.ubBound 0 = 1 ∧
    (enterBodyPosP (-9 / 10) (1 / 1000) (1 / 10) 0 exampleEnterScan).s.upBound 0 =
      1 - 1 / 10 ∧
    (enterBodyPosC (-9 / 10) (1 / 1000) (1 / 10) 0 exampleEnterScan).s.ucBound 0 =
      1 - 1 / 10 := by
  have h := phase2_shift_targets (-9 / 10) (1 / 1000) (1 / 10) (1 / 1000) (by norm_num) 0
    { s := (exampleSolver 1 (fun _ => 1) (fun _ => 1) (fun _ => 0) (fun _ => -1)).setupUpd,
      stab := 0, sel := -10 ^ 100, leave := -1 } exampleEnterScan
  exact ⟨by norm_num, h.1 (by decide!) (by decide!),
    h.2.2.2.2.1 (by decide!) (by decide!),
    h.2.2.2.2.2.2.1 (by decide!) (by decide!)⟩

/-- Claim C24: for every rational `r` that is exactly representable as a double (the
conversion `double(r)`, taken back as a rational, equals `r`), `isAdjacentTo(r, d)`
returns true for every double `d`, whatever its distance from `r`. It holds for the
round-to-nearest conversion `roundDouble` and for every other conversion. -/
theorem isAdjacentTo_representable_any (toDouble : ℚ → ℚ) (r : Rational)
    (h : toDouble r = r) : ∀ d : ℚ, isAdjacentTo toDouble r d = true :=
  fun d => isAdjacentTo_of_representable toDouble r d h

/-- Witness for C24: `r = 3/4` is a double, and `isAdjacentTo(3/4, 10^50)` is true. -/
theorem isAdjacentTo_representable_any_witness :
    roundDouble (3 / 4) = 3 / 4 ∧ isAdjacentTo roundDouble (3 / 4) (10 ^ 50) = true :=
  ⟨by decide!, isAdjacentTo_representable_any roundDouble (3 / 4) (by decide!) (10 ^ 50)⟩

/-- Claim C26: for `delta0 > 0` and `maxCycle > 0`, `degenerateEps` is a step function
of the integer counters: it is exactly `delta0` while `0 ≤ numCycle < maxCycle`,
exactly `0` while `maxCycle ≤ numCycle < 2 * maxCycle`, and it is negative exactly when
`numCycle ≥ 2 * maxCycle`. -/
theorem degenerateEps_step_function (delta0 : ℚ) (numCycle maxCycle : ℤ) (hd : 0 < delta0)
    (hm : 0 < maxCycle) :
    (0 ≤ numCycle → numCycle < maxCycle → degenerateEps delta0 numCycle maxCycle = delta0) ∧
    (maxCycle ≤ numCycle → numCycle < 2 * maxCycle →
      degenerateEps delta0 numCycle maxCycle = 0) ∧
    (degenerateEps delta0 numCycle maxCycle < 0 ↔ 2 * maxCycle ≤ numCycle) := by
  refine ⟨fun h0 h1 => ?_, fun h1 h2 => ?_, ?_⟩
  · have hq : Int.tdiv numCycle maxCycle = 0 := Int.tdiv_eq_zero_of_lt h0 h1
    simp [degenerateEps, hq]
  · have hq : Int.tdiv numCycle maxCycle = 1 := by
      have h0 : 0 ≤ numCycle := le_trans (le_of_lt hm) h1
      rw [Int.tdiv_eq_ediv h0 (le_of_lt hm)]
      have : numCycle = (numCycle - maxCycle) + maxCycle * 1 := by ring
      rw [this, Int.add_mul_ediv_left _ _ (ne_of_gt hm)]
      rw [Int.ediv_eq_zero_of_lt (by linarith) (by linarith)]
      rfl
    simp [degenerateEps, hq]
  · have hlt : degenerateEps delta0 numCycle maxCycle < 0 ↔
        (1 : ℤ) < Int.tdiv numCycle maxCycle := by
      simp only [degenerateEps]
      constructor
      · intro h
        by_contra hcon
        have h1 : ((Int.tdiv numCycle maxCycle : ℤ) : ℚ) ≤ 1 := by exact_mod_cast not_lt.mp hcon
        have : 0 ≤ delta0 * (1 - ((Int.tdiv numCycle maxCycle : ℤ) : ℚ)) :=
          mul_nonneg (le_of_lt hd) (by linarith)
        linarith
      · intro h
        have h1 : (1 : ℚ) < ((Int.tdiv numCycle maxCycle : ℤ) : ℚ) := by exact_mod_cast h
        exact mul_neg_of_pos_of_neg hd (by linarith)
    rw [hlt]
    by_cases h0 : 0 ≤ numCycle
    · rw [Int.tdiv_eq_ediv h0 (le_of_lt hm)]
      constructor
      · intro h
        have h2 : (2 : ℤ) ≤ numCycle / maxCycle := h
        have := (Int.le_ediv_iff_mul_le hm).mp h2
        linarith
      · intro h
        have : (2 : ℤ) ≤ numCycle / maxCycle := (Int.le_ediv_iff_mul_le hm).mpr (by linarith)
        exact this
    · have hneg : numCycle < 0 := not_le.mp h0
      constructor
      · intro h
        exfalso
        have h3 : Int.tdiv numCycle maxCycle ≤ 0 := by
          have h4 : numCycle = -(-numCycle) := by ring
          rw [h4, Int.neg_tdiv]
          have := @Int.tdiv_nonneg (-numCycle) maxCycle (by linarith) (le_of_lt hm)
          linarith
        linarith
      · intro h
        linarith

/-- Witness for C26: `delta0 = 1/10` and `maxCycle = 100`; the counter `250` gives a
negative value. -/
theorem degenerateEps_step_function_witness :
    (0 : ℚ) < 1 / 10 ∧ (0 : ℤ) < 100 ∧
    (degenerateEps (1 / 10) 250 100 < 0 ↔ (2 : ℤ) * 100 ≤ 250) :=
  ⟨by norm_num, by norm_num,
    (degenerateEps_step_function (1 / 10) 250 100 (by norm_num) (by norm_num)).2.2⟩

/-- Claim C27: `maxDelta` and `minDelta` never write through their `max` parameter and
always return `-1`: whenever the call passes its assertion (`*val ≥ 0` for `maxDelta`,
`*val < 0` for `minDelta`) it returns, the returned index is `-1` and the caller's
variable behind `max` holds the value it had before the call, whatever the update
vector contains. In `selectLeave` this value is `1`, so the threshold of phase 2 is
`epsilon` itself. -/
theorem maxDelta_minDelta_keep_max (delta infinity max val : ℚ) (idx : List ℕ)
    (upd vec low up : ℕ → ℚ) (epsilon : ℚ) :
    (0 ≤ val → ∃ r : DeltaResult,
      maxDelta delta infinity max val idx upd vec low up epsilon = .ok r ∧
        r.sel = -1 ∧ r.max = max) ∧
    (val < 0 → ∃ r : DeltaResult,
      minDelta delta infinity max val idx upd vec low up epsilon = .ok r ∧
        r.sel = -1 ∧ r.max = max) ∧
    (∀ r : DeltaResult, maxDelta delta infinity max val idx upd vec low up epsilon = .ok r →
      r.sel = -1 ∧ r.max = max) ∧
    (∀ r : DeltaResult, minDelta delta infinity max val idx upd vec low up epsilon = .ok r →
      r.sel = -1 ∧ r.max = max) ∧
    (0 < epsilon → leaveUseeps 1 epsilon = epsilon) := by
  refine ⟨fun h => ⟨_, maxDelta_eq delta infinity max val idx upd vec low up epsilon h, rfl, rfl⟩,
    fun h => ⟨_, minDelta_eq delta infinity max val idx upd vec low up epsilon h, rfl, rfl⟩,
    ?_, ?_, leaveUseeps_one epsilon⟩
  · intro r hr
    by_cases h : 0 ≤ val
    · rw [maxDelta_eq delta infinity max val idx upd vec low up epsilon h] at hr
      cases hr
      exact ⟨rfl, rfl⟩
    · simp [maxDelta, h] at hr
  · intro r hr
    by_cases h : val < 0
    · rw [minDelta_eq delta infinity max val idx upd vec low up epsilon h] at hr
      cases hr
      exact ⟨rfl, rfl⟩
    · simp [minDelta, h] at hr

/-- Claim C25 (evaluation at the failing inputs): in the decimal branch the removal
of padding zeros looks for the first character that is not `0` from the start of the
text when there is no leading `-`, so a leading `+` stops it at once: for `"+0.5"`
and `"+0.05"` the text handed to the constructor (after the `+` is dropped) is
`"05/10"` and `"005/100"`, with padding zeros in the numerator. On the branch of a
leading `-` a mantissa of zeros only loses every digit: for `"-0.0"` the text is a
bare minus sign followed by `/10`, with an empty numerator. Without a sign, `"0.5"` and `"0.0"` give `"5/10"`
and `"0/10"`. -/
theorem mantissaText_padding_zeros :
    mantissaText "+0.5".toList = .ok "+05/10".toList ∧
    front "+05/10".toList = '+' ∧ "+05/10".toList.drop 1 = "05/10".toList ∧
    mantissaText "+0.05".toList = .ok "+005/100".toList ∧
    mantissaText "-0.0".toList = .ok "-/10".toList ∧
    mantissaText "0.5".toList = .ok "5/10".toList ∧
    mantissaText "0.0".toList = .ok "0/10".toList := by
  decide!

/-- Claim C28 (evaluation at the failing input): `selectLeave` starts with
`maxabs = 1` and `maxDelta` does not write it, so the threshold of phase 2 is
`epsilon` whatever the update vector contains. For `upd = (10^6, 1/2)` and
`epsilon = 1/1000` phase 1 leaves `maxabs = 1` (not `10^6`) and the threshold is
`1/1000` (not `1000 * epsilon = 1`): the index `1` with `|upd[1]| = 1/2`, which a
threshold of `1` would have removed, is selected and returned. -/
theorem selectLeave_useeps_ignores_maxabs :
    (maxDelta (1 / 10) (10 ^ 100) 1 1 [0, 1] (fun i => if i = 0 then 10 ^ 6 else 1 / 2)
      (fun _ => 0) (fun _ => -10 ^ 100) (fun i => if i = 0 then 10 ^ 100 else 1 / 4)
      (1 / 1000)).toOption.map (fun r => (r.max, r.val)) = some (1, 7 / 10) ∧
    leaveUseeps 1 (1 / 1000) = 1 / 1000 ∧
    leaveUseeps (10 ^ 6) (1 / 1000) = 1000 * (1 / 1000) ∧
    (selectLeave (1 / 10) (10 ^ 100) 3
      (exampleSolver 2 (fun _ => 0) (fun i => if i = 0 then 10 ^ 6 else 1 / 2)
        (fun i => if i = 0 then 10 ^ 100 else 1 / 4) (fun _ => -10 ^ 100)) 1).toOption.map
      (fun r => (r.leave, r.val, r.s.updVal 1, r.s.updIdx)) =
      some (1, 1 / 2, 1 / 2, [0, 1]) := by
  refine ⟨by decide!, by decide!, by decide!, by decide!⟩

/-- Claim C30 (evaluation at the failing input): with `numCycle = 200` and
`maxCycle = 100` the value of `degenerateEps()` is `-delta() = -1/10`. One variable
with `fVec = 0`, `upd = 1` and upper bound `0`, called with `val = 1`: the assertions
at the entry hold, phase 1 improves the envelope to `1/10`, and in phase 2 the slack `0`
is below `-degeneps = 1/10`, so the upper bound is shifted to `fVec[0] = 0`, where it
already is. The accumulated shift is unchanged, no index has been selected, and the
assertion `leave >= 0` fails. -/
theorem selectLeave_assertion_fails :
    degenerateEps (1 / 10) 200 100 = -1 / 10 ∧
    leaveEnvelopePos (1 / 10) (10 ^ 100)
      { exampleSolver 1 (fun _ => 0) (fun _ => 1) (fun _ => 0) (fun _ => -1) with
        numCycle := 200 } 1 = 1 / 10 ∧
    (leaveScanPos (1 / 10) (10 ^ 100)
      { exampleSolver 1 (fun _ => 0) (fun _ => 1) (fun _ => 0) (fun _ => -1) with
        numCycle := 200 } 1).s.theShift = 0 ∧
    (leaveScanPos (1 / 10) (10 ^ 100)
      { exampleSolver 1 (fun _ => 0) (fun _ => 1) (fun _ => 0) (fun _ => -1) with
        numCycle := 200 } 1).leave = -1 ∧
    leaveOutcome (selectLeave (1 / 10) (10 ^ 100) 3
      { exampleSolver 1 (fun _ => 0) (fun _ => 1) (fun _ => 0) (fun _ => -1) with
        numCycle := 200 } 1) = .error .assertion := by
  refine ⟨by decide!, by decide!, by decide!, by decide!, by decide!⟩

/-- Claim C23 (evaluation at the failing input): `clearSolvingData` assigns `0` to
`luFactorizationTime`, `luSolveTime`, `iterations`, `luFactorizations`, `luSolves`,
`refinements` and `stallRefinements`, but it has no assignment to
`iterationsFromBasis` and `iterationsPrimal`: after `clearAllData`, and after the
constructor, these two hold the values they held before. A statistics object with
`iterationsFromBasis = 5` and `iterationsPrimal = 3` still has them after the call. -/
theorem clearAllData_keeps_iterationsFromBasis (st : Statistics) :
    (Statistics.clearAllData st).iterationsFromBasis = st.iterationsFromBasis ∧
    (Statistics.clearAllData st).iterationsPrimal = st.iterationsPrimal ∧
    (Statistics.construct st).iterationsFromBasis = st.iterationsFromBasis ∧
    (Statistics.construct st).iterationsPrimal = st.iterationsPrimal ∧
    (Statistics.clearAllData st).iterations = 0 ∧
    (Statistics.clearAllData st).luFactorizations = 0 ∧
    (Statistics.clearAllData st).luSolves = 0 ∧
    (Statistics.clearAllData st).refinements = 0 ∧
    (Statistics.clearAllData st).stallRefinements = 0 ∧
    (Statistics.clearAllData st).luFactorizationTime = 0 ∧
    (Statistics.clearAllData st).luSolveTime = 0 ∧
    (Statistics.clearAllData
      { readingTime := 0, solvingTime := 0, preprocessingTime := 0, simplexTime := 0,
        syncTime := 0, transformTime := 0, luFactorizationTime := 0, luSolveTime := 0,
        iterations := 7, iterationsFromBasis := 5, iterationsPrimal := 3,
        luFactorizations := 0, luSolves := 0, refinements := 0,
        stallRefinements := 0 }).iterationsFromBasis = 5 ∧
    (Statistics.clearAllData
      { readingTime := 0, solvingTime := 0, preprocessingTime := 0, simplexTime := 0,
        syncTime := 0, transformTime := 0, luFactorizationTime := 0, luSolveTime := 0,
        iterations := 7, iterationsFromBasis := 5, iterationsPrimal := 3,
        luFactorizations := 0, luSolves := 0, refinements := 0,
        stallRefinements := 0 }).iterationsPrimal = 3 :=
  ⟨rfl, rfl, rfl, rfl, rfl, rfl, rfl, rfl, rfl, rfl, rfl, rfl, rfl⟩

/-- Claim C29 (evaluation at the failing input): in the branch `val < -epsilon` of
`selectEnter` the thresholds are `rmaxabs * epsilon * 0.001` and
`cmaxabs * epsilon * 0.001` with `rmaxabs = cmaxabs = 1`, and they are not raised to
`epsilon` as in the branch `val > epsilon`: for `epsilon = 1/1000` they are
`1/1000000`. In the state `exampleEnterSolver` with `val = -2` the row with the update
value `1/2000`, of magnitude below `epsilon`, is therefore not removed from the index
list of `pupd` and is taken as a candidate (`pnr = 0`) before the column with the
update value `1` replaces it. With `val = 2` the same row is removed. -/
theorem selectEnter_thresholds_below_epsilon :
    enterUseepsNeg 1 (1 / 1000) = 1 / 1000000 ∧ enterUseepsPos 1 (1 / 1000) = 1 / 1000 ∧
    (enterPassNeg (1 / 10) (10 ^ 100) (1 / 10) exampleEnterSolver (-2) .invalid).toOption.bind
      (fun o => o.map (fun c => (c.s.pUpdIdx, c.s.pUpdVal 0, c.pnr, c.cnr, c.enterId, c.sel))) =
      some ([0], 1 / 2000, 0, 0, .coId 0, -1) ∧
    (enterPassPos (1 / 10) (10 ^ 100) (1 / 10) exampleEnterSolver 2 .invalid).toOption.bind
      (fun o => o.map (fun c => (c.s.pUpdIdx, c.s.pUpdVal 0, c.pnr, c.cnr, c.enterId, c.sel))) =
      some ([], 0, -1, 0, .coId 0, 1) := by
  refine ⟨by decide!, by decide!, by decide!, by decide!⟩

theorem leaveStepPos_settled (max useeps degeneps epsilon : ℚ) (hu : 0 ≤ useeps) (i k : ℕ)
    (c : LeaveScan) (h : k = i ∨ LeaveSettledPos useeps degeneps c.s k) :
    LeaveSettledPos useeps degeneps (leaveStepPos max useeps degeneps epsilon i c).s k := by
  by_cases h1 : c.s.updVal i > useeps
  · by_cases h2 : c.s.ubBound i - c.s.fVec i < -degeneps
    · have hs : (leaveStepPos max useeps degeneps epsilon i c).s =
          c.s.shiftUBbound i (c.s.fVec i) := by
        simp only [leaveStepPos, if_pos h1, if_pos h2]
      rw [hs]
      by_cases hki : k = i
      · subst hki
        exact ⟨fun _ _ => by simp [Solver.shiftUBbound],
          fun hn => absurd hn (by simp only [Solver.shiftUBbound]; linarith)⟩
      · rcases h with h | h
        · exact absurd h hki
        · simpa [LeaveSettledPos, Solver.shiftUBbound, Function.update_noteq hki] using h
    · have hs : (leaveStepPos max useeps degeneps epsilon i c).s = c.s := by
        simp only [leaveStepPos, if_pos h1, if_neg h2]
        split_ifs <;> rfl
      rw [hs]
      rcases h with h | h
      · subst h
        exact ⟨fun _ hy => absurd hy h2, fun hn => absurd hn (by linarith)⟩
      · exact h
  · by_cases h4 : c.s.updVal i < -useeps
    · by_cases h5 : c.s.lbBound i - c.s.fVec i > degeneps
      · have hs : (leaveStepPos max useeps degeneps epsilon i c).s =
            c.s.shiftLBbound i (c.s.fVec i) := by
          simp only [leaveStepPos, if_neg h1, if_pos h4, if_pos h5]
        rw [hs]
        by_cases hki : k = i
        · subst hki
          exact ⟨fun hn => absurd hn (by simp only [Solver.shiftLBbound]; linarith),
            fun _ _ => by simp [Solver.shiftLBbound]⟩
        · rcases h with h | h
          · exact absurd h hki
          · simpa [LeaveSettledPos, Solver.shiftLBbound, Function.update_noteq hki] using h
      · have hs : (leaveStepPos max useeps degeneps epsilon i c).s = c.s := by
          simp only [leaveStepPos, if_neg h1, if_pos h4, if_neg h5]
          split_ifs <;> rfl
        rw [hs]
        rcases h with h | h
        · subst h
          exact ⟨fun hn => absurd hn h1, fun _ hy => absurd hy h5⟩
        · exact h
    · have hs : (leaveStepPos max useeps degeneps epsilon i c).s =
          { c.s with updVal := Function.update c.s.updVal i 0 } := by
        simp only [leaveStepPos, if_neg h1, if_neg h4]
      rw [hs]
      by_cases hki : k = i
      · subst hki
        exact ⟨fun hn => absurd hn (by simp; linarith), fun hn => absurd hn (by simp; linarith)⟩
      · rcases h with h | h
        · exact absurd h hki
        · simpa [LeaveSettledPos, Function.update_noteq hki] using h

theorem leaveStepNeg_settled (max useeps degeneps epsilon : ℚ) (hu : 0 ≤ useeps) (i k : ℕ)
    (c : LeaveScan) (h : k = i ∨ LeaveSettledNeg useeps degeneps c.s k) :
    LeaveSettledNeg useeps degeneps (leaveStepNeg max useeps degeneps epsilon i c).s k := by
  by_cases h1 : c.s.updVal i < -useeps
  · by_cases h2 : c.s.ubBound i - c.s.fVec i < -degeneps
    · have hs : (leaveStepNeg max useeps degeneps epsilon i c).s =
          c.s.shiftUBbound i (c.s.fVec i) := by
        simp only [leaveStepNeg, if_pos h1, if_pos h2]
      rw [hs]
      by_cases hki : k = i
      · subst hki
        exact ⟨fun _ _ => by simp [Solver.shiftUBbound],
          fun hn => absurd hn (by simp only [Solver.shiftUBbound]; linarith)⟩
      · rcases h with h | h
        · exact absurd h hki
        · simpa [LeaveSettledNeg, Solver.shiftUBbound, Function.update_noteq hki] using h
    · have hs : (leaveStepNeg max useeps degeneps epsilon i c).s = c.s := by
        simp only [leaveStepNeg, if_pos h1, if_neg h2]
        split_ifs <;> rfl
      rw [hs]
      rcases h with h | h
      · subst h
        exact ⟨fun _ hy => absurd hy h2, fun hn => absurd hn (by linarith)⟩
      · exact h
  · by_cases h4 : c.s.updVal i > useeps
    · by_cases h5 : c.s.lbBound i - c.s.fVec i > degeneps
      · have hs : (leaveStepNeg max useeps degeneps epsilon i c).s =
            c.s.shiftLBbound i (c.s.fVec i) := by
          simp only [leaveStepNeg, if_neg h1, if_pos h4, if_pos h5]
        rw [hs]
        by_cases hki : k = i
        · subst hki
          exact ⟨fun hn => absurd hn (by simp only [Solver.shiftLBbound]; linarith),
            fun _ _ => by simp [Solver.shiftLBbound]⟩
        · rcases h with h | h
          · exact absurd h hki
          · simpa [LeaveSettledNeg, Solver.shiftLBbound, Function.update_noteq hki] using h
      · have hs : (leaveStepNeg max useeps degeneps epsilon i c).s = c.s := by
          simp only [leaveStepNeg, if_neg h1, if_pos h4, if_neg h5]
          split_ifs <;> rfl
        rw [hs]
        rcases h with h | h
        · subst h
          exact ⟨fun hn => absurd hn h1, fun _ hy => absurd hy h5⟩
        · exact h
    · have hs : (leaveStepNeg max useeps degeneps epsilon i c).s =
          { c.s with updVal := Function.update c.s.updVal i 0 } := by
        simp only [leaveStepNeg, if_neg h1, if_neg h4]
      rw [hs]
      by_cases hki : k = i
      · subst hki
        exact ⟨fun hn => absurd hn (by simp; linarith), fun hn => absurd hn (by simp; linarith)⟩
      · rcases h with h | h
        · exact absurd h hki
        · simpa [LeaveSettledNeg, Function.update_noteq hki] using h

theorem foldr_leaveStepPos_settled (max useeps degeneps epsilon : ℚ) (hu : 0 ≤ useeps)
    (c0 : LeaveScan) (k : ℕ) :
    ∀ l : List ℕ, (k ∈ l ∨ LeaveSettledPos useeps degeneps c0.s k) →
      LeaveSettledPos useeps degeneps
        (l.foldr (leaveStepPos max useeps degeneps epsilon) c0).s k := by
  intro l
  induction l with
  | nil =>
    intro h
    rcases h with h | h
    · simp at h
    · exact h
  | cons i rest ih =>
    intro h
    simp only [List.foldr_cons]
    apply leaveStepPos_settled _ _ _ _ hu
    rcases h with h | h
    · rcases List.mem_cons.mp h with h' | h'
      · exact Or.inl h'
      · exact Or.inr (ih (Or.inl h'))
    · exact Or.inr (ih (Or.inr h))

theorem foldr_leaveStepNeg_settled (max useeps degeneps epsilon : ℚ) (hu : 0 ≤ useeps)
    (c0 : LeaveScan) (k : ℕ) :
    ∀ l : List ℕ, (k ∈ l ∨ LeaveSettledNeg useeps degeneps c0.s k) →
      LeaveSettledNeg useeps degeneps
        (l.foldr (leaveStepNeg max useeps degeneps epsilon) c0).s k := by
  intro l
  induction l with
  | nil =>
    intro h
    rcases h with h | h
    · simp at h
    · exact h
  | cons i rest ih =>
    intro h
    simp only [List.foldr_cons]
    apply leaveStepNeg_settled _ _ _ _ hu
    rcases h with h | h
    · rcases List.mem_cons.mp h with h' | h'
      · exact Or.inl h'
      · exact Or.inr (ih (Or.inl h'))
    · exact Or.inr (ih (Or.inr h))

theorem leaveStepPos_settled_shift (max useeps degeneps epsilon : ℚ) (i : ℕ) (c : LeaveScan)
    (h : LeaveSettledPos useeps degeneps c.s i) :
    (leaveStepPos max useeps degeneps epsilon i c).s.theShift = c.s.theShift := by
  simp only [leaveStepPos]
  split_ifs with h1 h2 h3 h4 h5 h6
  · simp only [Solver.shiftUBbound]
    rw [h.1 h1 h2]
    ring
  · rfl
  · rfl
  · simp only [Solver.shiftLBbound]
    rw [h.2 h4 h5]
    ring
  · rfl
  · rfl
  · rfl

theorem leaveStepNeg_settled_shift (max useeps degeneps epsilon : ℚ) (i : ℕ) (c : LeaveScan)
    (h : LeaveSettledNeg useeps degeneps c.s i) :
    (leaveStepNeg max useeps degeneps epsilon i c).s.theShift = c.s.theShift := by
  simp only [leaveStepNeg]
  split_ifs with h1 h2 h3 h4 h5 h6
  · simp only [Solver.shiftUBbound]
    rw [h.1 h1 h2]
    ring
  · rfl
  · rfl
  · simp only [Solver.shiftLBbound]
    rw [h.2 h4 h5]
    ring
  · rfl
  · rfl
  · rfl

theorem foldr_leaveStepPos_settled_shift (max useeps degeneps epsilon : ℚ) (hu : 0 ≤ useeps)
    (c0 : LeaveScan) :
    ∀ l : List ℕ, (∀ k ∈ l, LeaveSettledPos useeps degeneps c0.s k) →
      (l.foldr (leaveStepPos max useeps degeneps epsilon) c0).s.theShift = c0.s.theShift := by
  intro l
  induction l with
  | nil => intro _; rfl
  | cons i rest ih =>
    intro h
    simp only [List.foldr_cons]
    rw [leaveStepPos_settled_shift _ _ _ _ _ _
      (foldr_leaveStepPos_settled max useeps degeneps epsilon hu c0 i rest
        (Or.inr (h i (List.mem_cons_self _ _))))]
    exact ih (fun k hk => h k (List.mem_cons_of_mem _ hk))

theorem foldr_leaveStepNeg_settled_shift (max useeps degeneps epsilon : ℚ) (hu : 0 ≤ useeps)
    (c0 : LeaveScan) :
    ∀ l : List ℕ, (∀ k ∈ l, LeaveSettledNeg useeps degeneps c0.s k) →
      (l.foldr (leaveStepNeg max useeps degeneps epsilon) c0).s.theShift = c0.s.theShift := by
  intro l
  induction l with
  | nil => intro _; rfl
  | cons i rest ih =>
    intro h
    simp only [List.foldr_cons]
    rw [leaveStepNeg_settled_shift _ _ _ _ _ _
      (foldr_leaveStepNeg_settled max useeps degeneps epsilon hu c0 i rest
        (Or.inr (h i (List.mem_cons_self _ _))))]
    exact ih (fun k hk => h k (List.mem_cons_of_mem _ hk))

/-- After the phase-2 loop of the branch `val > epsilon` every listed index is
settled: a second pass can only request void shifts. -/
theorem leaveScanPos_settled (delta infinity : ℚ) (s : Solver) (val : ℚ)
    (heps : 0 < s.epsilon) (k : ℕ) (hk : k ∈ s.setupUpd.updIdx) :
    LeaveSettledPos s.epsilon (degenerateEps s.solverDelta s.numCycle s.maxCycle)
      (leaveScanPos delta infinity s val).s k := by
  obtain ⟨l', hl'⟩ := leaveLoopPos_eq_foldr (leaveEnvelopePos delta infinity s val) s.epsilon
    (degenerateEps s.solverDelta s.numCycle s.maxCycle) s.epsilon s.setupUpd.updIdx.length
    { s := s.setupUpd, stab := 0, sel := -infinity, leave := -1 } le_rfl
  have hscan : leaveScanPos delta infinity s val = _ := hl'
  rw [hscan]
  simp only [List.take_length]
  exact foldr_leaveStepPos_settled (leaveEnvelopePos delta infinity s val) s.epsilon
    (degenerateEps s.solverDelta s.numCycle s.maxCycle) s.epsilon (le_of_lt heps)
    { s := s.setupUpd, stab := 0, sel := -infinity, leave := -1 } k s.setupUpd.updIdx
    (Or.inl hk)

theorem leaveScanNeg_settled (delta infinity : ℚ) (s : Solver) (val : ℚ)
    (heps : 0 < s.epsilon) (k : ℕ) (hk : k ∈ s.setupUpd.updIdx) :
    LeaveSettledNeg s.epsilon (degenerateEps s.solverDelta s.numCycle s.maxCycle)
      (leaveScanNeg delta infinity s val).s k := by
  obtain ⟨l', hl'⟩ := leaveLoopNeg_eq_foldr (leaveEnvelopeNeg delta infinity s val) s.epsilon
    (degenerateEps s.solverDelta s.numCycle s.maxCycle) s.epsilon s.setupUpd.updIdx.length
    { s := s.setupUpd, stab := 0, sel := infinity, leave := -1 } le_rfl
  have hscan : leaveScanNeg delta infinity s val = _ := hl'
  rw [hscan]
  simp only [List.take_length]
  exact foldr_leaveStepNeg_settled (leaveEnvelopeNeg delta infinity s val) s.epsilon
    (degenerateEps s.solverDelta s.numCycle s.maxCycle) s.epsilon (le_of_lt heps)
    { s := s.setupUpd, stab := 0, sel := infinity, leave := -1 } k s.setupUpd.updIdx
    (Or.inl hk)

/-- From a state in which every listed index is settled, the phase-2 loop of the
branch `val > epsilon` leaves the accumulated shift as it is. -/
theorem leaveScanPos_settled_shift (delta infinity : ℚ) (s : Solver) (val : ℚ)
    (heps : 0 < s.epsilon)
    (h : ∀ k ∈ s.setupUpd.updIdx,
      LeaveSettledPos s.epsilon (degenerateEps s.solverDelta s.numCycle s.maxCycle) s k) :
    (leaveScanPos delta infinity s val).s.theShift = s.theShift := by
  obtain ⟨l', hl'⟩ := leaveLoopPos_eq_foldr (leaveEnvelopePos delta infinity s val) s.epsilon
    (degenerateEps s.solverDelta s.numCycle s.maxCycle) s.epsilon s.setupUpd.updIdx.length
    { s := s.setupUpd, stab := 0, sel := -infinity, leave := -1 } le_rfl
  have hscan : leaveScanPos delta infinity s val = _ := hl'
  rw [hscan]
  simp only [List.take_length]
  exact foldr_leaveStepPos_settled_shift (leaveEnvelopePos delta infinity s val) s.epsilon
    (degenerateEps s.solverDelta s.numCycle s.maxCycle) s.epsilon (le_of_lt heps)
    { s := s.setupUpd, stab := 0, sel := -infinity, leave := -1 } s.setupUpd.updIdx h

theorem leaveScanNeg_settled_shift (delta infinity : ℚ) (s : Solver) (val : ℚ)
    (heps : 0 < s.epsilon)
    (h : ∀ k ∈ s.setupUpd.updIdx,
      LeaveSettledNeg s.epsilon (degenerateEps s.solverDelta s.numCycle s.maxCycle) s k) :
    (leaveScanNeg delta infinity s val).s.theShift = s.theShift := by
  obtain ⟨l', hl'⟩ := leaveLoopNeg_eq_foldr (leaveEnvelopeNeg delta infinity s val) s.epsilon
    (degenerateEps s.solverDelta s.numCycle s.maxCycle) s.epsilon s.setupUpd.updIdx.length
    { s := s.setupUpd, stab := 0, sel := infinity, leave := -1 } le_rfl
  have hscan : leaveScanNeg delta infinity s val = _ := hl'
  rw [hscan]
  simp only [List.take_length]
  exact foldr_leaveStepNeg_settled_shift (leaveEnvelopeNeg delta infinity s val) s.epsilon
    (degenerateEps s.solverDelta s.numCycle s.maxCycle) s.epsilon (le_of_lt heps)
    { s := s.setupUpd, stab := 0, sel := infinity, leave := -1 } s.setupUpd.updIdx h

theorem selectLeave_settled (delta infinity : ℚ) (fuel : ℕ) (s : Solver) (val : ℚ)
    (hpos : val > s.epsilon → ∀ k ∈ s.setupUpd.updIdx,
      LeaveSettledPos s.epsilon (degenerateEps s.solverDelta s.numCycle s.maxCycle) s k)
    (hneg : val < -s.epsilon → ∀ k ∈ s.setupUpd.updIdx,
      LeaveSettledNeg s.epsilon (degenerateEps s.solverDelta s.numCycle s.maxCycle) s k) :
    selectLeave delta infinity (fuel + 1) s val = selectLeave delta infinity 1 s val ∧
      selectLeave delta infinity 1 s val ≠ .error .fuel := by
  by_cases hassert : delta > s.epsilon ∧ s.epsilon > 0 ∧ s.maxCycle > 0
  · have heps : 0 < s.epsilon := hassert.2.1
    by_cases hp : val > s.epsilon
    · have hsh := leaveScanPos_settled_shift delta infinity s val heps (hpos hp)
      rw [selectLeave_pos delta infinity fuel s val hassert hp,
        selectLeave_pos delta infinity 0 s val hassert hp]
      simp only [hsh, ne_eq, not_true_eq_false, if_false, true_and]
      split_ifs <;> simp
    · by_cases hn : val < -s.epsilon
      · have hsh := leaveScanNeg_settled_shift delta infinity s val heps (hneg hn)
        rw [selectLeave_neg delta infinity fuel s val hassert hn,
          selectLeave_neg delta infinity 0 s val hassert hn]
        simp only [hsh, ne_eq, not_true_eq_false, if_false, true_and]
        split_ifs <;> simp
      · rw [selectLeave_mid delta infinity fuel s val hassert hp hn,
          selectLeave_mid delta infinity 0 s val hassert hp hn]
        simp
  · have h1 : ∀ n, selectLeave delta infinity (n + 1) s val = .error .assertion := by
      intro n
      simp only [selectLeave, hassert, not_false_eq_true, if_true]
    rw [h1 fuel, h1 0]
    simp

/-- Claim C21: the retry recursion of `selectLeave` terminates, for every solver state
and every update vector, after at most one re-run. The first argument of the model
is the number of passes it may make (one more than the number of re-runs): with two
passes the call never runs out of passes, and every larger number gives the same
result; in particular this holds for `n + 2` passes, that is `n + 1` re-runs, where `n`
is the number of listed indices. After the first pass every listed index is settled
(its bound was shifted to `fVec[i]` or needs no shift), so the second pass requests
only shifts that move nothing and leaves the accumulated shift unchanged. -/
theorem selectLeave_terminates (delta infinity : ℚ) (fuel : ℕ) (s : Solver) (val : ℚ) :
    selectLeave delta infinity (fuel + 2) s val = selectLeave delta infinity 2 s val ∧
      selectLeave delta infinity 2 s val ≠ .error .fuel ∧
      selectLeave delta infinity (s.setupUpd.updIdx.length + 2) s val ≠ .error .fuel := by
  have key : ∀ n : ℕ, selectLeave delta infinity (n + 2) s val =
      selectLeave delta infinity 2 s val ∧
      selectLeave delta infinity 2 s val ≠ .error .fuel := by
    intro n
    by_cases hassert : delta > s.epsilon ∧ s.epsilon > 0 ∧ s.maxCycle > 0
    · have heps : 0 < s.epsilon := hassert.2.1
      by_cases hp : val > s.epsilon
      · obtain ⟨hfr, _, _⟩ := leaveScanPos_spec delta infinity s val heps
        obtain ⟨_, b2, b3, b4, b5, b6, b7⟩ := hfr
        have hset := selectLeave_settled delta infinity n (leaveScanPos delta infinity s val).s
          val
          (by
            intro _ k hk
            rw [b2, b3, b4, b5]
            apply leaveScanPos_settled delta infinity s val heps k
            obtain ⟨h1, h2⟩ := (Solver.mem_setupUpd _ k).mp hk
            refine (Solver.mem_setupUpd s k).mpr ⟨by rw [← b6]; exact h1, ?_⟩
            intro h0
            rcases b7 k with h7 | ⟨h7, _⟩
            · exact h2 (by rw [h7, h0])
            · exact h2 h7)
          (by
            intro hn
            rw [b2] at hn
            linarith)
        rw [selectLeave_pos delta infinity (n + 1) s val hassert hp,
          selectLeave_pos delta infinity 1 s val hassert hp]
        split_ifs with h1 h2 h3
        · simp
        · exact ⟨hset.1, hset.2⟩
        · simp
        · simp
      · by_cases hn : val < -s.epsilon
        · obtain ⟨hfr, _, _⟩ := leaveScanNeg_spec delta infinity s val heps
          obtain ⟨_, b2, b3, b4, b5, b6, b7⟩ := hfr
          have hset := selectLeave_settled delta infinity n
            (leaveScanNeg delta infinity s val).s val
            (by
              intro hp'
              rw [b2] at hp'
              exact absurd hp' hp)
            (by
              intro _ k hk
              rw [b2, b3, b4, b5]
              apply leaveScanNeg_settled delta infinity s val heps k
              obtain ⟨h1, h2⟩ := (Solver.mem_setupUpd _ k).mp hk
              refine (Solver.mem_setupUpd s k).mpr ⟨by rw [← b6]; exact h1, ?_⟩
              intro h0
              rcases b7 k with h7 | ⟨h7, _⟩
              · exact h2 (by rw [h7, h0])
              · exact h2 h7)
          rw [selectLeave_neg delta infinity (n + 1) s val hassert hn,
            selectLeave_neg delta infinity 1 s val hassert hn]
          split_ifs with h1 h2 h3
          · simp
          · exact ⟨hset.1, hset.2⟩
          · simp
          · simp
        · rw [selectLeave_mid delta infinity (n + 1) s val hassert hp hn,
            selectLeave_mid delta infinity 1 s val hassert hp hn]
          simp
    · have h1 : ∀ m, selectLeave delta infinity (m + 1) s val = .error .assertion := by
        intro m
        simp only [selectLeave, hassert, not_false_eq_true, if_true]
      rw [h1 (n + 1), h1 1]
      simp
  refine ⟨(key fuel).1, (key fuel).2, ?_⟩
  rw [(key s.setupUpd.updIdx.length).1]
  exact (key 0).2

theorem foldr_pickStep_selects (max useeps epsilon : ℚ) (a y : ℕ → ℚ) (st0 : ℚ × ℚ × ℤ)
    (hst : st0.1 ≤ useeps) (l : List ℕ)
    (hlow : ∀ i ∈ l, useeps < a i → y i ≤ max → st0.2.1 - epsilon < y i)
    (hex : ∃ i ∈ l, useeps < a i ∧ y i ≤ max) :
    st0.1 < (l.foldr (pickStep max useeps epsilon a y) st0).1 := by
  induction l with
  | nil =>
    obtain ⟨i, hi, _⟩ := hex
    simp at hi
  | cons i rest ih =>
    have hlow' : ∀ j ∈ rest, useeps < a j → y j ≤ max → st0.2.1 - epsilon < y j :=
      fun j hj => hlow j (List.mem_cons_of_mem _ hj)
    obtain ⟨hform, _⟩ := foldr_pickStep_best max useeps epsilon a y st0 rest hlow'
    simp only [List.foldr_cons]
    set st := rest.foldr (pickStep max useeps epsilon a y) st0 with hst'
    by_cases hc : useeps < a i ∧ y i ≤ max ∧ y i > st.2.1 - epsilon ∧ a i > st.1
    · have hp : pickStep max useeps epsilon a y i st = (a i, y i, (i : ℤ)) := by
        simp only [pickStep, if_pos hc]
      rw [hp]
      exact lt_of_le_of_lt hst hc.1
    · have hp : pickStep max useeps epsilon a y i st = st := by
        simp only [pickStep, if_neg hc]
      rw [hp]
      rcases hform with h | ⟨k, _, h, hka, _⟩
      · obtain ⟨j, hj, hja, hjy⟩ := hex
        rcases List.mem_cons.mp hj with rfl | hj'
        · exfalso
          apply hc
          rw [h]
          exact ⟨hja, hjy, hlow j (List.mem_cons_self _ _) hja hjy, lt_of_le_of_lt hst hja⟩
        · exact ih hlow' ⟨j, hj', hja, hjy⟩
      · rw [h]
        exact lt_of_le_of_lt hst hka

theorem minDelta_loop_attained (delta infinity epsilon : ℚ) (upd vec low up : ℕ → ℚ)
    (st0 : DeltaLoop) (idx : List ℕ) :
    (idx.foldr (minDeltaBody delta infinity epsilon upd vec low up) st0).theval = st0.theval ∨
    ∃ i ∈ idx,
      (upd i > epsilon ∧ low i > -infinity ∧
        (idx.foldr (minDeltaBody delta infinity epsilon upd vec low up) st0).theval =
          (low i - vec i - delta) / upd i) ∨
      (¬ upd i > epsilon ∧ upd i < -epsilon ∧ up i < infinity ∧
        (idx.foldr (minDeltaBody delta infinity epsilon upd vec low up) st0).theval =
          (up i - vec i + delta) / upd i) := by
  induction idx with
  | nil => exact Or.inl rfl
  | cons i rest ih =>
    simp only [List.foldr_cons]
    set st := rest.foldr (minDeltaBody delta infinity epsilon upd vec low up) st0 with hst
    have hkeep : (minDeltaBody delta infinity epsilon upd vec low up i st).theval = st.theval →
        (minDeltaBody delta infinity epsilon upd vec low up i st).theval = st0.theval ∨
        ∃ k ∈ i :: rest,
          (upd k > epsilon ∧ low k > -infinity ∧
            (minDeltaBody delta infinity epsilon upd vec low up i st).theval =
              (low k - vec k - delta) / upd k) ∨
          (¬ upd k > epsilon ∧ upd k < -epsilon ∧ up k < infinity ∧
            (minDeltaBody delta infinity epsilon upd vec low up i st).theval =
              (up k - vec k + delta) / upd k) := by
      intro he
      rw [he]
      rcases ih with h | ⟨k, hk, h⟩
      · exact Or.inl h
      · exact Or.inr ⟨k, List.mem_cons_of_mem _ hk, h⟩
    by_cases h1 : upd i > epsilon
    · by_cases h2 : (low i - vec i - delta) / upd i > st.theval ∧ low i > -infinity
      · right
        refine ⟨i, List.mem_cons_self _ _, Or.inl ⟨h1, h2.2, ?_⟩⟩
        simp only [minDeltaBody, if_pos h1, if_pos h2]
      · apply hkeep
        simp only [minDeltaBody, if_pos h1, if_neg h2]
    · by_cases h3 : upd i < -epsilon
      · by_cases h4 : (up i - vec i + delta) / upd i > st.theval ∧ up i < infinity
        · right
          refine ⟨i, List.mem_cons_self _ _, Or.inr ⟨h1, h3, h4.2, ?_⟩⟩
          simp only [minDeltaBody, if_neg h1, if_pos h3, if_pos h4]
        · apply hkeep
          simp only [minDeltaBody, if_neg h1, if_pos h3, if_neg h4]
      · apply hkeep
        simp only [minDeltaBody, if_neg h1, if_neg h3]

/-- The assertion `leave >= 0` of `selectLeave` in the branch `val > epsilon`: when
`delta > epsilon > 0`, `0 ≤ degenerateEps() ≤ epsilon * infinity`, phase 1 has improved
the envelope and phase 2 has left the accumulated shift unchanged, phase 2 has selected
an index. -/
theorem leaveScanPos_selects (delta infinity : ℚ) (s : Solver) (val : ℚ)
    (hdel : delta > s.epsilon) (heps : 0 < s.epsilon)
    (hd : 0 ≤ degenerateEps s.solverDelta s.numCycle s.maxCycle)
    (hinf : degenerateEps s.solverDelta s.numCycle s.maxCycle ≤ s.epsilon * infinity)
    (hne : leaveEnvelopePos delta infinity s val ≠ val)
    (hns : (leaveScanPos delta infinity s val).s.theShift = s.theShift) :
    0 ≤ (leaveScanPos delta infinity s val).leave := by
  obtain ⟨l', hl'⟩ := leaveLoopPos_eq_foldr (leaveEnvelopePos delta infinity s val) s.epsilon
    (degenerateEps s.solverDelta s.numCycle s.maxCycle) s.epsilon s.setupUpd.updIdx.length
    { s := s.setupUpd, stab := 0, sel := -infinity, leave := -1 } le_rfl
  have hscan : leaveScanPos delta infinity s val = _ := hl'
  rw [hscan] at hns ⊢
  simp only [List.take_length] at hns ⊢
  obtain ⟨hrel, hslack⟩ := foldr_leaveStepPos_pick (leaveEnvelopePos delta infinity s val)
    s.epsilon (degenerateEps s.solverDelta s.numCycle s.maxCycle) s.epsilon heps hd
    { s := s.setupUpd, stab := 0, sel := -infinity, leave := -1 } s.setupUpd.updIdx hns
  have hslack' : ∀ i ∈ s.setupUpd.updIdx,
      (s.epsilon < s.updVal i → -degenerateEps s.solverDelta s.numCycle s.maxCycle ≤
        s.ubBound i - s.fVec i) ∧
      (s.updVal i < -s.epsilon → s.lbBound i - s.fVec i ≤
        degenerateEps s.solverDelta s.numCycle s.maxCycle) := hslack
  have hlow : ∀ i ∈ s.setupUpd.updIdx, s.epsilon < |s.updVal i| →
      leaveTrueStepPos s i ≤ leaveEnvelopePos delta infinity s val →
      -infinity - s.epsilon < leaveTrueStepPos s i := by
    intro i hi ha _
    obtain ⟨hs1, hs2⟩ := hslack' i hi
    by_cases hx : 0 < s.updVal i
    · rw [abs_of_pos hx] at ha
      simp only [leaveTrueStepPos, if_pos hx]
      exact step_above_minus_infinity _ _ _ _ _ heps hd hinf ha (hs1 ha)
    · have hx' : s.updVal i < -s.epsilon := by
        rcases abs_cases (s.updVal i) with ⟨h, _⟩ | ⟨h, _⟩
        · rw [h] at ha
          linarith
        · rw [h] at ha
          linarith
      simp only [leaveTrueStepPos, if_neg hx]
      rw [← neg_div_neg_eq]
      exact step_above_minus_infinity _ _ _ _ _ heps hd hinf (by linarith)
        (by linarith [hs2 hx'])
  have hex : ∃ i ∈ s.setupUpd.updIdx, s.epsilon < |s.updVal i| ∧
      leaveTrueStepPos s i ≤ leaveEnvelopePos delta infinity s val := by
    have hcand := (maxDelta_loop_least delta infinity s.epsilon s.updVal s.fVec s.lbBound
      s.ubBound (le_of_lt heps) { theval := val, themax := 0 } s.setupUpd.updIdx).2.2
    rcases hcand with h | ⟨i, hi, hx, _, hc⟩ | ⟨i, hi, hx, _, hc⟩
    · exact absurd h hne
    · have hpos : 0 < s.updVal i := by linarith
      refine ⟨i, hi, by rw [abs_of_pos hpos]; exact hx, ?_⟩
      have hc' : leaveEnvelopePos delta infinity s val =
          (s.ubBound i - s.fVec i + delta) / s.updVal i := hc
      rw [hc']
      simp only [leaveTrueStepPos, if_pos hpos]
      exact div_le_div_of_nonneg_right (by linarith) (le_of_lt hpos)
    · have hneg : s.updVal i < 0 := by linarith
      refine ⟨i, hi, by rw [abs_of_neg hneg]; linarith, ?_⟩
      have hc' : leaveEnvelopePos delta infinity s val =
          (s.lbBound i - s.fVec i - delta) / s.updVal i := hc
      rw [hc']
      simp only [leaveTrueStepPos, if_neg (not_lt.mpr (le_of_lt hneg))]
      exact div_le_div_of_nonpos_of_le (le_of_lt hneg) (by linarith)
  have hsel := foldr_pickStep_selects (leaveEnvelopePos delta infinity s val) s.epsilon
    s.epsilon (fun j => |s.updVal j|) (leaveTrueStepPos s) (0, -infinity, -1)
    (le_of_lt heps) s.setupUpd.updIdx hlow hex
  obtain ⟨hc, _⟩ := foldr_pickStep_best (leaveEnvelopePos delta infinity s val) s.epsilon
    s.epsilon (fun j => |s.updVal j|) (leaveTrueStepPos s) (0, -infinity, -1)
    s.setupUpd.updIdx hlow
  have hrel' : ((s.setupUpd.updIdx.foldr (leaveStepPos (leaveEnvelopePos delta infinity s val)
      s.epsilon (degenerateEps s.solverDelta s.numCycle s.maxCycle) s.epsilon)
      { s := s.setupUpd, stab := 0, sel := -infinity, leave := -1 }).stab,
      (s.setupUpd.updIdx.foldr (leaveStepPos (leaveEnvelopePos delta infinity s val)
      s.epsilon (degenerateEps s.solverDelta s.numCycle s.maxCycle) s.epsilon)
      { s := s.setupUpd, stab := 0, sel := -infinity, leave := -1 }).sel,
      (s.setupUpd.updIdx.foldr (leaveStepPos (leaveEnvelopePos delta infinity s val)
      s.epsilon (degenerateEps s.solverDelta s.numCycle s.maxCycle) s.epsilon)
      { s := s.setupUpd, stab := 0, sel := -infinity, leave := -1 }).leave) =
      s.setupUpd.updIdx.foldr (pickStep (leaveEnvelopePos delta infinity s val) s.epsilon
        s.epsilon (fun j => |s.updVal j|) (leaveTrueStepPos s)) (0, -infinity, -1) := hrel
  rcases hc with hc | ⟨k, _, hc, _, _⟩
  · rw [hc] at hsel
    exact absurd hsel (lt_irrefl _)
  · rw [hc] at hrel'
    simp only [Prod.mk.injEq] at hrel'
    show 0 ≤ (s.setupUpd.updIdx.foldr (leaveStepPos (leaveEnvelopePos delta infinity s val)
      s.epsilon (degenerateEps s.solverDelta s.numCycle s.maxCycle) s.epsilon)
      { s := s.setupUpd, stab := 0, sel := -infinity, leave := -1 }).leave
    rw [hrel'.2.2]
    exact Int.natCast_nonneg k

/-- The assertion `leave >= 0` of `selectLeave` in the branch `val < -epsilon`, under
the same conditions. -/
theorem leaveScanNeg_selects (delta infinity : ℚ) (s : Solver) (val : ℚ)
    (hdel : delta > s.epsilon) (heps : 0 < s.epsilon)
    (hd : 0 ≤ degenerateEps s.solverDelta s.numCycle s.maxCycle)
    (hinf : degenerateEps s.solverDelta s.numCycle s.maxCycle ≤ s.epsilon * infinity)
    (hne : leaveEnvelopeNeg delta infinity s val ≠ val)
    (hns : (leaveScanNeg delta infinity s val).s.theShift = s.theShift) :
    0 ≤ (leaveScanNeg delta infinity s val).leave := by
  obtain ⟨l', hl'⟩ := leaveLoopNeg_eq_foldr (leaveEnvelopeNeg delta infinity s val) s.epsilon
    (degenerateEps s.solverDelta s.numCycle s.maxCycle) s.epsilon s.setupUpd.updIdx.length
    { s := s.setupUpd, stab := 0, sel := infinity, leave := -1 } le_rfl
  have hscan : leaveScanNeg delta infinity s val = _ := hl'
  rw [hscan] at hns ⊢
  simp only [List.take_length] at hns ⊢
  obtain ⟨hrel, hslack⟩ := foldr_leaveStepNeg_pick (leaveEnvelopeNeg delta infinity s val)
    s.epsilon (degenerateEps s.solverDelta s.numCycle s.maxCycle) s.epsilon heps hd
    { s := s.setupUpd, stab := 0, sel := infinity, leave := -1 } s.setupUpd.updIdx hns
  have hslack' : ∀ i ∈ s.setupUpd.updIdx,
      (s.updVal i < -s.epsilon → -degenerateEps s.solverDelta s.numCycle s.maxCycle ≤
        s.ubBound i - s.fVec i) ∧
      (s.epsilon < s.updVal i → s.lbBound i - s.fVec i ≤
        degenerateEps s.solverDelta s.numCycle s.maxCycle) := hslack
  have hlow : ∀ i ∈ s.setupUpd.updIdx, s.epsilon < |s.updVal i| →
      -leaveTrueStepNeg s i ≤ -leaveEnvelopeNeg delta infinity s val →
      -infinity - s.epsilon < -leaveTrueStepNeg s i := by
    intro i hi ha _
    obtain ⟨hs1, hs2⟩ := hslack' i hi
    by_cases hx : s.updVal i < 0
    · rw [abs_of_neg hx] at ha
      simp only [leaveTrueStepNeg, if_pos hx]
      rw [← div_neg]
      exact step_above_minus_infinity _ _ _ _ _ heps hd hinf ha (hs1 (by linarith))
    · have hx' : s.epsilon < s.updVal i := by
        rcases abs_cases (s.updVal i) with ⟨h, _⟩ | ⟨h, _⟩
        · rw [h] at ha
          exact ha
        · rw [h] at ha
          linarith
      simp only [leaveTrueStepNeg, if_neg hx]
      rw [← neg_div]
      exact step_above_minus_infinity _ _ _ _ _ heps hd hinf hx'
        (by linarith [hs2 hx'])
  have hex : ∃ i ∈ s.setupUpd.updIdx, s.epsilon < |s.updVal i| ∧
      -leaveTrueStepNeg s i ≤ -leaveEnvelopeNeg delta infinity s val := by
    have hcand := minDelta_loop_attained delta infinity s.epsilon s.updVal s.fVec s.lbBound
      s.ubBound { theval := val, themax := 0 } s.setupUpd.updIdx
    rcases hcand with h | ⟨i, hi, ⟨hx, _, hc⟩ | ⟨_, hx, _, hc⟩⟩
    · exact absurd h hne
    · have hpos : 0 < s.updVal i := by linarith
      refine ⟨i, hi, by rw [abs_of_pos hpos]; exact hx, ?_⟩
      have hc' : leaveEnvelopeNeg delta infinity s val =
          (s.lbBound i - s.fVec i - delta) / s.updVal i := hc
      rw [hc']
      simp only [leaveTrueStepNeg, if_neg (not_lt.mpr (le_of_lt hpos))]
      exact neg_le_neg (div_le_div_of_nonneg_right (by linarith) (le_of_lt hpos))
    · have hneg : s.updVal i < 0 := by linarith
      refine ⟨i, hi, by rw [abs_of_neg hneg]; linarith, ?_⟩
      have hc' : leaveEnvelopeNeg delta infinity s val =
          (s.ubBound i - s.fVec i + delta) / s.updVal i := hc
      rw [hc']
      simp only [leaveTrueStepNeg, if_pos hneg]
      exact neg_le_neg (div_le_div_of_nonpos_of_le (le_of_lt hneg) (by linarith))
  have hsel := foldr_pickStep_selects (-leaveEnvelopeNeg delta infinity s val) s.epsilon
    s.epsilon (fun j => |s.updVal j|) (fun j => -leaveTrueStepNeg s j) (0, -infinity, -1)
    (le_of_lt heps) s.setupUpd.updIdx hlow hex
  obtain ⟨hc, _⟩ := foldr_pickStep_best (-leaveEnvelopeNeg delta infinity s val) s.epsilon
    s.epsilon (fun j => |s.updVal j|) (fun j => -leaveTrueStepNeg s j) (0, -infinity, -1)
    s.setupUpd.updIdx hlow
  have hrel' : ((s.setupUpd.updIdx.foldr (leaveStepNeg (leaveEnvelopeNeg delta infinity s val)
      s.epsilon (degenerateEps s.solverDelta s.numCycle s.maxCycle) s.epsilon)
      { s := s.setupUpd, stab := 0, sel := infinity, leave := -1 }).stab,
      -(s.setupUpd.updIdx.foldr (leaveStepNeg (leaveEnvelopeNeg delta infinity s val)
      s.epsilon (degenerateEps s.solverDelta s.numCycle s.maxCycle) s.epsilon)
      { s := s.setupUpd, stab := 0, sel := infinity, leave := -1 }).sel,
      (s.setupUpd.updIdx.foldr (leaveStepNeg (leaveEnvelopeNeg delta infinity s val)
      s.epsilon (degenerateEps s.solverDelta s.numCycle s.maxCycle) s.epsilon)
      { s := s.setupUpd, stab := 0, sel := infinity, leave := -1 }).leave) =
      s.setupUpd.updIdx.foldr (pickStep (-leaveEnvelopeNeg delta infinity s val) s.epsilon
        s.epsilon (fun j => |s.updVal j|) (fun j => -leaveTrueStepNeg s j))
        (0, -infinity, -1) := hrel
  rcases hc with hc | ⟨k, _, hc, _, _⟩
  · rw [hc] at hsel
    exact absurd hsel (lt_irrefl _)
  · rw [hc] at hrel'
    simp only [Prod.mk.injEq] at hrel'
    show 0 ≤ (s.setupUpd.updIdx.foldr (leaveStepNeg (leaveEnvelopeNeg delta infinity s val)
      s.epsilon (degenerateEps s.solverDelta s.numCycle s.maxCycle) s.epsilon)
      { s := s.setupUpd, stab := 0, sel := infinity, leave := -1 }).leave
    rw [hrel'.2.2]
    exact Int.natCast_nonneg k

/-- With `delta > epsilon > 0`, `maxCycle > 0` and `0 ≤ degenerateEps() ≤ epsilon *
infinity` the assertion `leave >= 0` at the end of `selectLeave` never fails: no call
ends in an assertion error. -/
theorem selectLeave_no_assertion_error (delta infinity : ℚ) :
    ∀ (fuel : ℕ) (s : Solver) (val : ℚ),
      delta > s.epsilon ∧ s.epsilon > 0 ∧ s.maxCycle > 0 →
      0 ≤ degenerateEps s.solverDelta s.numCycle s.maxCycle →
      degenerateEps s.solverDelta s.numCycle s.maxCycle ≤ s.epsilon * infinity →
      selectLeave delta infinity fuel s val ≠ .error .assertion := by
  intro fuel
  induction fuel with
  | zero =>
    intro s val _ _ _
    simp [selectLeave]
  | succ fuel ih =>
    intro s val hassert hd hinf
    have heps : 0 < s.epsilon := hassert.2.1
    by_cases hp : val > s.epsilon
    · rw [selectLeave_pos delta infinity fuel s val hassert hp]
      obtain ⟨⟨_, b2, b3, b4, b5, _, _⟩, _, _⟩ := leaveScanPos_spec delta infinity s val heps
      split_ifs with h1 h2 h3
      · simp
      · apply ih
        · rw [b2, b5]
          exact hassert
        · rw [b3, b4, b5]
          exact hd
        · rw [b2, b3, b4, b5]
          exact hinf
      · simp
      · exact absurd (leaveScanPos_selects delta infinity s val hassert.1 heps hd hinf h1
          (not_not.mp h2).symm) h3
    · by_cases hn : val < -s.epsilon
      · rw [selectLeave_neg delta infinity fuel s val hassert hn]
        obtain ⟨⟨_, b2, b3, b4, b5, _, _⟩, _, _⟩ := leaveScanNeg_spec delta infinity s val heps
        split_ifs with h1 h2 h3
        · simp
        · apply ih
          · rw [b2, b5]
            exact hassert
          · rw [b3, b4, b5]
            exact hd
          · rw [b2, b3, b4, b5]
            exact hinf
        · simp
        · exact absurd (leaveScanNeg_selects delta infinity s val hassert.1 heps hd hinf h1
            (not_not.mp h2).symm) h3
      · rw [selectLeave_mid delta infinity fuel s val hassert hp hn]
        simp

theorem minDelta_mirror_body (delta infinity epsilon : ℚ) (heps : 0 ≤ epsilon)
    (upd vec low up : ℕ → ℚ) (i : ℕ) (st st' : DeltaLoop) (h : st'.theval = -st.theval) :
    (maxDeltaBody delta infinity epsilon (fun k => -upd k) vec low up i st').theval =
      -(minDeltaBody delta infinity epsilon upd vec low up i st).theval := by
  by_cases h1 : upd i > epsilon
  · have h1' : ¬ (-upd i > epsilon) := by linarith
    have h2' : -upd i < -epsilon := by linarith
    have hc : (low i - vec i - delta) / -upd i = -((low i - vec i - delta) / upd i) := by
      rw [div_neg]
    by_cases h3 : (low i - vec i - delta) / upd i > st.theval ∧ low i > -infinity
    · have h3' : (low i - vec i - delta) / -upd i < st'.theval ∧ low i > -infinity := by
        rw [hc, h]
        exact ⟨by linarith [h3.1], h3.2⟩
      simp only [maxDeltaBody, minDeltaBody, if_neg h1', if_pos h2', if_pos h3', if_pos h1,
        if_pos h3]
      exact hc
    · have h3' : ¬ ((low i - vec i - delta) / -upd i < st'.theval ∧ low i > -infinity) := by
        rw [hc, h]
        exact fun hh => h3 ⟨by linarith [hh.1], hh.2⟩
      simp only [maxDeltaBody, minDeltaBody, if_neg h1', if_pos h2', if_neg h3', if_pos h1,
        if_neg h3]
      exact h
  · by_cases h2 : upd i < -epsilon
    · have h2' : -upd i > epsilon := by linarith
      have hc : (up i - vec i + delta) / -upd i = -((up i - vec i + delta) / upd i) := by
        rw [div_neg]
      by_cases h3 : (up i - vec i + delta) / upd i > st.theval ∧ up i < infinity
      · have h3' : (up i - vec i + delta) / -upd i < st'.theval ∧ up i < infinity := by
          rw [hc, h]
          exact ⟨by linarith [h3.1], h3.2⟩
        simp only [maxDeltaBody, minDeltaBody, if_pos h2', if_pos h3', if_neg h1, if_pos h2,
          if_pos h3]
        exact hc
      · have h3' : ¬ ((up i - vec i + delta) / -upd i < st'.theval ∧ up i < infinity) := by
          rw [hc, h]
          exact fun hh => h3 ⟨by linarith [hh.1], hh.2⟩
        simp only [maxDeltaBody, minDeltaBody, if_pos h2', if_neg h3', if_neg h1, if_pos h2,
          if_neg h3]
        exact h
    · have h1' : ¬ (-upd i > epsilon) := by linarith
      have h2' : ¬ (-upd i < -epsilon) := by linarith
      simp only [maxDeltaBody, minDeltaBody, if_neg h1', if_neg h2', if_neg h1, if_neg h2]
      exact h

theorem minDelta_mirror_loop (delta infinity epsilon : ℚ) (heps : 0 ≤ epsilon)
    (upd vec low up : ℕ → ℚ) (val : ℚ) (idx : List ℕ) :
    (idx.foldr (maxDeltaBody delta infinity epsilon (fun k => -upd k) vec low up)
      { theval := -val, themax := 0 }).theval =
      -(idx.foldr (minDeltaBody delta infinity epsilon upd vec low up)
        { theval := val, themax := 0 }).theval := by
  induction idx with
  | nil => rfl
  | cons i rest ih =>
    simp only [List.foldr_cons]
    exact minDelta_mirror_body delta infinity epsilon heps upd vec low up i _ _ ih

/-- Claim C34: `minDelta` is the mirror image of `maxDelta`: for every `val < 0` (and
`epsilon ≥ 0`), every index list, update vector, current vector and bounds, both calls
pass their assertions and return, and the value written by
`minDelta(val, upd, vec, low, up)` is the negation of the value written by
`maxDelta(-val, -upd, vec, low, up)`, with the same `delta` and `epsilon`; the returned
index and the `max` argument are the same for both. -/
theorem minDelta_mirror (delta infinity max val : ℚ) (idx : List ℕ) (upd vec low up : ℕ → ℚ)
    (epsilon : ℚ) (hval : val < 0) (heps : 0 ≤ epsilon) :
    ∃ rmin rmax : DeltaResult,
      minDelta delta infinity max val idx upd vec low up epsilon = .ok rmin ∧
      maxDelta delta infinity max (-val) idx (fun k => -upd k) vec low up epsilon = .ok rmax ∧
      rmin.val = -rmax.val ∧ rmin.sel = rmax.sel ∧ rmin.max = rmax.max := by
  refine ⟨_, _, minDelta_eq delta infinity max val idx upd vec low up epsilon hval,
    maxDelta_eq delta infinity max (-val) idx (fun k => -upd k) vec low up epsilon
      (by linarith), ?_, rfl, rfl⟩
  show _ = -(idx.foldr (maxDeltaBody delta infinity epsilon (fun k => -upd k) vec low up)
      { theval := -val, themax := 0 }).theval
  rw [minDelta_mirror_loop delta infinity epsilon heps upd vec low up val idx]
  ring

/-- Witness for C34: one index with `upd = -1`, `vec = 0`, `up = 1/2`, `delta = 1/10` and
`val = -1`; `minDelta` writes `-3/5` and `maxDelta` on the mirrored input writes `3/5`. -/
theorem minDelta_mirror_witness :
    minDelta (1 / 10) (10 ^ 100) 1 (-1) [0] (fun _ => -1) (fun _ => 0) (fun _ => 0)
      (fun _ => 1 / 2) (1 / 1000) = .ok { sel := -1, max := 1, val := -3 / 5 } ∧
    ∃ rmin rmax : DeltaResult,
      minDelta (1 / 10) (10 ^ 100) 1 (-1) [0] (fun _ => -1) (fun _ => 0) (fun _ => 0)
        (fun _ => 1 / 2) (1 / 1000) = .ok rmin ∧
      maxDelta (1 / 10) (10 ^ 100) 1 (-(-1)) [0] (fun k => -(fun _ => (-1 : ℚ)) k)
        (fun _ => 0) (fun _ => 0) (fun _ => 1 / 2) (1 / 1000) = .ok rmax ∧
      rmin.val = -rmax.val ∧ rmin.sel = rmax.sel ∧ rmin.max = rmax.max :=
  ⟨by decide!, minDelta_mirror (1 / 10) (10 ^ 100) 1 (-1) [0] (fun _ => -1) (fun _ => 0)
    (fun _ => 0) (fun _ => 1 / 2) (1 / 1000) (by norm_num) (by norm_num)⟩

/-- Claim C37: without a scaler (`thescaler == 0`) `qualConstraintViolationUnscaled` and
`qualBoundViolationUnscaled` return `maxviol = 0` and `sumviol = 0` for every number
of rows and columns and every primal vector, also for a primal vector that violates
rows and bounds: for the rows `x0 ∈ [0, 2]`, `x0 + x1 ∈ [5, 6]`, the bounds `[0, 2]`,
`[0, 1]` and the vector `(3, 1)` the scaled functions return `(1, 2)` and `(1, 1)`. -/
theorem qualViolationUnscaled_without_scaler (nRows nCols : ℕ) (solu : ℕ → ℚ) :
    qualConstraintViolationUnscaled none nRows solu = .ok (0, 0) ∧
    qualBoundViolationUnscaled none nCols solu = .ok (0, 0) ∧
    qualConstraintViolation (fun row => if row = 0 then [(0, 1)] else [(0, 1), (1, 1)]) 2
      (fun row => if row = 0 then 0 else 5) (fun row => if row = 0 then 2 else 6)
      (fun col => if col = 0 then 3 else 1) = .ok (1, 2) ∧
    qualConstraintViolationUnscaled none 2 (fun col => if col = 0 then 3 else 1) =
      .ok (0, 0) ∧
    qualBoundViolation 2 (fun _ => 0) (fun col => if col = 0 then 2 else 1)
      (fun col => if col = 0 then 3 else 1) = .ok (1, 1) ∧
    qualBoundViolationUnscaled none 2 (fun col => if col = 0 then 3 else 1) = .ok (0, 0) :=
  ⟨rfl, rfl, by decide!, rfl, by decide!, rfl⟩

theorem violationFoldl (v : ℕ → ℚ) :
    ∀ n : ℕ, (∀ k < n, 0 ≤ v k) →
      ∃ m : ℚ,
        (List.range n).foldl (fun (acc : ℚ × ℚ) k =>
          (if v k > acc.1 then v k else acc.1, acc.2 + v k)) ((0 : ℚ), (0 : ℚ)) =
          (m, ∑ k ∈ Finset.range n, v k) ∧
        (∀ k < n, v k ≤ m) ∧ ((n = 0 ∧ m = 0) ∨ ∃ k < n, m = v k) := by
  intro n
  induction n with
  | zero =>
    intro _
    exact ⟨0, rfl, fun k hk => absurd hk (Nat.not_lt_zero k), Or.inl ⟨rfl, rfl⟩⟩
  | succ n ih =>
    intro hv
    obtain ⟨m, hm, hle, hatt⟩ := ih (fun k hk => hv k (Nat.lt_succ_of_lt hk))
    refine ⟨if v n > m then v n else m, ?_, ?_, ?_⟩
    · rw [List.range_succ, List.foldl_append, hm]
      simp only [List.foldl, Finset.sum_range_succ]
    · intro k hk
      rcases Nat.lt_succ_iff_lt_or_eq.mp hk with h | h
      · have := hle k h
        split_ifs with h2
        · linarith
        · exact this
      · subst h
        split_ifs with h2
        · exact le_rfl
        · exact not_lt.mp h2
    · right
      by_cases h2 : v n > m
      · exact ⟨n, Nat.lt_succ_self n, by rw [if_pos h2]⟩
      · rw [if_neg h2]
        rcases hatt with ⟨h0, hm0⟩ | ⟨k, hk, hmk⟩
        · refine ⟨n, Nat.lt_succ_self n, ?_⟩
          have h3 := hv n (Nat.lt_succ_self n)
          rw [hm0] at h2 ⊢
          linarith
        · exact ⟨k, Nat.lt_succ_of_lt hk, hmk⟩

theorem rdCostViolation_nonneg (sense : SPxSense) (x : ℚ) : 0 ≤ rdCostViolation sense x := by
  cases sense <;> simp [rdCostViolation]

theorem qualRdCostViolation_fold (lp : QualLP) (rdcost : ℕ → ℚ) :
    qualRdCostViolation lp rdcost =
      (List.range lp.nCols).foldl (fun (acc : ℚ × ℚ) col =>
        (if rdCostViolation lp.spxSense (rdcost col) > acc.1
          then rdCostViolation lp.spxSense (rdcost col) else acc.1,
         acc.2 + rdCostViolation lp.spxSense (rdcost col))) (0, 0) := by
  have hv : ∀ col, (if lp.spxSense = SPxSense.MINIMIZE then
        (if rdcost col < 0 then -rdcost col else 0)
      else (if rdcost col > 0 then rdcost col else 0)) =
      rdCostViolation lp.spxSense (rdcost col) := by
    intro col
    cases hs : lp.spxSense
    · simp only [rdCostViolation, reduceCtorEq, if_false]
      split_ifs with h
      · rw [max_eq_right (le_of_lt h)]
      · rw [max_eq_left (not_lt.mp h)]
    · simp only [rdCostViolation, if_true]
      split_ifs with h
      · rw [max_eq_right (by linarith)]
      · rw [max_eq_left (by linarith)]
  unfold qualRdCostViolation
  simp only [hv]

/-- Claim C32: `qualRdCostViolation` reads the number of columns, the optimisation sense
and the contents of its local vector `rdcost` only: two problems that agree in these
(and differ in objective, constraint matrix, basis, primal and dual solution at will)
get the same `maxviol` and `sumviol`; `sumviol` is the sum and `maxviol` the maximum
(an upper bound that is attained, `0` without columns) of `max(0, -rdcost[col])` for
MINIMIZE and of `max(0, rdcost[col])` for MAXIMIZE. -/
theorem qualRdCostViolation_reads_rdcost_only (lp lp' : QualLP) (rdcost rdcost' : ℕ → ℚ)
    (hn : lp.nCols = lp'.nCols) (hs : lp.spxSense = lp'.spxSense)
    (hr : ∀ col < lp.nCols, rdcost col = rdcost' col) :
    qualRdCostViolation lp rdcost = qualRdCostViolation lp' rdcost' ∧
    (qualRdCostViolation lp rdcost).2 =
      ∑ col ∈ Finset.range lp.nCols, rdCostViolation lp.spxSense (rdcost col) ∧
    (∀ col < lp.nCols,
      rdCostViolation lp.spxSense (rdcost col) ≤ (qualRdCostViolation lp rdcost).1) ∧
    ((lp.nCols = 0 ∧ (qualRdCostViolation lp rdcost).1 = 0) ∨ ∃ col < lp.nCols,
      (qualRdCostViolation lp rdcost).1 = rdCostViolation lp.spxSense (rdcost col)) := by
  refine ⟨?_, ?_⟩
  · rw [qualRdCostViolation_fold, qualRdCostViolation_fold, ← hn, ← hs]
    apply List.foldl_ext
    intro acc col hcol
    rw [hr col (List.mem_range.mp hcol)]
  · obtain ⟨m, hm, hle, hatt⟩ := violationFoldl
      (fun col => rdCostViolation lp.spxSense (rdcost col)) lp.nCols
      (fun _ _ => rdCostViolation_nonneg _ _)
    rw [qualRdCostViolation_fold, hm]
    exact ⟨rfl, hle, hatt⟩

/-- Witness for C32: two problems with two columns, the sense MINIMIZE and the contents
`(-3, 2)` of `rdcost`: both get `maxviol = 3` and `sumviol = 3`. -/
theorem qualRdCostViolation_reads_rdcost_only_witness :
    qualRdCostViolation (exampleQualLP 1 0) (fun col => if col = 0 then -3 else 2) = (3, 3) ∧
    qualRdCostViolation (exampleQualLP 1 0) (fun col => if col = 0 then -3 else 2) =
      qualRdCostViolation (exampleQualLP 7 1)
        (fun col => if col = 0 then -3 else if col = 1 then 2 else 5) :=
  ⟨by decide!,
    (qualRdCostViolation_reads_rdcost_only (exampleQualLP 1 0) (exampleQualLP 7 1)
      (fun col => if col = 0 then -3 else 2)
      (fun col => if col = 0 then -3 else if col = 1 then 2 else 5) rfl rfl
      (by
        intro col hcol
        have h2 : col < 2 := hcol
        interval_cases col <;> simp)).1⟩

/-- Claim C38 (evaluation at the failing input): for the statistics of a run with one LU
solve and no iteration (all other counters and times zero) `Statistics::print`
evaluates exactly one division, `double(luSolves) / double(iterations)`, and its
divisor is `0`. In every state, every other division has a strictly positive divisor:
a division with a divisor that is not positive is the last one, `luSolves /
iterations`, with `luSolves > 0`. -/
theorem print_divides_by_zero_iterations :
    Statistics.print
      { readingTime := 0, solvingTime := 0, preprocessingTime := 0, simplexTime := 0,
        syncTime := 0, transformTime := 0, luFactorizationTime := 0, luSolveTime := 0,
        iterations := 0, iterationsFromBasis := 0, iterationsPrimal := 0,
        luFactorizations := 0, luSolves := 1, refinements := 0, stallRefinements := 0 } =
      [Division.mk 1 0] ∧
    ∀ (st : Statistics) (d : Division), d ∈ st.print → ¬ 0 < d.divisor →
      d = Division.mk st.luSolves st.iterations ∧ 0 < st.luSolves ∧ st.iterations ≤ 0 := by
  refine ⟨by decide!, ?_⟩
  intro st d hd hnp
  simp only [Statistics.print, List.mem_append] at hd
  have hq : ∀ (c : Prop) [Decidable c] (x : Division), d ∈ (if c then [x] else []) →
      c ∧ d = x := by
    intro c _ x h
    by_cases hc : c
    · rw [if_pos hc] at h
      exact ⟨hc, List.mem_singleton.mp h⟩
    · rw [if_neg hc] at h
      cases h
  have hsol : ∀ x : ℚ, d ∈ (if st.solvingTime > 0 then [Division.mk x st.solvingTime]
      else []) → False := by
    intro x h
    obtain ⟨hc, hd⟩ := hq _ _ h
    rw [hd] at hnp
    exact hnp hc
  have hit : ∀ x : ℚ, d ∈ (if st.iterations > 0 then [Division.mk x st.iterations]
      else []) → False := by
    intro x h
    obtain ⟨hc, hd⟩ := hq _ _ h
    rw [hd] at hnp
    exact hnp (by
      show (0 : ℚ) < ((st.iterations : ℤ) : ℚ)
      exact_mod_cast hc)
  rcases hd with (((((((((h | h) | h) | h) | h) | h) | h) | h) | h) | h) | h
  · exact (hsol _ h).elim
  · exact (hsol _ h).elim
  · exact (hsol _ h).elim
  · exact (hsol _ h).elim
  · exact (hsol _ h).elim
  · exact (hit _ h).elim
  · exact (hit _ h).elim
  · exact (hit _ h).elim
  · exact (hit _ h).elim
  · obtain ⟨hc, hd⟩ := hq _ _ h
    rw [hd] at hnp
    exact (hnp (by
      show (0 : ℚ) < ((st.luFactorizations : ℤ) : ℚ)
      exact_mod_cast hc)).elim
  · obtain ⟨hc, hd⟩ := hq _ _ h
    rw [hd] at hnp
    refine ⟨hd, hc, ?_⟩
    by_contra hcon
    exact hnp (by
      have : 0 < st.iterations := not_le.mp hcon
      show (0 : ℚ) < ((st.iterations : ℤ) : ℚ)
      exact_mod_cast this)

theorem log2Nat_eq_of_bounds (n m : ℕ) (h1 : 2 ^ m ≤ n) (h2 : n < 2 ^ (m + 1)) :
    log2Nat n = m := by
  have hn : 1 ≤ n := le_trans Nat.one_le_two_pow h1
  obtain ⟨b1, b2⟩ := log2Nat_bounds n hn
  have ha : log2Nat n < m + 1 :=
    (Nat.pow_lt_pow_iff_right (by norm_num : 1 < 2)).mp (lt_of_le_of_lt b1 h2)
  have hb : m < log2Nat n + 1 :=
    (Nat.pow_lt_pow_iff_right (by norm_num : 1 < 2)).mp (lt_of_le_of_lt h1 b2)
  omega

theorem log2Nat_eq_log (n : ℕ) : log2Nat n = Nat.log 2 n := by
  rcases Nat.eq_zero_or_pos n with h | h
  · subst h
    simp [log2Nat, log2Aux]
  · obtain ⟨b1, b2⟩ := log2Nat_bounds n h
    exact (Nat.log_eq_of_pow_le_of_lt_pow b1 b2).symm

theorem log2Nat_two_pow (M : ℕ) : log2Nat (2 ^ M) = M :=
  log2Nat_eq_of_bounds (2 ^ M) M le_rfl
    ((Nat.pow_lt_pow_iff_right (by norm_num : 1 < 2)).mpr (Nat.lt_succ_self M))

/-- The result of `powRound` at a power of two `2 ^ M`: the exponent `M + 1` passes the
cast to `unsigned int`. -/
theorem powRound_two_pow (M : ℕ) :
    powRound ((2 : ℚ) ^ M) = .ok ((2 : ℚ) ^ ((M + 1) % 2 ^ 32)) := by
  have hcast : ((2 : ℚ) ^ M) = (((2 ^ M : ℕ) : ℤ) : ℚ) := by push_cast; rfl
  have hfloor : ⌊((2 : ℚ) ^ M)⌋ = ((2 ^ M : ℕ) : ℤ) := by
    rw [hcast]
    exact Int.floor_intCast _
  have hpos : (0 : ℚ) < (2 : ℚ) ^ M := pow_pos (by norm_num) M
  have hfpos : 0 < ⌊((2 : ℚ) ^ M)⌋ := by
    rw [hfloor]
    exact_mod_cast Nat.pos_pow_of_pos M (by norm_num : 0 < 2)
  rw [powRound_eq_of_floor_pos _ hpos hfpos, hfloor, Int.toNat_natCast, log2Nat_two_pow]
  push_cast
  rfl

/-- Claim C33 (as amended): for every rational `r` with `1 ≤ r` below `2 ^ N` for some
`N < 2 ^ 32` (the bit length of its integer part passes the cast to `unsigned int`
unchanged), `powRound` returns the power of two `p = 2 ^ (⌊log₂ ⌊r⌋⌋ + 1)`, and
`r < p ≤ 2 * r`; for every `r` with `0 ≤ r < 1` it returns `2`. -/
theorem powRound_doubling_window (r : Rational) (N : ℕ) (h0 : 0 ≤ r) (hN : N < 2 ^ 32)
    (hb : r < 2 ^ N) :
    (1 ≤ r → ∃ p : ℚ, powRound r = .ok p ∧ p = 2 ^ (Nat.log 2 ⌊r⌋.toNat + 1) ∧
      r < p ∧ p ≤ 2 * r) ∧
    (r < 1 → powRound r = .ok 2) := by
  have hfl : (⌊r⌋ : ℚ) ≤ r := Int.floor_le r
  have hlt : r < (⌊r⌋ : ℚ) + 1 := Int.lt_floor_add_one r
  constructor
  · intro h1
    have hr : 0 < r := by linarith
    have hpos : 0 < ⌊r⌋ := Int.floor_pos.mpr h1
    obtain ⟨n, hn⟩ := Int.eq_ofNat_of_zero_le (le_of_lt hpos)
    have hn1 : 1 ≤ n := by omega
    have hbd := log2Nat_bounds n hn1
    have htoNat : ⌊r⌋.toNat = n := by rw [hn]; simp
    have hfq : (⌊r⌋ : ℚ) = (n : ℚ) := by rw [hn]; simp
    have hlow : ((2 : ℚ) ^ log2Nat n) ≤ r := by
      have : ((2 ^ log2Nat n : ℕ) : ℚ) ≤ (n : ℚ) := by exact_mod_cast hbd.1
      calc (2 : ℚ) ^ log2Nat n = ((2 ^ log2Nat n : ℕ) : ℚ) := by norm_cast
        _ ≤ (n : ℚ) := this
        _ ≤ r := by rw [← hfq]; exact hfl
    have hup : r < (2 : ℚ) ^ (log2Nat n + 1) := by
      have : ((n + 1 : ℕ) : ℚ) ≤ ((2 ^ (log2Nat n + 1) : ℕ) : ℚ) := by exact_mod_cast hbd.2
      calc r < (n : ℚ) + 1 := by rw [← hfq]; exact hlt
        _ = ((n + 1 : ℕ) : ℚ) := by norm_cast
        _ ≤ ((2 ^ (log2Nat n + 1) : ℕ) : ℚ) := this
        _ = (2 : ℚ) ^ (log2Nat n + 1) := by norm_cast
    have hsmall : log2Nat n < N := by
      have h2 : (2 : ℚ) ^ log2Nat n < 2 ^ N := lt_of_le_of_lt hlow hb
      exact (pow_lt_pow_iff_right₀ (by norm_num : (1 : ℚ) < 2)).mp h2
    have hmod : (log2Nat n + 1) % 2 ^ 32 = log2Nat n + 1 := Nat.mod_eq_of_lt (by omega)
    refine ⟨2 ^ (log2Nat n + 1), ?_, ?_, hup, ?_⟩
    · rw [powRound_eq_of_floor_pos r hr hpos, htoNat, hmod]
      norm_num
    · rw [htoNat, log2Nat_eq_log]
    · rw [pow_succ]
      linarith
  · intro h1
    rcases eq_or_lt_of_le h0 with hz | hr
    · rw [← hz]
      decide!
    · have hf0 : ⌊r⌋ = 0 := by
        rw [Int.floor_eq_iff]
        exact ⟨by simpa using h0, by simpa using h1⟩
      exact powRound_eq_of_floor_zero r hr hf0

/-- Witness for C33 (as amended) at `r = 5/2` (result `4`) and at `r = 0` (result `2`). -/
theorem powRound_doubling_window_witness :
    ((1 : ℚ) ≤ 5 / 2 → ∃ p : ℚ, powRound (5 / 2) = .ok p ∧
      p = 2 ^ (Nat.log 2 ⌊(5 / 2 : ℚ)⌋.toNat + 1) ∧ 5 / 2 < p ∧ p ≤ 2 * (5 / 2)) ∧
    powRound (5 / 2) = .ok 4 ∧ powRound 0 = .ok 2 :=
  ⟨(powRound_doubling_window (5 / 2) 2 (by norm_num) (by decide) (by norm_num)).1,
    by decide!,
    (powRound_doubling_window 0 0 le_rfl (by decide) (by norm_num)).2 (by norm_num)⟩

/-- Claim C33 (counterexample): at `r = 2 ^ (2 ^ 32 - 1)` the bit length of the integer
part is `2 ^ 32`, which the cast to `unsigned int` turns into `0`: `powRound` returns
`2 ^ 0 = 1`, which is not greater than `r`. -/
theorem powRound_wraps_at_huge_power :
    powRound ((2 : ℚ) ^ (2 ^ 32 - 1)) = .ok 1 ∧ (1 : ℚ) ≤ (2 : ℚ) ^ (2 ^ 32 - 1) ∧
      ¬ ((2 : ℚ) ^ (2 ^ 32 - 1) < 1) := by
  have hmod : (2 ^ 32 - 1 + 1) % 2 ^ 32 = 0 := by decide
  have h1 : (1 : ℚ) ≤ (2 : ℚ) ^ (2 ^ 32 - 1) := one_le_pow₀ (by norm_num : (1 : ℚ) ≤ 2)
  refine ⟨?_, h1, not_lt.mpr h1⟩
  rw [powRound_two_pow (2 ^ 32 - 1), hmod, pow_zero]

theorem toInt32_of_lt (x : ℕ) (h : x < 2 ^ 31) : toInt32 x = (x : ℤ) := by
  have h1 : x % 2 ^ 32 = x := Nat.mod_eq_of_lt (by omega)
  simp only [toInt32, h1, if_pos h]

theorem toInt32_of_ge (x : ℕ) (h1 : 2 ^ 31 ≤ x) (h2 : x < 2 ^ 32) :
    toInt32 x = (x : ℤ) - 2 ^ 32 := by
  have h3 : x % 2 ^ 32 = x := Nat.mod_eq_of_lt h2
  simp only [toInt32, h3, if_neg (not_lt.mpr h1)]

theorem addInt32_of_nonneg (a b : ℤ) (h0 : 0 ≤ a + b) (h : a + b < 2 ^ 31) :
    addInt32 a b = a + b := by
  obtain ⟨n, hn⟩ := Int.eq_ofNat_of_zero_le h0
  have hlt : n < 2 ^ 31 := by omega
  have hmod : (a + b) % 2 ^ 32 = (n : ℤ) := by
    rw [hn]
    exact Int.emod_eq_of_lt (by omega) (by omega)
  rw [addInt32, hmod, Int.toNat_natCast, toInt32_of_lt n hlt, hn]

theorem addInt32_of_neg (a b : ℤ) (h0 : -2 ^ 31 ≤ a + b) (h : a + b < 0) :
    addInt32 a b = a + b := by
  have hmod : (a + b) % 2 ^ 32 = a + b + 2 ^ 32 := by
    rw [← Int.add_emod_self]
    exact Int.emod_eq_of_lt (by omega) (by omega)
  obtain ⟨n, hn⟩ := Int.eq_ofNat_of_zero_le (by omega : 0 ≤ a + b + 2 ^ 32)
  rw [addInt32, hmod, hn, Int.toNat_natCast, toInt32_of_ge n (by omega) (by omega)]
  omega

theorem toSizeT_natCast (n : ℕ) (h : n < 2 ^ 64) : toSizeT (n : ℤ) = n := by
  have hmod : (n : ℤ) % 2 ^ 64 = (n : ℤ) := Int.emod_eq_of_lt (by omega) (by omega)
  rw [toSizeT, hmod, Int.toNat_natCast]

theorem bitLength_one : bitLength 1 = 1 := by decide

theorem bitLength_mono (a b : ℕ) (h : a ≤ b) : bitLength a ≤ bitLength b := by
  unfold bitLength
  rw [log2Nat_eq_log, log2Nat_eq_log]
  exact Nat.succ_le_succ (Nat.log_mono_right h)

theorem bitLength_le_of_lt_pow (n N : ℕ) (h : n < 2 ^ N) (hn : 1 ≤ n) : bitLength n ≤ N := by
  unfold bitLength
  have hb := (log2Nat_bounds n hn).1
  have : log2Nat n < N :=
    (Nat.pow_lt_pow_iff_right (by norm_num : 1 < 2)).mp (lt_of_le_of_lt hb h)
  omega

/-- In base two and for a positive integer `n`, both builds of `sizeInBase` return the
bit length of `n` plus one (the size of the denominator `1`), cast to `int`. -/
theorem sizeInBase_natCast (withGMP : Bool) (digits : ℕ → ℤ → ℕ) (digitsFloat : ℤ → ℤ → ℕ)
    (n : ℕ) (hn : 1 ≤ n) :
    sizeInBase withGMP digits digitsFloat (((n : ℕ) : ℤ) : ℚ) 2 =
      .ok (toInt32 (1 + bitLength n)) := by
  have hq : (((n : ℕ) : ℤ) : ℚ) = (n : ℚ) := by push_cast; rfl
  have hpos : (0 : ℚ) < (n : ℚ) := by exact_mod_cast hn
  have hden : ((n : ℚ)).den = 1 := Rat.den_natCast n
  have hnum : ((n : ℚ)).num = n := Rat.num_natCast n
  rw [hq]
  cases withGMP
  · rw [sizeInBase_two_of_pos _ _ _ hpos, hden, hnum, bitLength_one, Int.natAbs_ofNat]
  · rw [sizeInBase_gmp_two _ _ _ (ne_of_gt hpos), hden, hnum, bitLength_one,
      Int.natAbs_ofNat]

/-- The least common multiple of the loop as a natural number. -/
theorem denominatorLcm_eq (vector : ℕ → Rational) (length : ℕ) :
    denominatorLcm vector length =
      (((List.range length).foldl (fun l i => Nat.lcm l (vector i).den) 1 : ℕ) : ℤ) := by
  unfold denominatorLcm
  induction length with
  | zero => rfl
  | succ n ih =>
    rw [List.range_succ, List.foldl_append, List.foldl_append, ih]
    simp [SpxLcm, denominator, Int.lcm]

theorem natLcm_fold_pos (d : ℕ → ℕ) (hd : ∀ i, 0 < d i) (n : ℕ) :
    0 < (List.range n).foldl (fun l i => Nat.lcm l (d i)) 1 := by
  induction n with
  | zero => exact Nat.one_pos
  | succ n ih =>
    rw [List.range_succ, List.foldl_append]
    exact Nat.lcm_pos ih (hd n)

theorem natLcm_fold_dvd (d : ℕ → ℕ) (n : ℕ) :
    ∀ i < n, d i ∣ (List.range n).foldl (fun l i => Nat.lcm l (d i)) 1 := by
  induction n with
  | zero => intro i hi; omega
  | succ n ih =>
    intro i hi
    rw [List.range_succ, List.foldl_append]
    rcases Nat.lt_succ_iff_lt_or_eq.mp hi with h | h
    · exact dvd_trans (ih i h) (Nat.dvd_lcm_left _ _)
    · subst h
      exact Nat.dvd_lcm_right _ _

theorem natLcm_fold_const (d : ℕ → ℕ) (c : ℕ) (n : ℕ) (hn : 0 < n)
    (hc : ∀ i < n, d i = c) :
    (List.range n).foldl (fun l i => Nat.lcm l (d i)) 1 = c := by
  induction n with
  | zero => omega
  | succ n ih =>
    rw [List.range_succ, List.foldl_append]
    rcases Nat.eq_zero_or_pos n with h0 | hpos
    · subst h0
      simp [hc 0 (by omega)]
    · rw [ih hpos (fun i hi => hc i (by omega))]
      simp [hc n (by omega)]

/-- The loop of `dmaxSizeRational` in base two while no size leaves the range of `int`:
the result is an upper bound of the sizes `bitLength(den) + 2` that is attained, and
`0` for the empty vector. -/
theorem dmaxSizeRational_fold (withGMP : Bool) (digits : ℕ → ℤ → ℕ)
    (digitsFloat : ℤ → ℤ → ℕ) (vector : ℕ → Rational) (B : ℕ) (hB : B + 2 < 2 ^ 31) :
    ∀ n : ℕ, (∀ i < n, bitLength (vector i).den ≤ B) →
      ∃ m : ℕ,
        (List.range n).foldlM (fun (dmax : ℕ) i => do
          let s ← sizeInBase withGMP digits digitsFloat
            ((denominator (vector i) : ℤ) : ℚ) 2
          let dsize := toSizeT (addInt32 s 1)
          pure (if dsize > dmax then dsize else dmax)) 0 = Except.ok m ∧
        (∀ i < n, bitLength (vector i).den + 2 ≤ m) ∧
        ((n = 0 ∧ m = 0) ∨ ∃ i < n, m = bitLength (vector i).den + 2) := by
  intro n
  induction n with
  | zero =>
    intro _
    exact ⟨0, rfl, fun i hi => absurd hi (Nat.not_lt_zero i), Or.inl ⟨rfl, rfl⟩⟩
  | succ n ih =>
    intro hb
    obtain ⟨m, hm, hle, hatt⟩ := ih (fun i hi => hb i (Nat.lt_succ_of_lt hi))
    have hbn := hb n (Nat.lt_succ_self n)
    have hsize : sizeInBase withGMP digits digitsFloat
        ((denominator (vector n) : ℤ) : ℚ) 2 =
        .ok (toInt32 (1 + bitLength (vector n).den)) :=
      sizeInBase_natCast withGMP digits digitsFloat (vector n).den (vector n).den_pos
    have h1 : toInt32 (1 + bitLength (vector n).den) =
        ((1 + bitLength (vector n).den : ℕ) : ℤ) := toInt32_of_lt _ (by omega)
    have h2 : addInt32 ((1 + bitLength (vector n).den : ℕ) : ℤ) 1 =
        ((bitLength (vector n).den + 2 : ℕ) : ℤ) := by
      rw [addInt32_of_nonneg _ _ (by positivity) (by push_cast; omega)]
      push_cast
      ring
    have h3 : toSizeT ((bitLength (vector n).den + 2 : ℕ) : ℤ) =
        bitLength (vector n).den + 2 := toSizeT_natCast _ (by omega)
    refine ⟨if bitLength (vector n).den + 2 > m then bitLength (vector n).den + 2 else m,
      ?_, ?_, ?_⟩
    · rw [List.range_succ, List.foldlM_append, hm]
      simp only [List.foldlM, hsize, h1]
      show Except.ok (if toSizeT (addInt32 ((1 + bitLength (vector n).den : ℕ) : ℤ) 1) > m
        then toSizeT (addInt32 ((1 + bitLength (vector n).den : ℕ) : ℤ) 1) else m) = _
      rw [h2, h3]
    · intro i hi
      rcases Nat.lt_succ_iff_lt_or_eq.mp hi with h | h
      · have := hle i h
        split_ifs with h4
        · omega
        · exact this
      · subst h
        split_ifs with h4
        · exact le_rfl
        · omega
    · right
      by_cases h4 : bitLength (vector n).den + 2 > m
      · exact ⟨n, Nat.lt_succ_self n, by rw [if_pos h4]⟩
      · rw [if_neg h4]
        rcases hatt with ⟨h0, hm0⟩ | ⟨k, hk, hmk⟩
        · omega
        · exact ⟨k, Nat.lt_succ_of_lt hk, hmk⟩

theorem dlcmSizeRational_eq (withGMP : Bool) (digits : ℕ → ℤ → ℕ) (digitsFloat : ℤ → ℤ → ℕ)
    (vector : ℕ → Rational) (length : ℕ) (L : ℕ) (hL : denominatorLcm vector length = (L : ℤ))
    (hpos : 1 ≤ L) :
    dlcmSizeRational withGMP digits digitsFloat vector length 2 =
      .ok (addInt32 (toInt32 (1 + bitLength L)) 1) := by
  unfold dlcmSizeRational
  rw [hL]
  simp only [sizeInBase_natCast withGMP digits digitsFloat L hpos]
  rfl

/-- Claim C39 (as amended): for every rational vector whose denominators have a least
common multiple below `2 ^ N` with `N + 3 < 2 ^ 31` (so that no size leaves the range
of `int`), in base two and in both builds, `dmaxSizeRational ≤ dlcmSizeRational`; for
the empty vector the results are `0` and `3`; for a vector that is not empty and whose
denominators are all equal the two results are equal. -/
theorem dmaxSize_le_dlcmSize (withGMP : Bool) (digits : ℕ → ℤ → ℕ) (digitsFloat : ℤ → ℤ → ℕ)
    (vector : ℕ → Rational) (length N : ℕ) (hN : N + 3 < 2 ^ 31)
    (hb : denominatorLcm vector length < 2 ^ N) :
    ∃ dmax dlcm : ℤ,
      dmaxSizeRational withGMP digits digitsFloat vector length 2 = .ok dmax ∧
      dlcmSizeRational withGMP digits digitsFloat vector length 2 = .ok dlcm ∧
      dmax ≤ dlcm ∧
      (length = 0 → dmax = 0 ∧ dlcm = 3) ∧
      (0 < length → (∀ i < length, denominator (vector i) = denominator (vector 0)) →
        dmax = dlcm) := by
  have hL := denominatorLcm_eq vector length
  have hLpos := natLcm_fold_pos (fun i => (vector i).den) (fun i => (vector i).den_pos)
    length
  have hLdvd := natLcm_fold_dvd (fun i => (vector i).den) length
  generalize hLdef : (List.range length).foldl (fun l i => Nat.lcm l (vector i).den) 1 = L
    at hL hLpos hLdvd
  have hLlt : L < 2 ^ N := by
    rw [hL] at hb
    exact_mod_cast hb
  have hblL : bitLength L ≤ N := bitLength_le_of_lt_pow L N hLlt hLpos
  have hbl : ∀ i < length, bitLength (vector i).den ≤ bitLength L := fun i hi =>
    bitLength_mono _ _ (Nat.le_of_dvd hLpos (hLdvd i hi))
  obtain ⟨m, hm, hle, hatt⟩ := dmaxSizeRational_fold withGMP digits digitsFloat vector N
    (by omega) length (fun i hi => le_trans (hbl i hi) hblL)
  have hmle : m ≤ bitLength L + 2 := by
    rcases hatt with ⟨_, hm0⟩ | ⟨i, hi, hmi⟩
    · omega
    · rw [hmi]
      exact Nat.add_le_add_right (hbl i hi) 2
  have hdmax : dmaxSizeRational withGMP digits digitsFloat vector length 2 =
      .ok ((m : ℕ) : ℤ) := by
    unfold dmaxSizeRational
    rw [hm]
    show Except.ok (toInt32 m) = _
    rw [toInt32_of_lt m (by omega)]
  have hdlcm : dlcmSizeRational withGMP digits digitsFloat vector length 2 =
      .ok ((bitLength L + 2 : ℕ) : ℤ) := by
    rw [dlcmSizeRational_eq withGMP digits digitsFloat vector length L hL hLpos,
      toInt32_of_lt _ (by omega),
      addInt32_of_nonneg _ _ (by positivity) (by push_cast; omega)]
    push_cast
    ring_nf
  refine ⟨_, _, hdmax, hdlcm, by exact_mod_cast hmle, ?_, ?_⟩
  · intro h0
    subst h0
    have hL1 : L = 1 := by rw [← hLdef]; rfl
    have hm0 : m = 0 := by
      rcases hatt with ⟨_, hm0⟩ | ⟨i, hi, _⟩
      · exact hm0
      · omega
    rw [hm0, hL1, bitLength_one]
    exact ⟨rfl, rfl⟩
  · intro hpos heq
    have hc : ∀ i < length, (fun i => (vector i).den) i = (vector 0).den := by
      intro i hi
      have := heq i hi
      simp only [denominator] at this
      exact_mod_cast this
    have hLc : L = (vector 0).den := by
      rw [← hLdef]
      exact natLcm_fold_const (fun i => (vector i).den) _ length hpos hc
    rcases hatt with ⟨h0, _⟩ | ⟨i, hi, hmi⟩
    · omega
    · have := hc i hi
      simp only at this
      rw [hmi, this, hLc]

/-- Witness for C39 (as amended): the vector `(1/2, 1/3)`, whose denominators have the
least common multiple `6 < 2 ^ 3`; the sizes are `4` and `5`. -/
theorem dmaxSize_le_dlcmSize_witness :
    denominatorLcm (fun i => if i = 0 then 1 / 2 else 1 / 3) 2 < 2 ^ 3 ∧
    dmaxSizeRational true (fun _ _ => 0) (fun _ _ => 0)
      (fun i => if i = 0 then 1 / 2 else 1 / 3) 2 2 = .ok 4 ∧
    dlcmSizeRational true (fun _ _ => 0) (fun _ _ => 0)
      (fun i => if i = 0 then 1 / 2 else 1 / 3) 2 2 = .ok 5 ∧
    ∃ dmax dlcm : ℤ,
      dmaxSizeRational true (fun _ _ => 0) (fun _ _ => 0)
        (fun i => if i = 0 then 1 / 2 else 1 / 3) 2 2 = .ok dmax ∧
      dlcmSizeRational true (fun _ _ => 0) (fun _ _ => 0)
        (fun i => if i = 0 then 1 / 2 else 1 / 3) 2 2 = .ok dlcm ∧
      dmax ≤ dlcm := by
  obtain ⟨dmax, dlcm, h1, h2, h3, _, _⟩ := dmaxSize_le_dlcmSize true (fun _ _ => 0)
    (fun _ _ => 0) (fun i => if i = 0 then 1 / 2 else 1 / 3) 2 3 (by decide) (by decide!)
  exact ⟨by decide!, by decide!, by decide!, dmax, dlcm, h1, h2, h3⟩

theorem hugeDenominators_den_zero (K : ℕ) : (hugeDenominators K 0).den = 2 ^ K := by
  simp only [hugeDenominators, if_true]
  exact Rat.inv_natCast_den_of_pos (Nat.pos_pow_of_pos K (by norm_num))

theorem hugeDenominators_den_one (K : ℕ) : (hugeDenominators K 1).den = 7 := by
  simp only [hugeDenominators, if_neg (by decide : ¬ (1 = 0))]
  exact Rat.inv_natCast_den_of_pos (by norm_num)

theorem bitLength_two_pow (K : ℕ) : bitLength (2 ^ K) = K + 1 := by
  rw [bitLength, log2Nat_two_pow]

theorem bitLength_two_pow_mul_seven (K : ℕ) : bitLength (2 ^ K * 7) = K + 3 := by
  have hp : 0 < 2 ^ K := Nat.pos_pow_of_pos K (by norm_num)
  have e1 : 2 ^ (K + 2) = 2 ^ K * 4 := by ring
  have e2 : 2 ^ (K + 2 + 1) = 2 ^ K * 8 := by ring
  have h : log2Nat (2 ^ K * 7) = K + 2 := by
    apply log2Nat_eq_of_bounds
    · rw [e1]
      linarith
    · rw [e2]
      linarith
  rw [bitLength, h]

/-- The sizes of the vector with the denominators `2 ^ K` and `7` when `K + 3` fits an
`int` and `K + 4` does not. -/
theorem hugeDenominators_sizes (withGMP : Bool) (digits : ℕ → ℤ → ℕ)
    (digitsFloat : ℤ → ℤ → ℕ) (K : ℕ) (h1 : 2 ≤ K) (h2 : K + 3 < 2 ^ 31)
    (h3 : 2 ^ 31 ≤ K + 4) :
    dmaxSizeRational withGMP digits digitsFloat (hugeDenominators K) 2 2 =
      .ok ((K : ℤ) + 3) ∧
    dlcmSizeRational withGMP digits digitsFloat (hugeDenominators K) 2 2 =
      .ok ((K : ℤ) + 5 - 2 ^ 32) := by
  have hd0 := hugeDenominators_den_zero K
  have hd1 := hugeDenominators_den_one K
  constructor
  · obtain ⟨m, hm, hle, hatt⟩ := dmaxSizeRational_fold withGMP digits digitsFloat
      (hugeDenominators K) (K + 1) (by omega) 2 (by
        intro i hi
        interval_cases i
        · rw [hd0, bitLength_two_pow]
        · rw [hd1]
          have : bitLength 7 = 3 := by decide
          omega)
    have hge := hle 0 (by norm_num)
    rw [hd0, bitLength_two_pow] at hge
    have hmK : m = K + 3 := by
      rcases hatt with ⟨h0, _⟩ | ⟨i, hi, hmi⟩
      · omega
      · interval_cases i
        · rw [hmi, hd0, bitLength_two_pow]
        · rw [hd1] at hmi
          have : bitLength 7 = 3 := by decide
          omega
    unfold dmaxSizeRational
    rw [hm]
    show Except.ok (toInt32 m) = _
    rw [toInt32_of_lt m (by omega), hmK]
    push_cast
    rfl
  · have hL : denominatorLcm (hugeDenominators K) 2 = ((2 ^ K * 7 : ℕ) : ℤ) := by
      rw [denominatorLcm_eq]
      have hr : List.range 2 = [0, 1] := rfl
      rw [hr]
      simp only [List.foldl, hd0, hd1, Nat.lcm_one_left]
      rw [Nat.Coprime.lcm_eq_mul (Nat.Coprime.pow_left K (by decide))]
    rw [dlcmSizeRational_eq withGMP digits digitsFloat _ 2 (2 ^ K * 7) hL
      (Nat.mul_pos (Nat.pos_pow_of_pos K (by norm_num)) (by norm_num)),
      bitLength_two_pow_mul_seven, toInt32_of_ge _ (by omega) (by omega),
      addInt32_of_neg _ _ (by push_cast; omega) (by push_cast; omega)]
    push_cast
    ring_nf

/-- Claim C39 (counterexample): for the vector `(1 / 2 ^ (2 ^ 31 - 4), 1 / 7)` the largest
denominator has the size `2 ^ 31 - 1`, the largest `int`, while the size of the least
common multiple `7 * 2 ^ (2 ^ 31 - 4)` leaves the range of `int` in the cast
`(int)(densize + numsize)` of `sizeInBase` and `dlcmSizeRational` returns the negative
value `-2 ^ 31 + 1`, in both builds: `dmaxSizeRational > dlcmSizeRational`. -/
theorem dmaxSize_exceeds_dlcmSize :
    dmaxSizeRational true (fun _ _ => 0) (fun _ _ => 0) (hugeDenominators (2 ^ 31 - 4)) 2 2 =
      .ok (2 ^ 31 - 1) ∧
    dlcmSizeRational true (fun _ _ => 0) (fun _ _ => 0) (hugeDenominators (2 ^ 31 - 4)) 2 2 =
      .ok (-2 ^ 31 + 1) ∧
    dmaxSizeRational false (fun _ _ => 0) (fun _ _ => 0) (hugeDenominators (2 ^ 31 - 4)) 2 2 =
      .ok (2 ^ 31 - 1) ∧
    dlcmSizeRational false (fun _ _ => 0) (fun _ _ => 0) (hugeDenominators (2 ^ 31 - 4)) 2 2 =
      .ok (-2 ^ 31 + 1) ∧
    ¬ ((2 ^ 31 - 1 : ℤ) ≤ -2 ^ 31 + 1) := by
  have hK1 : 2 ≤ 2 ^ 31 - 4 := by decide
  have hK2 : 2 ^ 31 - 4 + 3 < 2 ^ 31 := by decide
  have hK3 : 2 ^ 31 ≤ 2 ^ 31 - 4 + 4 := by decide
  have e1 : (((2 ^ 31 - 4 : ℕ) : ℤ)) + 3 = 2 ^ 31 - 1 := by decide
  have e2 : (((2 ^ 31 - 4 : ℕ) : ℤ)) + 5 - 2 ^ 32 = -2 ^ 31 + 1 := by decide
  obtain ⟨a1, a2⟩ := hugeDenominators_sizes true (fun _ _ => 0) (fun _ _ => 0) (2 ^ 31 - 4)
    hK1 hK2 hK3
  obtain ⟨b1, b2⟩ := hugeDenominators_sizes false (fun _ _ => 0) (fun _ _ => 0) (2 ^ 31 - 4)
    hK1 hK2 hK3
  rw [e1] at a1 b1
  rw [e2] at a2 b2
  exact ⟨a1, a2, b1, b2, by decide⟩

/-- Claim C31 (evaluation at the failing inputs): for every `val` with `|val| ≤ epsilon`
in a state that passes the three initial assertions, neither branch of `selectEnter`
is entered; control reaches the final assertions with `max = 0`, `sel = 0` and the
`enterId` as constructed, which is invalid. The first assertion holds (`0 * val ≥ 0`)
and the second one, `enterId.type() != SPxId::INVALID`, fails; compiled without
assertions the function returns the invalid id. -/
theorem selectEnter_small_val_invalid (ctx : EnterContext) (delta infinity : ℚ) (fuel : ℕ)
    (s : EnterSolver) (val : ℚ)
    (hassert : delta > s.epsilon ∧ s.epsilon > 0 ∧ ctx.maxCycle > 0)
    (hval : |val| ≤ s.epsilon) :
    selectEnterBranches ctx delta infinity fuel s val =
      .ok (.final 0 0 EnterId.invalid ((s.setupC ctx.cDim).setupP ctx.pDim)) ∧
    (0 : ℚ) * val ≥ 0 ∧
    selectEnter ctx delta infinity fuel s val = .error .assertion ∧
    (selectEnterNoAssert ctx delta infinity fuel s val).toOption.map
      (fun r => (r.enterId, r.val)) = some (EnterId.invalid, 0) := by
  obtain ⟨h1, h2⟩ := abs_le.mp hval
  have hb : selectEnterBranches ctx delta infinity fuel s val =
      .ok (.final 0 0 EnterId.invalid ((s.setupC ctx.cDim).setupP ctx.pDim)) := by
    unfold selectEnterBranches
    simp only [not_not.mpr hassert, if_false]
    rw [if_neg (not_lt.mpr h2), if_neg (not_lt.mpr h1)]
  refine ⟨hb, by simp, ?_, ?_⟩
  · unfold selectEnter
    rw [hb]
    simp
  · unfold selectEnterNoAssert
    rw [hb]
    rfl

/-- Witness for C31: the example state with `epsilon = 1/1000` and `val = 0`. -/
theorem selectEnter_small_val_invalid_witness :
    selectEnter exampleEnterContext (1 / 10) (10 ^ 100) 5 exampleEnterSolver 0 =
      .error .assertion ∧
    (selectEnterNoAssert exampleEnterContext (1 / 10) (10 ^ 100) 5 exampleEnterSolver
      0).toOption.map (fun r => (r.enterId, r.val)) = some (EnterId.invalid, 0) :=
  have h := selectEnter_small_val_invalid exampleEnterContext (1 / 10) (10 ^ 100) 5
    exampleEnterSolver 0 (by decide!) (by decide!)
  ⟨h.2.2.1, h.2.2.2⟩

/-- The model of `selectEnter` on a path through the branch `val > epsilon`: in the
example state with `val = 2` the row update `1/2000` is removed, the column is
selected with the step `1`, and the final assertions hold. -/
theorem selectEnter_example_column :
    (selectEnter exampleEnterContext (1 / 10) (10 ^ 100) 5 exampleEnterSolver 2).toOption.map
      (fun r => (r.enterId, r.val)) = some (EnterId.coId 0, 1) := by
  decide!

/-! ### Exact and binary64 arithmetic

The definitions `maxDelta`, `minDelta`, `selectLeave`, `qualConstraintViolation` and
`qualBoundViolation` are the source's functions with exact operations on `Real`: each
is its rounded counterpart at `fl := id`. -/

theorem maxDeltaFl_id (delta infinity max val : ℚ) (idx : List ℕ) (upd vec low up : ℕ → ℚ)
    (epsilon : ℚ) :
    maxDeltaFl id delta infinity max val idx upd vec low up epsilon =
      maxDelta delta infinity max val idx upd vec low up epsilon := rfl

theorem minDeltaFl_id (delta infinity max val : ℚ) (idx : List ℕ) (upd vec low up : ℕ → ℚ)
    (epsilon : ℚ) :
    minDeltaFl id delta infinity max val idx upd vec low up epsilon =
      minDelta delta infinity max val idx upd vec low up epsilon := rfl

theorem leaveLoopPosFl_id (max useeps degeneps epsilon : ℚ) (j : ℕ) (c : LeaveScan) :
    leaveLoopPosFl id max useeps degeneps epsilon j c =
      leaveLoopPos max useeps degeneps epsilon j c := by
  induction j generalizing c with
  | zero => rfl
  | succ j ih =>
    show leaveLoopPosFl id max useeps degeneps epsilon j
      (leaveBodyPosFl id max useeps degeneps epsilon j c) = _
    rw [ih]
    rfl

theorem leaveLoopNegFl_id (max useeps degeneps epsilon : ℚ) (j : ℕ) (c : LeaveScan) :
    leaveLoopNegFl id max useeps degeneps epsilon j c =
      leaveLoopNeg max useeps degeneps epsilon j c := by
  induction j generalizing c with
  | zero => rfl
  | succ j ih =>
    show leaveLoopNegFl id max useeps degeneps epsilon j
      (leaveBodyNegFl id max useeps degeneps epsilon j c) = _
    rw [ih]
    rfl

theorem selectLeaveFl_id (delta infinity : ℚ) (fuel : ℕ) (s : Solver) (val : ℚ) :
    selectLeaveFl id delta infinity fuel s val = selectLeave delta infinity fuel s val := by
  induction fuel generalizing s with
  | zero => rfl
  | succ fuel ih =>
    simp only [selectLeaveFl, selectLeave, maxDeltaFl_id, minDeltaFl_id, leaveLoopPosFl_id,
      leaveLoopNegFl_id, ih]
    rfl

theorem qualConstraintViolationFl_id (rowVector : ℕ → List (ℕ × ℚ)) (nRows : ℕ)
    (lhs rhs : ℕ → ℚ) (solu : ℕ → ℚ) :
    qualConstraintViolationFl id rowVector nRows lhs rhs solu =
      qualConstraintViolation rowVector nRows lhs rhs solu := rfl

theorem qualBoundViolationFl_id (nCols : ℕ) (lower upper : ℕ → ℚ) (solu : ℕ → ℚ) :
    qualBoundViolationFl id nCols lower upper solu =
      qualBoundViolation nCols lower upper solu := rfl

/-- The property of C17 (as amended) in binary64 arithmetic: for `fVec = (0, 0)`,
`upd = (7, 1)`, `ubBound = (1, 5790342378047781 / 2 ^ 55)`, `delta = 1/8` and `val = 1`
the rounded envelope admits the index `1`, which is returned with the step
`5790342378047781 / 2 ^ 55`, and component `0` exceeds its relaxed bound by
`3 / 2 ^ 55`; with exact operations the index `0` is returned with the step `1/7`. -/
theorem selectLeaveFl_relaxed_bound_rounding :
    (selectLeaveFl roundDouble (1 / 8) double1e100 3
      (exampleSolverFl 2 (fun _ => 0) (fun i => if i = 0 then 7 else 1)
        (fun i => if i = 0 then 1 else 5790342378047781 / 2 ^ 55)
        (fun _ => -double1e100)) 1).toOption.map (fun r => (r.leave, r.val, r.s.theShift)) =
      some (1, 5790342378047781 / 2 ^ 55, 0) ∧
    ¬ ((0 : ℚ) + 5790342378047781 / 2 ^ 55 * 7 ≤ 1 + 1 / 8) ∧
    (selectLeave (1 / 8) double1e100 3
      (exampleSolverFl 2 (fun _ => 0) (fun i => if i = 0 then 7 else 1)
        (fun i => if i = 0 then 1 else 5790342378047781 / 2 ^ 55)
        (fun _ => -double1e100)) 1).toOption.map (fun r => (r.leave, r.val)) =
      some (0, 1 / 7) := by
  refine ⟨by decide!, by norm_num, by decide!⟩

/-- The property of C18 (as amended) in binary64 arithmetic, with `epsilon` the double
`0.001` and `t` the double `3/2 - epsilon`: for `fVec = (0, 0)`, `upd = (2, 1)`,
`ubBound = (2 t, 3/2)`, `delta = 1/8` and `val = 10` the index `1` is selected first
with the step `3/2`, and the index `0` with the larger pivot `2` and the step `t` is
rejected by the rounded test `y > sel - epsilon` (`t > t`), although no step reaches
`t + epsilon`; no bound is shifted. With exact operations the index `0` is returned. -/
theorem selectLeaveFl_pivot_choice_rounding :
    (selectLeaveFl roundDouble (1 / 8) double1e100 3
      { exampleSolverFl 2 (fun _ => 0) (fun i => if i = 0 then 2 else 1)
          (fun i => if i = 0 then 2 * roundDouble (3 / 2 - roundDouble (1 / 1000)) else 3 / 2)
          (fun _ => -double1e100) with epsilon := roundDouble (1 / 1000) }
      10).toOption.map (fun r => (r.leave, r.val, r.s.theShift)) = some (1, 3 / 2, 0) ∧
    (3 / 2 : ℚ) < roundDouble (3 / 2 - roundDouble (1 / 1000)) + roundDouble (1 / 1000) ∧
    (selectLeave (1 / 8) double1e100 3
      { exampleSolverFl 2 (fun _ => 0) (fun i => if i = 0 then 2 else 1)
          (fun i => if i = 0 then 2 * roundDouble (3 / 2 - roundDouble (1 / 1000)) else 3 / 2)
          (fun _ => -double1e100) with epsilon := roundDouble (1 / 1000) }
      10).toOption.map (fun r => (r.leave, r.val)) =
      some (0, roundDouble (3 / 2 - roundDouble (1 / 1000))) := by
  refine ⟨by decide!, by decide!, by decide!⟩

/-- The property of C20 (as amended) in binary64 arithmetic: for `fVec = 0`,
`ubBound = 2 ^ (-1074)` (the smallest positive double), `upd = 4` and `val = 1` the
quotient `y / x = 2 ^ (-1076)` underflows to `0`, and `selectLeave` returns the index
`0` with the step `0` although `fVec[0] < ubBound[0]`. -/
theorem selectLeaveFl_zero_step_underflow :
    (selectLeaveFl roundDouble (1 / 8) double1e100 3
      (exampleSolverFl 1 (fun _ => 0) (fun _ => 4) (fun _ => 1 / 2 ^ 1074)
        (fun _ => -double1e100)) 1).toOption.map (fun r => (r.leave, r.val)) =
      some (0, 0) ∧
    (0 : ℚ) < 1 / 2 ^ 1074 := by
  refine ⟨by decide!, by positivity⟩

end Soplex
